import Mathlib

/-!
# Global Code Motion (GCM.cpp): embedding and verification

The pass of `src/GCM.cpp` is embedded as pure functions over an explicit state.

* Instructions and basic blocks are identified by natural numbers.
* The operands, the phi incoming blocks and the use list of an instruction are never written by
  the pass; they live in the immutable table `Function`.
* What the pass mutates lives in `GCMState`: the instruction sequence of every basic block
  (`Instruction::moveBefore`), and the two members of the pass object, `visited` and
  `dominatorTreeDepth`.
* Pointers that may be null are `Option`s.  Dereferencing a null pointer is the fault
  `Fault.nullDeref`; recursion and loops are bounded by a fuel argument and running out of it
  is the distinct fault `Fault.outOfFuel`.
* The use list of an instruction has one entry per use, named by the consumer that holds the
  use; a consumer that holds a value in several operand slots occurs once per slot.
* Dereferencing a use iterator (`*i` in `scheduleLate` and `runOnFunction`) yields the `Use`,
  and `dyn_cast<Instruction>` of a `Use` is the cast of the value it holds, the used value
  (GCM.cpp 139 reads an operand through the same cast). At GCM.cpp 83, 118 and 176 `UI` is
  therefore `I` itself, once per use, although the comments of the source ("Iterating over all
  the uses of I", "Checks if the use UI of I is a phi instruction") speak of the consumer. See
  `Function.derefUses`.
-/

namespace GCM

/-! ## Instructions -/

/-- Opcodes of the instruction set the pass is compiled against. -/
inductive Opcode where
  | ret | br | switch | indirectBr | invoke | resume | unreachable
  | cleanupRet | catchRet | catchSwitch
  | add | fadd | sub | fsub | mul | fmul | udiv | sdiv | fdiv | urem | srem | frem
  | shl | lshr | ashr | and | or | xor
  | alloca | load | store | getElementPtr | fence | atomicCmpXchg | atomicRMW
  | trunc | zext | sext | fpToUI | fpToSI | uiToFP | siToFP | fpTrunc | fpExt
  | ptrToInt | intToPtr | bitCast | addrSpaceCast
  | cleanupPad | catchPad
  | icmp | fcmp | phi | call | select | userOp1 | userOp2 | vaArg
  | extractElement | insertElement | shuffleVector | extractValue | insertValue | landingPad
  deriving DecidableEq, Repr

/-- The test `isa<PHINode>`. -/
def Opcode.isPHINode : Opcode → Bool
  | .phi => true
  | _ => false

/-- The test `isa<TerminatorInst>`: the opcodes of the terminator range. -/
def Opcode.isTerminatorInst : Opcode → Bool
  | .ret | .br | .switch | .indirectBr | .invoke | .resume | .unreachable
  | .cleanupRet | .catchRet | .catchSwitch => true
  | _ => false

/-- The test `isa<ReturnInst>`. -/
def Opcode.isReturnInst : Opcode → Bool
  | .ret => true
  | _ => false

/-- The test `isa<CallInst>`. -/
def Opcode.isCallInst : Opcode → Bool
  | .call => true
  | _ => false

/-- The query `Instruction::isEHPad`. -/
def Opcode.isEHPad : Opcode → Bool
  | .catchSwitch | .catchPad | .cleanupPad | .landingPad => true
  | _ => false

/-- The test `isa<LandingPadInst>`. -/
def Opcode.isLandingPadInst : Opcode → Bool
  | .landingPad => true
  | _ => false

/-- The test `isa<FuncletPadInst>`. -/
def Opcode.isFuncletPadInst : Opcode → Bool
  | .cleanupPad | .catchPad => true
  | _ => false

/-- The method `GCM::isPinned` (GCM.cpp 61-68), on the opcode of the instruction. -/
def isPinned (I : Opcode) : Bool :=
  if I.isPHINode || I.isTerminatorInst || I.isReturnInst ||
     I.isCallInst || I.isEHPad || I.isLandingPadInst ||
     I.isFuncletPadInst then
    true
  else
    false

/-- An operand: another instruction, or a value that is no instruction (constant, argument,
basic block, ...), on which `dyn_cast<Instruction>` fails. -/
inductive Value where
  | inst (id : Nat)
  | other
  deriving DecidableEq, Repr

/-- The immutable part of an instruction. `incoming` is only meaningful for a phi: the
predecessor block of each operand slot, in slot order. `users` is the use list, in the order
the use iterator enumerates it. -/
structure Instruction where
  opcode : Opcode
  operands : List Value
  incoming : List Nat
  users : List Nat
  deriving DecidableEq, Repr

/-- The instruction table of a function; an instruction's identity is its index. -/
structure Function where
  insts : List Instruction
  deriving DecidableEq, Repr

/-- Lookup in the instruction table (an unknown id reads as an operand-less `unreachable`). -/
def Function.inst (F : Function) (i : Nat) : Instruction :=
  F.insts.getD i ⟨Opcode.unreachable, [], [], []⟩

/-- Opcode of instruction `i`. -/
def Function.opcode (F : Function) (i : Nat) : Opcode := (F.inst i).opcode

/-- Operand list of instruction `i`. -/
def Function.operands (F : Function) (i : Nat) : List Value := (F.inst i).operands

/-- Use list of instruction `i`. -/
def Function.users (F : Function) (i : Nat) : List Nat := (F.inst i).users

/-- The instructions that `dyn_cast<Instruction>(*i)` yields for the uses `i` of `I`, in the
order of the use list (GCM.cpp 82-83, 117-118, 175-176): a `Value::use_iterator` dereferences
to the `Use`, which casts to the used value, so every use of `I` yields `I` itself, whoever
the consumer is. -/
def Function.derefUses (F : Function) (I : Nat) : List Nat := (F.users I).map (fun _ => I)

/-- Whether instruction `i` of `F` is pinned. -/
def Function.pinned (F : Function) (i : Nat) : Bool := isPinned (F.opcode i)

/-! ## Basic blocks and the mutable state -/

/-- A basic block: its identity and its instruction sequence. -/
structure BasicBlock where
  label : Nat
  insts : List Nat
  deriving DecidableEq, Repr

/-- Faults of an execution. -/
inductive Fault where
  | nullDeref
  | outOfFuel
  deriving DecidableEq, Repr

/-- The mutable state: the block list of the function (in layout order) and the two members of
the pass object. -/
structure GCMState where
  blocks : List BasicBlock
  dominatorTreeDepth : List (Nat × Nat)
  visited : List Nat
  deriving DecidableEq, Repr

/-- The query `Instruction::getParent`: the block holding instruction `i`. -/
def getParent (bs : List BasicBlock) (i : Nat) : Option Nat :=
  (bs.find? (fun b => decide (i ∈ b.insts))).map (fun b => b.label)

/-- Instruction sequence of block `b` (`none` when there is no such block). -/
def blockInsts (bs : List BasicBlock) (b : Nat) : Option (List Nat) :=
  (bs.find? (fun B => B.label = b)).map (fun B => B.insts)

/-- The query `BasicBlock::getTerminator`: the last instruction when it is a terminator,
null otherwise. -/
def getTerminator (F : Function) (bs : List BasicBlock) (b : Nat) : Option Nat :=
  match blockInsts bs b with
  | none => none
  | some is =>
    match is.getLast? with
    | none => none
    | some t => if (F.opcode t).isTerminatorInst then some t else none

/-- Unlink instruction `i` from every sequence. -/
def removeInst (bs : List BasicBlock) (i : Nat) : List BasicBlock :=
  bs.map (fun b => { b with insts := b.insts.filter (fun x => x ≠ i) })

/-- Insert `i` immediately before the first occurrence of `u` in a sequence. -/
def insertBeforeIn (i u : Nat) : List Nat → List Nat
  | [] => []
  | x :: xs => if x = u then i :: x :: xs else x :: insertBeforeIn i u xs

/-- Link `i` immediately before `u`. -/
def insertBefore (bs : List BasicBlock) (i u : Nat) : List BasicBlock :=
  bs.map (fun b => { b with insts := insertBeforeIn i u b.insts })

/-- The method `Instruction::moveBefore`: splice `i` out of its block and in front of `u`. Splicing an
instruction in front of itself changes nothing; a null position or an instruction without
parent is a fault. -/
def moveBefore (bs : List BasicBlock) (i : Nat) (u : Option Nat) :
    Except Fault (List BasicBlock) :=
  match u with
  | none => .error .nullDeref
  | some u =>
    match getParent bs u, getParent bs i with
    | some _, some _ => if i = u then .ok bs else .ok (insertBefore (removeInst bs i) i u)
    | _, _ => .error .nullDeref

/-- Read `dominatorTreeDepth[b]`: a key without entry (the null block included) reads 0. -/
def depthOf (m : List (Nat × Nat)) : Option Nat → Nat
  | none => 0
  | some b => (m.lookup b).getD 0

/-- Read `visited[I]`. -/
def GCMState.isVisited (s : GCMState) (i : Nat) : Bool := decide (i ∈ s.visited)

/-- The assignment `visited[I] = true`. -/
def GCMState.markVisited (s : GCMState) (i : Nat) : GCMState :=
  { s with visited := i :: s.visited }

/-! ## Dominator tree and loop nest -/

/-- Modelled from the spec: the dominator tree is supplied by an external analysis. It is a
tree over basic blocks where a block's parent is its immediate dominator; the entry block
(`root`) has none. `idoms` lists (block, immediate dominator). -/
structure DominatorTree where
  root : Nat
  idoms : List (Nat × Nat)
  deriving DecidableEq, Repr

/-- The immediate dominator `DT->getNode(b)->getIDom()->getBlock()` of a block. -/
def DominatorTree.getIDom (DT : DominatorTree) (b : Nat) : Option Nat := DT.idoms.lookup b

/-- Children of a node, `N->getChildren()`. -/
def DominatorTree.getChildren (DT : DominatorTree) (b : Nat) : List Nat :=
  (DT.idoms.filter (fun e => e.2 = b)).map (fun e => e.1)

/-- The chain `b, idom b, idom (idom b), ...` of at most `n` immediate-dominator steps. -/
def DominatorTree.chainUp (DT : DominatorTree) : Nat → Nat → List Nat
  | 0, b => [b]
  | n + 1, b =>
    match DT.getIDom b with
    | none => [b]
    | some p => b :: DT.chainUp n p

/-- The dominators of `b`, nearest first (`b` itself, then its strict dominators up the tree). -/
def DominatorTree.domChain (DT : DominatorTree) (b : Nat) : List Nat :=
  DT.chainUp DT.idoms.length b

/-- Modelled from the spec: the "is-dominated-by" relation of the dominator tree, `a`
dominates `b`. -/
def DominatorTree.dominates (DT : DominatorTree) (a b : Nat) : Bool :=
  decide (a ∈ DT.domChain b)

/-- Modelled from the spec: `DominatorTree::findNearestCommonDominator`, the deepest block in
the dominator tree that dominates both inputs (null when there is none). -/
def DominatorTree.findNearestCommonDominator (DT : DominatorTree) (a b : Nat) : Option Nat :=
  (DT.domChain b).find? (fun x => decide (x ∈ DT.domChain a))

/-- A loop of the loop nest: the blocks it contains (those of nested loops included) and its
nesting depth `getLoopDepth()` (1 for an outermost loop). -/
structure Loop where
  header : Nat
  blocks : List Nat
  depth : Nat
  deriving DecidableEq, Repr

/-- Modelled from the spec: the loop nest maps each basic block to the innermost enclosing
loop, or to none. -/
structure LoopInfo where
  bbMap : List (Nat × Loop)
  deriving DecidableEq, Repr

/-- The query `LI->getLoopFor(b)`; the null block is in no loop. -/
def LoopInfo.getLoopFor (LI : LoopInfo) : Option Nat → Option Loop
  | none => none
  | some b => LI.bbMap.lookup b

/-! ## The pass -/

/-- The loop over `N->getChildren()` of `annotateBasicBlocks` (GCM.cpp 56-57); `rec` is the
recursive call with `depth + 1` already supplied. -/
def annotateChildren (rec : Nat → List (Nat × Nat) → Except Fault (List (Nat × Nat))) :
    List Nat → List (Nat × Nat) → Except Fault (List (Nat × Nat))
  | [], m => .ok m
  | Child :: rest, m =>
    match rec Child m with
    | .error e => .error e
    | .ok m1 => annotateChildren rec rest m1

/-- The method `GCM::annotateBasicBlocks` (GCM.cpp 54-58): record the depth of node `N` and recurse into
its children with `depth + 1`. -/
def annotateBasicBlocks (DT : DominatorTree) :
    Nat → Nat → Nat → List (Nat × Nat) → Except Fault (List (Nat × Nat))
  | 0, _, _, _ => .error .outOfFuel
  | fuel + 1, N, depth, m =>
    annotateChildren (fun Child acc => annotateBasicBlocks DT fuel Child (depth + 1) acc)
      (DT.getChildren N) ((N, depth) :: m)

/-- The method `GCM::findLCA` (GCM.cpp 71-73). -/
def findLCA (a b : Nat) (DT : DominatorTree) : Option Nat :=
  DT.findNearestCommonDominator a b

/-- The operand loop of `scheduleEarly` (GCM.cpp 138-145); `rec` is the recursive call. -/
def earlyOperandLoop (rec : Nat → GCMState → Except Fault GCMState) :
    List Value → Option Nat → GCMState → Except Fault (Option Nat × GCMState)
  | [], instBlock, s => .ok (instBlock, s)
  | .other :: rest, instBlock, s => earlyOperandLoop rec rest instBlock s
  | .inst input :: rest, instBlock, s =>
    match rec input s with
    | .error e => .error e
    | .ok s1 =>
      if depthOf s1.dominatorTreeDepth instBlock
          < depthOf s1.dominatorTreeDepth (getParent s1.blocks input) then
        earlyOperandLoop rec rest (getParent s1.blocks input) s1
      else
        earlyOperandLoop rec rest instBlock s1

/-- The relocation `I->moveBefore(B->getTerminator())` for a possibly null block `B`. -/
def moveToBlockEnd (F : Function) (s : GCMState) (I : Nat) (B : Option Nat) :
    Except Fault GCMState :=
  match B with
  | none => .error .nullDeref
  | some b =>
    match moveBefore s.blocks I (getTerminator F s.blocks b) with
    | .error e => .error e
    | .ok bs => .ok { s with blocks := bs }

/-- The method `GCM::scheduleEarly` (GCM.cpp 132-149). -/
def scheduleEarly (F : Function) (DT : DominatorTree) :
    Nat → Nat → GCMState → Except Fault GCMState
  | 0, _, _ => .error .outOfFuel
  | fuel + 1, I, s =>
    if s.isVisited I then .ok s
    else
      match earlyOperandLoop (scheduleEarly F DT fuel) (F.operands I) (some DT.root)
          (s.markVisited I) with
      | .error e => .error e
      | .ok (instBlock, s1) =>
        if !F.pinned I && getParent s1.blocks I != instBlock then
          moveToBlockEnd F s1 I instBlock
        else .ok s1

/-- The search through the operand slots of a phi consumer (GCM.cpp 89-96): the incoming block
of the first slot that holds `I`; `useBlock` is kept when no slot holds it. -/
def phiUseBlock (I : Nat) : List Value → List Nat → Option Nat → Option Nat
  | [], _, useBlock => useBlock
  | .inst inputToUI :: ops, inc, useBlock =>
    if inputToUI = I then inc.head? else phiUseBlock I ops inc.tail useBlock
  | .other :: ops, inc, useBlock => phiUseBlock I ops inc.tail useBlock

/-- The use block that GCM.cpp 85-97 computes for `UI`: its block, or, when `UI` is a phi, the
incoming block of its first operand slot that holds `I`. -/
def useBlockOf (F : Function) (bs : List BasicBlock) (I UI : Nat) : Option Nat :=
  if (F.opcode UI).isPHINode then
    phiUseBlock I (F.operands UI) (F.inst UI).incoming (getParent bs UI)
  else getParent bs UI

/-- The use loop of `scheduleLate` (GCM.cpp 82-104) over the instructions `UI` that the uses
yield; `rec` is the recursive call. -/
def lateUseLoop (F : Function) (DT : DominatorTree)
    (rec : Nat → GCMState → Except Fault GCMState) (I : Nat) :
    List Nat → Option Nat → GCMState → Except Fault (Option Nat × GCMState)
  | [], lca, s => .ok (lca, s)
  | UI :: rest, lca, s =>
    match rec UI s with
    | .error e => .error e
    | .ok s1 =>
      match lca with
      | some l =>
        match useBlockOf F s1.blocks I UI with
        | none => .error .nullDeref
        | some u => lateUseLoop F DT rec I rest (findLCA l u DT) s1
      | none => lateUseLoop F DT rec I rest (useBlockOf F s1.blocks I UI) s1

/-- The condition of GCM.cpp 110-112 under which `lca` replaces `bestBlock`. -/
def prefersBlock (LI : LoopInfo) (lca bestBlock : Option Nat) : Bool :=
  match LI.getLoopFor lca, LI.getLoopFor bestBlock with
  | none, some _ => true
  | some l, some b => decide (l.depth < b.depth)
  | _, none => false

/-- The loop `while(lca != instBlock)` of `scheduleLate` (GCM.cpp 109-115); the result is the
final `bestBlock`. -/
def lateWalk (DT : DominatorTree) (LI : LoopInfo) :
    Nat → Option Nat → Option Nat → Option Nat → Except Fault (Option Nat)
  | 0, _, _, _ => .error .outOfFuel
  | fuel + 1, lca, bestBlock, instBlock =>
    if lca = instBlock then .ok bestBlock
    else
      match lca.bind DT.getIDom with
      | none => .error .nullDeref
      | some p =>
        lateWalk DT LI fuel (some p) (if prefersBlock LI lca bestBlock then lca else bestBlock)
          instBlock

/-- The instruction in front of which `scheduleLate` places `I` (GCM.cpp 117-124): the first
`UI` of the second use loop that is no phi and lies in `bestBlock`, provided `I` is not
pinned. -/
def lateAnchor (F : Function) (bs : List BasicBlock) (I : Nat) (bestBlock : Option Nat) :
    Option Nat :=
  (F.derefUses I).find? (fun UI =>
    !F.pinned I && getParent bs UI == bestBlock && !(F.opcode UI).isPHINode)

/-- The placement of `scheduleLate` (GCM.cpp 117-128). -/
def latePlace (F : Function) (s : GCMState) (I : Nat) (bestBlock instBlock : Option Nat) :
    Except Fault GCMState :=
  match lateAnchor F s.blocks I bestBlock with
  | some UI =>
    match moveBefore s.blocks I (some UI) with
    | .error e => .error e
    | .ok bs => .ok { s with blocks := bs }
  | none =>
    if !F.pinned I && bestBlock != instBlock then moveToBlockEnd F s I bestBlock
    else .ok s

/-- The method `GCM::scheduleLate` (GCM.cpp 76-129). The `while` loop runs on the fuel of the
call. -/
def scheduleLate (F : Function) (DT : DominatorTree) (LI : LoopInfo) :
    Nat → Nat → GCMState → Except Fault GCMState
  | 0, _, _ => .error .outOfFuel
  | fuel + 1, I, s =>
    if s.isVisited I then .ok s
    else
      match lateUseLoop F DT (scheduleLate F DT LI fuel) I (F.derefUses I) none
          (s.markVisited I) with
      | .error e => .error e
      | .ok (lca, s1) =>
        match lateWalk DT LI (fuel + 1) lca lca (getParent s1.blocks I) with
        | .error e => .error e
        | .ok bestBlock => latePlace F s1 I bestBlock (getParent s1.blocks I)

/-- The seeding loop of the early phase over the operands of a pinned instruction
(GCM.cpp 160-164). -/
def earlySeedLoop (rec : Nat → GCMState → Except Fault GCMState) :
    List Value → GCMState → Except Fault GCMState
  | [], s => .ok s
  | .other :: rest, s => earlySeedLoop rec rest s
  | .inst input :: rest, s =>
    match rec input s with
    | .error e => .error e
    | .ok s1 => earlySeedLoop rec rest s1

/-- The seeding loop of the late phase over the instructions `UI` that the uses of a pinned
instruction yield (GCM.cpp 175-179). -/
def lateSeedLoop (rec : Nat → GCMState → Except Fault GCMState) :
    List Nat → GCMState → Except Fault GCMState
  | [], s => .ok s
  | UI :: rest, s =>
    match rec UI s with
    | .error e => .error e
    | .ok s1 => lateSeedLoop rec rest s1

/-- Body of the early driver loop for one instruction (GCM.cpp 158-165). -/
def earlyBody (F : Function) (DT : DominatorTree) (fuel : Nat) (I : Nat) (s : GCMState) :
    Except Fault GCMState :=
  if F.pinned I then
    earlySeedLoop (scheduleEarly F DT fuel) (F.operands I) (s.markVisited I)
  else .ok s

/-- Body of the late driver loop for one instruction (GCM.cpp 173-180). -/
def lateBody (F : Function) (DT : DominatorTree) (LI : LoopInfo) (fuel : Nat) (I : Nat)
    (s : GCMState) : Except Fault GCMState :=
  if F.pinned I then
    lateSeedLoop (scheduleLate F DT LI fuel) (F.derefUses I) (s.markVisited I)
  else .ok s

/-- The instruction following `cur` in a sequence. -/
def nextIn (cur : Nat) : List Nat → Option Nat
  | [] => none
  | x :: xs => if x = cur then xs.head? else nextIn cur xs

/-- The iteration `for(Instruction &I : BB)` from the iterator position `cur` (`none` is the
end of the block): the body runs on the current instruction, then the iterator advances to the
instruction that follows it in the block as it is after the body. -/
def forInsts (body : Nat → GCMState → Except Fault GCMState) (BB : Nat) :
    Nat → Option Nat → GCMState → Except Fault GCMState
  | 0, _, _ => .error .outOfFuel
  | _ + 1, none, s => .ok s
  | fuel + 1, some I, s =>
    match body I s with
    | .error e => .error e
    | .ok s1 => forInsts body BB fuel ((blockInsts s1.blocks BB).bind (nextIn I)) s1

/-- The iteration `for(BasicBlock &BB : F.getBasicBlockList())` with the instruction loop
nested in it. -/
def forBlocks (body : Nat → GCMState → Except Fault GCMState) (fuel : Nat) :
    List Nat → GCMState → Except Fault GCMState
  | [], s => .ok s
  | BB :: rest, s =>
    match forInsts body BB fuel ((blockInsts s.blocks BB).bind List.head?) s with
    | .error e => .error e
    | .ok s1 => forBlocks body fuel rest s1

/-- The method `GCM::runOnFunction` (GCM.cpp 151-185) on the pass object and function held in `s`. -/
def runOnFunction (F : Function) (DT : DominatorTree) (LI : LoopInfo) (fuel : Nat)
    (s : GCMState) : Except Fault GCMState :=
  match annotateBasicBlocks DT fuel DT.root 0 s.dominatorTreeDepth with
  | .error e => .error e
  | .ok m =>
    let s0 : GCMState := { s with dominatorTreeDepth := m }
    match forBlocks (earlyBody F DT fuel) fuel (s0.blocks.map (fun b => b.label)) s0 with
    | .error e => .error e
    | .ok s1 =>
      let s2 : GCMState := { s1 with visited := [] }
      forBlocks (lateBody F DT LI fuel) fuel (s2.blocks.map (fun b => b.label)) s2

/-! ## Predicates used in the statements -/

/-- The sequence of every block restricted to the instructions selected by `keep`. -/
def keptSeq (keep : Nat → Bool) (bs : List BasicBlock) : List (Nat × List Nat) :=
  bs.map (fun b => (b.label, b.insts.filter keep))

/-- Conditions on a selection `keep` of instructions under which no relocation of the pass
touches a selected instruction: a selected instruction that occurs as operand is pinned, and a
selected instruction is pinned or has no consumer. -/
structure KeepOK (F : Function) (keep : Nat → Bool) : Prop where
  operand : ∀ U J, Value.inst J ∈ F.operands U → keep J = true → F.pinned J = true
  user : ∀ I, keep I = true → F.pinned I = true ∨ F.users I = []

/-- In the sequence `l`, `x` occurs before `y`. -/
def precedes (l : List Nat) (x y : Nat) : Prop :=
  ∃ l1 l2 l3, l = l1 ++ x :: (l2 ++ y :: l3)

/-- In block `b`, `x` occurs before `y`. -/
def precedesIn (bs : List BasicBlock) (b x y : Nat) : Prop :=
  ∃ is, blockInsts bs b = some is ∧ precedes is x y

/-- The block list `bs1` arises from `bs` by successive `moveBefore` relocations of instructions
outside the selection `keep`, each in front of an instruction that is no phi. -/
inductive Relocated (F : Function) (keep : Nat → Bool) :
    List BasicBlock → List BasicBlock → Prop where
  | refl (bs : List BasicBlock) : Relocated F keep bs bs
  | move {bs bs1 bs2 : List BasicBlock} {i u : Nat} :
      Relocated F keep bs bs1 → keep i = false → (F.opcode u).isPHINode = false →
      moveBefore bs1 i (some u) = .ok bs2 → Relocated F keep bs bs2

/-- An instruction the pass does not relocate: a pinned one, or one without consumer (such as
a store), which is no operand and is therefore never reached by the early phase. -/
def Function.anchored (F : Function) (K : Nat) : Bool :=
  F.pinned K || (F.users K).isEmpty

/-- Decidable check that the use lists record the operand uses: every instruction that occurs
as an operand has a consumer. -/
def Function.usesRecorded (F : Function) : Bool :=
  F.insts.all (fun U => U.operands.all (fun v =>
    match v with
    | .inst J => !(F.users J).isEmpty
    | .other => true))

/-- Block `b` is a block of the dominator tree: its immediate-dominator chain ends in the
root. -/
def DominatorTree.inTree (DT : DominatorTree) (b : Nat) : Prop :=
  DT.root ∈ DT.domChain b

instance (DT : DominatorTree) (b : Nat) : Decidable (DT.inTree b) := by
  unfold DominatorTree.inTree; infer_instance

/-- One step of the fold of `scheduleLate` over the use blocks (GCM.cpp 99-102). -/
def lcaStep (DT : DominatorTree) (lca : Option Nat) (useBlock : Nat) : Option Nat :=
  match lca with
  | some l => findLCA l useBlock DT
  | none => some useBlock

/-- The fold of `findLCA` over the use blocks that `scheduleLate` performs (GCM.cpp 98-102):
the first block, then `findLCA` with each next block. -/
def lcaFold (DT : DominatorTree) (bs : List Nat) : Option Nat :=
  bs.foldl (lcaStep DT) none

/-- Every instruction of every block has that block as parent: no instruction is linked into
two blocks. -/
def Located (bs : List BasicBlock) : Prop :=
  ∀ B ∈ bs, ∀ t ∈ B.insts, getParent bs t = some B.label

/-- Dominance of definitions over ordinary uses: the block of every instruction operand of a
non-phi instruction that is in a block dominates that block. -/
def DomNP (F : Function) (DT : DominatorTree) (bs : List BasicBlock) : Prop :=
  ∀ U J bU, (F.opcode U).isPHINode = false → Value.inst J ∈ F.operands U →
    getParent bs U = some bU → ∃ bJ, getParent bs J = some bJ ∧ bJ ∈ DT.domChain bU

/-- The invariant of both scheduling phases on the block list. -/
structure LayoutInv (F : Function) (DT : DominatorTree) (bs : List BasicBlock) : Prop where
  located : Located bs
  inTree : ∀ B ∈ bs, DT.inTree B.label
  dom : DomNP F DT bs

/-- What a scheduling call leaves unchanged: the memo only grows, instructions that were
marked visited keep their block, and the depth map and the block labels stay. -/
structure Frame (s s1 : GCMState) : Prop where
  visited : ∀ K, K ∈ s.visited → K ∈ s1.visited
  parent : ∀ K, K ∈ s.visited → getParent s1.blocks K = getParent s.blocks K
  depth : s1.dominatorTreeDepth = s.dominatorTreeDepth

/-- The depth map records, for every block of the tree, its number of strict dominators. -/
def DepthOK (DT : DominatorTree) (m : List (Nat × Nat)) : Prop :=
  ∀ b, DT.inTree b → depthOf m (some b) + 1 = (DT.domChain b).length

/-- What the operand loop of `scheduleEarly` has established about `instBlock` after the
operands selected by `P`: it is the root or the block of one of them, and no block of them is
recorded deeper. -/
def TargetOK (DT : DominatorTree) (P : Nat → Prop) (instBlock : Option Nat) (s : GCMState) :
    Prop :=
  ∃ T, instBlock = some T ∧ (T = DT.root ∨ ∃ j, P j ∧ getParent s.blocks j = some T) ∧
    ∀ j, P j → depthOf s.dominatorTreeDepth (getParent s.blocks j)
      ≤ depthOf s.dominatorTreeDepth (some T)

/-- Entries written by the annotation: each records the number of strict dominators of its
block. -/
def DepthEntries (DT : DominatorTree) (W : List (Nat × Nat)) : Prop :=
  ∀ e ∈ W, DT.inTree e.1 ∧ e.2 + 1 = (DT.domChain e.1).length

/-- Decidable check of `StaticOK`. -/
def staticCheck (F : Function) (DT : DominatorTree) : Bool :=
  (DT.getIDom DT.root).isNone &&
  DT.idoms.all (fun e => DT.getIDom e.1 == some e.2 && decide (DT.inTree e.1)) &&
  F.insts.all (fun i => i.incoming.all (fun b => decide (DT.inTree b))) &&
  (List.range F.insts.length).all (fun U => (F.operands U).all (fun v =>
    match v with
    | .inst J => decide (U ∈ F.users J)
    | .other => true)) &&
  (List.range F.insts.length).all (fun J => (F.users J).all (fun U =>
    decide (Value.inst J ∈ F.operands U)))

/-- Decidable check of `LayoutInv`. -/
def layoutCheck (F : Function) (DT : DominatorTree) (bs : List BasicBlock) : Bool :=
  bs.all (fun B => B.insts.all (fun t => getParent bs t == some B.label)) &&
  bs.all (fun B => decide (DT.inTree B.label)) &&
  (List.range F.insts.length).all (fun U =>
    (F.opcode U).isPHINode ||
    match getParent bs U with
    | none => true
    | some bU => (F.operands U).all (fun v =>
      match v with
      | .inst J =>
        match getParent bs J with
        | none => false
        | some bJ => decide (bJ ∈ DT.domChain bU)
      | .other => true))

/-- Every block ends with a terminator. -/
def TermOK (F : Function) (bs : List BasicBlock) : Prop :=
  ∀ B ∈ bs, ∃ t, B.insts.getLast? = some t ∧ (F.opcode t).isTerminatorInst = true

/-- Decidable check of `TermOK`. -/
def termCheck (F : Function) (bs : List BasicBlock) : Bool :=
  bs.all (fun B =>
    match B.insts.getLast? with
    | none => false
    | some t => (F.opcode t).isTerminatorInst)

/-- The strict dominators of block `b`: the blocks other than `b` that dominate `b`. -/
def strictDominators (DT : DominatorTree) (b : Nat) : List Nat :=
  (DT.domChain b).filter (fun a => a ≠ b)

/-- The memo of `s1` is that of `s` with the entries `W` added in front: `W` lists, newest
first, the operations marked between `s` and `s1`; no operation is marked twice and none that
was marked before. -/
def MemoLog (s s1 : GCMState) (W : List Nat) : Prop :=
  s1.visited = W ++ s.visited ∧ W.Nodup ∧ ∀ x ∈ W, x ∉ s.visited

/-- The number of instructions of the function that are not marked visited. -/
def unvisitedCount (F : Function) (s : GCMState) : Nat :=
  ((List.range F.insts.length).filter (fun i => decide (i ∉ s.visited))).length

/-- Shape of the instruction sequence of a well-formed block: its phis first, then operations
that are neither phi nor terminator, then exactly one terminator as last operation. -/
def BlockShape (F : Function) (is : List Nat) : Prop :=
  ∃ phis mid t, is = phis ++ mid ++ [t] ∧
    (∀ i ∈ phis, (F.opcode i).isPHINode = true) ∧
    (∀ i ∈ mid, (F.opcode i).isPHINode = false ∧ (F.opcode i).isTerminatorInst = false) ∧
    (F.opcode t).isTerminatorInst = true

/-- Decidable check of `BlockShape`: after the leading phis the sequence is not empty, its
last operation is a terminator and the ones before are neither phi nor terminator. -/
def shapeCheck (F : Function) (is : List Nat) : Bool :=
  match (is.dropWhile (fun i => (F.opcode i).isPHINode)).getLast? with
  | none => false
  | some t =>
    (F.opcode t).isTerminatorInst &&
    (is.dropWhile (fun i => (F.opcode i).isPHINode)).dropLast.all (fun i =>
      !(F.opcode i).isPHINode && !(F.opcode i).isTerminatorInst)

/-- All instructions of the function in layout order, block after block. -/
def allInsts (bs : List BasicBlock) : List Nat := bs.flatMap (fun X => X.insts)

/-- The terminator slot of every block: its label with its last instruction. -/
def lastInsts (bs : List BasicBlock) : List (Nat × Option Nat) :=
  bs.map (fun X => (X.label, X.insts.getLast?))

/-- Decidable check that every block is well-formed and that no instruction is listed
twice. -/
def wellFormedCheck (F : Function) (bs : List BasicBlock) : Bool :=
  bs.all (fun X => shapeCheck F X.insts) && decide (allInsts bs).Nodup

/-! ## Example inputs -/

/-- Example: a loop nest `0 → 1 → 5 → 2 ⇄ 3`, `2 → 4` (entry 0, preheader 5, header 2,
body 3, exit 4). Instruction 2 (`add`) takes the result of the call 1 of block 1 and feeds the
call 3 of the loop body. -/
def exLoopF : Function := ⟨[
  ⟨.br, [.other], [], []⟩,
  ⟨.call, [.other], [], [2]⟩,
  ⟨.add, [.inst 1, .other], [], [3]⟩,
  ⟨.call, [.other, .inst 2], [], []⟩,
  ⟨.br, [.other], [], []⟩,
  ⟨.br, [.other, .other, .other], [], []⟩,
  ⟨.br, [.other], [], []⟩,
  ⟨.ret, [], [], []⟩,
  ⟨.br, [.other], [], []⟩]⟩

/-- Dominator tree of `exLoopF`. -/
def exLoopDT : DominatorTree := ⟨0, [(1, 0), (5, 1), (2, 5), (3, 2), (4, 2)]⟩

/-- Loop nest of `exLoopF`: one loop with header 2 and body 3. -/
def exLoopLI : LoopInfo := ⟨[(2, ⟨2, [2, 3], 1⟩), (3, ⟨2, [2, 3], 1⟩)]⟩

/-- Example: a diamond `1 → 2 → 4`, `1 → 3 → 4` below the entry 0, with the phi 3 of the merge
block 4 holding the `add` 2 of block 1 in both operand slots (incoming blocks 2 and 3); the
phi is returned in block 5. -/
def exPhiF : Function := ⟨[
  ⟨.br, [.other], [], []⟩,
  ⟨.call, [.other], [], [2]⟩,
  ⟨.add, [.inst 1, .other], [], [3, 3]⟩,
  ⟨.phi, [.inst 2, .inst 2], [2, 3], [4]⟩,
  ⟨.ret, [.inst 3], [], []⟩,
  ⟨.br, [.other], [], []⟩,
  ⟨.br, [.other], [], []⟩,
  ⟨.br, [.other], [], []⟩,
  ⟨.br, [.other, .other, .other], [], []⟩]⟩

/-- Dominator tree of `exPhiF`. -/
def exPhiDT : DominatorTree := ⟨0, [(1, 0), (2, 1), (3, 1), (4, 1), (5, 4)]⟩

/-- Example: block 0 branches to block 1, which stores to an address (instruction 1), loads
from it (instruction 2) and returns the loaded value. -/
def exMemF : Function := ⟨[
  ⟨.br, [.other], [], []⟩,
  ⟨.store, [.other, .other], [], []⟩,
  ⟨.load, [.other], [], [3]⟩,
  ⟨.ret, [.inst 2], [], []⟩]⟩

/-- Dominator tree of `exMemF`. -/
def exMemDT : DominatorTree := ⟨0, [(1, 0)]⟩

/-- Initial state of `exMemF`, fresh pass object. -/
def exMemS : GCMState := ⟨[⟨0, [0]⟩, ⟨1, [1, 2, 3]⟩], [], []⟩

/-- State of `exMemF` after the run: the load has been moved in front of the store, into
block 0. -/
def exMemS1 : GCMState :=
  ⟨[⟨0, [2, 0]⟩, ⟨1, [1, 3]⟩], [(1, 1), (0, 0)], [3, 0]⟩

/-- Example: a loop-free function; the `add` 2 of block 1 is held by the phi 3 of block 4 in
the slot of the incoming block 2, and by the phi 4 of block 5 in the slot of the incoming
block 6. -/
def exTwoF : Function := ⟨[
  ⟨.br, [.other], [], []⟩,
  ⟨.call, [.other], [], [2]⟩,
  ⟨.add, [.inst 1, .other], [], [3, 4]⟩,
  ⟨.phi, [.inst 2, .other], [2, 3], []⟩,
  ⟨.phi, [.inst 2, .other], [6, 3], []⟩,
  ⟨.br, [.other, .other, .other], [], []⟩,
  ⟨.br, [.other, .other, .other], [], []⟩,
  ⟨.br, [.other, .other, .other], [], []⟩,
  ⟨.br, [.other], [], []⟩,
  ⟨.ret, [], [], []⟩,
  ⟨.br, [.other], [], []⟩]⟩

/-- Dominator tree of `exTwoF`. -/
def exTwoDT : DominatorTree := ⟨0, [(1, 0), (2, 1), (3, 1), (4, 1), (5, 1), (6, 2)]⟩

/-- State of `exTwoF` for a call of `scheduleLate` on the `add` 2: the blocks as the early
phase leaves them, the two phis marked. -/
def exTwoS : GCMState :=
  ⟨[⟨0, [0]⟩, ⟨1, [1, 2, 5]⟩, ⟨2, [6]⟩, ⟨3, [7]⟩, ⟨4, [3, 8]⟩, ⟨5, [4, 9]⟩, ⟨6, [10]⟩],
   [], [3, 4]⟩

/-- Example: one block in which the `add` 0 feeds the `mul` 1 and the `sub` 2, which both feed
the call 3: a diamond-shaped operand graph. -/
def exDiaF : Function := ⟨[
  ⟨.add, [.other, .other], [], [1, 2]⟩,
  ⟨.mul, [.inst 0, .other], [], [3]⟩,
  ⟨.sub, [.inst 0, .other], [], [3]⟩,
  ⟨.call, [.other, .inst 1, .inst 2], [], []⟩,
  ⟨.ret, [], [], []⟩]⟩

/-- Dominator tree of `exDiaF`. -/
def exDiaDT : DominatorTree := ⟨0, []⟩

/-- Initial state of `exDiaF`, empty memo. -/
def exDiaS : GCMState := ⟨[⟨0, [0, 1, 2, 3, 4]⟩], [(0, 0)], []⟩

/-- Example: a loop `0 → 1 → 1`, `1 → 2` whose header 1 holds the phi 1 and the `add` 2 that
feed each other through the back edge. -/
def exCycF : Function := ⟨[
  ⟨.br, [.other], [], []⟩,
  ⟨.phi, [.other, .inst 2], [0, 1], [2]⟩,
  ⟨.add, [.inst 1, .other], [], [1]⟩,
  ⟨.br, [.other, .other, .other], [], []⟩,
  ⟨.ret, [], [], []⟩]⟩

/-- Dominator tree of `exCycF`. -/
def exCycDT : DominatorTree := ⟨0, [(1, 0), (2, 1)]⟩

/-- Loop nest of `exCycF`. -/
def exCycLI : LoopInfo := ⟨[(1, ⟨1, [1], 1⟩)]⟩

/-- Initial state of `exCycF`, empty memo. -/
def exCycS : GCMState := ⟨[⟨0, [0]⟩, ⟨1, [1, 2, 3]⟩, ⟨2, [4]⟩], [(2, 2), (1, 1), (0, 0)], []⟩

/-- One relocation of the early phase (GCM.cpp 146-147), on a layout that satisfies the layout
invariant: the movable instruction `i` of block `P` is linked in front of the terminator `t`
of another block `T`, which dominates `P` and is dominated by the block of every instruction
operand of `i`. -/
structure EarlyStep (F : Function) (DT : DominatorTree) (bs bs1 : List BasicBlock)
    (i t T P : Nat) : Prop where
  inv : LayoutInv F DT bs
  movable : F.pinned i = false
  parent : getParent bs i = some P
  ne : T ≠ P
  dom : T ∈ DT.domChain P
  operands : ∀ J bJ, Value.inst J ∈ F.operands i → getParent bs J = some bJ →
    bJ ∈ DT.domChain T
  term : getTerminator F bs T = some t
  move : moveBefore bs i (some t) = .ok bs1

/-- The block list `bs1` arises from `bs` by successive relocations of the early phase. -/
inductive EarlyMoved (F : Function) (DT : DominatorTree) :
    List BasicBlock → List BasicBlock → Prop where
  | refl (bs : List BasicBlock) : EarlyMoved F DT bs bs
  | step {bs bs1 bs2 : List BasicBlock} {i t T P : Nat} :
      EarlyMoved F DT bs bs1 → EarlyStep F DT bs1 bs2 i t T P → EarlyMoved F DT bs bs2

/-- Decidable check of the dominator tree: the root has no immediate dominator, and every
entry is the immediate dominator of its block, which reaches the root. -/
def treeCheck (DT : DominatorTree) : Bool :=
  (DT.getIDom DT.root).isNone &&
  DT.idoms.all (fun e => DT.getIDom e.1 == some e.2 && decide (DT.inTree e.1))

/-- Dominance of definitions over phi uses, taken on the incoming edge: for every operand slot
of a phi that holds an instruction `J`, the predecessor block `b` of that slot is a block of
the tree and the block of `J` dominates it. -/
def DomPhi (F : Function) (DT : DominatorTree) (bs : List BasicBlock) : Prop :=
  ∀ U J b, (F.opcode U).isPHINode = true →
    (Value.inst J, b) ∈ (F.operands U).zip (F.inst U).incoming →
    DT.inTree b ∧ ∃ bJ, getParent bs J = some bJ ∧ bJ ∈ DT.domChain b

/-- Decidable check of `DomPhi`. -/
def phiCheck (F : Function) (DT : DominatorTree) (bs : List BasicBlock) : Bool :=
  (List.range F.insts.length).all (fun U =>
    !(F.opcode U).isPHINode ||
    ((F.operands U).zip (F.inst U).incoming).all (fun p =>
      match p.1 with
      | .inst J =>
        decide (DT.inTree p.2) &&
        match getParent bs J with
        | none => false
        | some bJ => decide (bJ ∈ DT.domChain p.2)
      | .other => true))

/-- Initial state of `exLoopF` with the blocks in the order 0, 1, 5, 2, 3, 4 (every block
after its dominators): the `add` 2 sits in the loop body 3, the pass object is fresh. -/
def exLoopN : GCMState :=
  ⟨[⟨0, [0]⟩, ⟨1, [1, 6]⟩, ⟨5, [8]⟩, ⟨2, [5]⟩, ⟨3, [2, 3, 4]⟩, ⟨4, [7]⟩], [], []⟩

/-- State of `exLoopF` after the run on `exLoopN`: the early phase has moved the `add` 2 into
block 1, in front of its terminator; the late phase has marked the pinned instructions. -/
def exLoopN1 : GCMState :=
  ⟨[⟨0, [0]⟩, ⟨1, [1, 2, 6]⟩, ⟨5, [8]⟩, ⟨2, [5]⟩, ⟨3, [3, 4]⟩, ⟨4, [7]⟩],
   [(4, 4), (3, 4), (2, 3), (5, 2), (1, 1), (0, 0)], [7, 4, 3, 5, 8, 6, 1, 0]⟩

/-- Initial state of `exPhiF` with the blocks in the order 0 to 5: the call 1 is in the entry
block 0 and the `add` 2 in block 1, the head of the diamond. -/
def exPhiN : GCMState :=
  ⟨[⟨0, [1, 0]⟩, ⟨1, [2, 8]⟩, ⟨2, [6]⟩, ⟨3, [7]⟩, ⟨4, [3, 5]⟩, ⟨5, [4]⟩], [], []⟩

/-- State of `exPhiF` after the run on `exPhiN`: the early phase has moved the `add` 2 into
the entry block 0, behind the call 1. -/
def exPhiN1 : GCMState :=
  ⟨[⟨0, [1, 2, 0]⟩, ⟨1, [8]⟩, ⟨2, [6]⟩, ⟨3, [7]⟩, ⟨4, [3, 5]⟩, ⟨5, [4]⟩],
   [(5, 3), (4, 2), (3, 2), (2, 2), (1, 1), (0, 0)], [4, 5, 3, 7, 6, 8, 0, 1]⟩

/-- Example for a second run: the loop `0 → 1 → 2 → 1`, `1 → 3` (header 1, body 2, exit 3). The
header holds the phis 1 and 2; the body holds `I` = `add` 4 of phi 2, `K` = `mul` 5 of `I`
and `X` = `sub` 6 of `I`; phi 1 takes `X` and phi 2 takes `K` on the back edge from block 2;
phi 1 is returned in block 3. -/
def exRotF : Function := ⟨[
  ⟨.br, [.other], [], []⟩,
  ⟨.phi, [.other, .inst 6], [0, 2], [8]⟩,
  ⟨.phi, [.other, .inst 5], [0, 2], [4]⟩,
  ⟨.br, [.other, .other, .other], [], []⟩,
  ⟨.add, [.inst 2, .other], [], [5, 6]⟩,
  ⟨.mul, [.inst 4, .other], [], [2]⟩,
  ⟨.sub, [.inst 4, .other], [], [1]⟩,
  ⟨.br, [.other], [], []⟩,
  ⟨.ret, [.inst 1], [], []⟩]⟩

/-- Dominator tree of `exRotF`. -/
def exRotDT : DominatorTree := ⟨0, [(1, 0), (2, 1), (3, 1)]⟩

/-- Loop nest of `exRotF`. -/
def exRotLI : LoopInfo := ⟨[(1, ⟨1, [1, 2], 1⟩), (2, ⟨1, [1, 2], 1⟩)]⟩

/-- Initial state of `exRotF`, blocks in the order 0, 1, 2, 3, fresh pass object. -/
def exRotS : GCMState :=
  ⟨[⟨0, [0]⟩, ⟨1, [1, 2, 3]⟩, ⟨2, [4, 5, 6, 7]⟩, ⟨3, [8]⟩], [], []⟩

/-- Example for the stale memo: the loop `0 → 1 → 2 → 1`, `1 → 3` (header 1, body 2, exit 3).
The header holds the phis 1, 2 and 3; the body holds `E` = `add` 5 of phi 2, `O` = `mul` 6 of
`E` and phi 3, `Y` = `sub` 7 of `O` and `Z` = `xor` 8 of `E`; on the back edge from block 2
phi 1 takes `Z`, phi 2 takes `O` and phi 3 takes `Y`; phi 1 is returned in block 3. -/
def exNestF : Function := ⟨[
  ⟨.br, [.other], [], []⟩,
  ⟨.phi, [.other, .inst 8], [0, 2], [10]⟩,
  ⟨.phi, [.other, .inst 6], [0, 2], [5]⟩,
  ⟨.phi, [.other, .inst 7], [0, 2], [6]⟩,
  ⟨.br, [.other, .other, .other], [], []⟩,
  ⟨.add, [.inst 2, .other], [], [6, 8]⟩,
  ⟨.mul, [.inst 5, .inst 3], [], [7, 2]⟩,
  ⟨.sub, [.inst 6, .other], [], [3]⟩,
  ⟨.xor, [.inst 5, .other], [], [1]⟩,
  ⟨.br, [.other], [], []⟩,
  ⟨.ret, [.inst 1], [], []⟩]⟩

/-- Dominator tree of `exNestF`. -/
def exNestDT : DominatorTree := ⟨0, [(1, 0), (2, 1), (3, 1)]⟩

/-- Loop nest of `exNestF`. -/
def exNestLI : LoopInfo := ⟨[(1, ⟨1, [1, 2], 1⟩), (2, ⟨1, [1, 2], 1⟩)]⟩

/-- Initial state of `exNestF`, blocks in the order 0, 1, 2, 3, fresh pass object. -/
def exNestS : GCMState :=
  ⟨[⟨0, [0]⟩, ⟨1, [1, 2, 3, 4]⟩, ⟨2, [5, 6, 7, 8, 9]⟩, ⟨3, [10]⟩], [], []⟩

/-- Example: block 0 branches to block 1, which calls (instruction 1), adds to the result
(`add` 2), calls again (instruction 3), passes the sum to a third call (instruction 4) and
returns: the call 3 stands between the `add` and its only consumer, the call 4. -/
def exAdjF : Function := ⟨[
  ⟨.br, [.other], [], []⟩,
  ⟨.call, [.other], [], [2]⟩,
  ⟨.add, [.inst 1, .other], [], [4]⟩,
  ⟨.call, [.other], [], []⟩,
  ⟨.call, [.other, .inst 2], [], []⟩,
  ⟨.ret, [], [], []⟩]⟩

/-- Dominator tree of `exAdjF`. -/
def exAdjDT : DominatorTree := ⟨0, [(1, 0)]⟩

/-- Initial state of `exAdjF`, fresh pass object. -/
def exAdjS : GCMState := ⟨[⟨0, [0]⟩, ⟨1, [1, 2, 3, 4, 5]⟩], [], []⟩

/-- State of `exRotF` after the first run: `I` and `X` are in the header, `K` is still in the
body; the memo holds the pinned instructions. -/
def exRotS1 : GCMState :=
  ⟨[⟨0, [0]⟩, ⟨1, [1, 2, 4, 6, 3]⟩, ⟨2, [5, 7]⟩, ⟨3, [8]⟩],
   [(3, 2), (2, 2), (1, 1), (0, 0)], [8, 7, 3, 2, 1, 0]⟩

/-- State of `exRotF` after the second run on the same pass object: `K` is in the header. -/
def exRotS2 : GCMState :=
  ⟨[⟨0, [0]⟩, ⟨1, [1, 2, 4, 6, 5, 3]⟩, ⟨2, [7]⟩, ⟨3, [8]⟩],
   [(3, 2), (2, 2), (1, 1), (0, 0), (3, 2), (2, 2), (1, 1), (0, 0)], [8, 7, 3, 2, 1, 0]⟩

/-- State of `exNestF` after the first run: `E` and `Z` are in the header, `O` and `Y` in the
body; the memo holds the pinned instructions. -/
def exNestS1 : GCMState :=
  ⟨[⟨0, [0]⟩, ⟨1, [1, 2, 3, 5, 8, 4]⟩, ⟨2, [6, 7, 9]⟩, ⟨3, [10]⟩],
   [(3, 2), (2, 2), (1, 1), (0, 0)], [10, 9, 4, 3, 2, 1, 0]⟩

/-- Initial state of `exTwoF`, fresh pass object. -/
def exTwoN : GCMState :=
  ⟨[⟨0, [0]⟩, ⟨1, [1, 2, 5]⟩, ⟨2, [6]⟩, ⟨3, [7]⟩, ⟨4, [3, 8]⟩, ⟨5, [4, 9]⟩, ⟨6, [10]⟩],
   [], []⟩

/-- State of `exAdjF` in which the dominator depths are annotated and the instructions 0 and 1
are marked. -/
def exAdjMid : GCMState := ⟨[⟨0, [0]⟩, ⟨1, [1, 2, 3, 4, 5]⟩], [(1, 1), (0, 0)], [1, 0]⟩

/-- Definition before use inside a block: a movable instruction `J` precedes, in the sequence
of its block, every instruction of that block that is no phi and holds `J` as an operand. -/
def DefFirst (F : Function) (bs : List BasicBlock) : Prop :=
  ∀ J U b, F.pinned J = false → (F.opcode U).isPHINode = false →
    Value.inst J ∈ F.operands U → getParent bs J = some b → getParent bs U = some b →
    precedesIn bs b J U

/-- Decidable form of `precedes`: behind the first occurrence of `x` in `l` there is `y`. -/
def precedesB : List Nat → Nat → Nat → Bool
  | [], _, _ => false
  | a :: r, x, y => if a = x then decide (y ∈ r) else precedesB r x y

/-- Decidable check of `DefFirst`. -/
def defFirstCheck (F : Function) (bs : List BasicBlock) : Bool :=
  bs.all (fun X => X.insts.all (fun U =>
    (F.opcode U).isPHINode ||
    (F.operands U).all (fun v =>
      match v with
      | .inst J => F.pinned J || (getParent bs J != some X.label) || precedesB X.insts J U
      | .other => true)))

/-- Example: the entry block 0 holds the call 0 and branches to block 1, which holds the `add`
2 of the call, the `mul` 3 of the `add`, the call 4 of the `mul` and the `add`, and the
return. The use list of the `add` has the call 4 in front of the `mul` 3. -/
def exChainF : Function := ⟨[
  ⟨.call, [.other], [], [2]⟩,
  ⟨.br, [.other], [], []⟩,
  ⟨.add, [.inst 0, .other], [], [4, 3]⟩,
  ⟨.mul, [.inst 2, .other], [], [4]⟩,
  ⟨.call, [.inst 3, .inst 2], [], []⟩,
  ⟨.ret, [], [], []⟩]⟩

/-- Dominator tree of `exChainF`. -/
def exChainDT : DominatorTree := ⟨0, [(1, 0)]⟩

/-- Initial state of `exChainF`, the pass object fresh. -/
def exChainS : GCMState := ⟨[⟨0, [0, 1]⟩, ⟨1, [2, 3, 4, 5]⟩], [], []⟩

/-- State of `exChainF` after the run on `exChainS`: the early phase has moved the `add` 2 and
then the `mul` 3 into the entry block, each in front of the terminator. -/
def exChainS1 : GCMState :=
  ⟨[⟨0, [0, 2, 3, 1]⟩, ⟨1, [4, 5]⟩], [(1, 1), (0, 0)], [5, 4, 1, 0]⟩

/-- Well-formedness of the function the pass receives, as far as the run depends on it: the
layout invariant, every instruction that occurs as an operand is in a block, every block ends
with a terminator, the root of the dominator tree is a block of the function, the block
labels are distinct and no instruction is listed twice. -/
structure RunInv (F : Function) (DT : DominatorTree) (bs : List BasicBlock) : Prop where
  layout : LayoutInv F DT bs
  placed : ∀ U J, Value.inst J ∈ F.operands U → ∃ b, getParent bs J = some b
  term : TermOK F bs
  root : DT.root ∈ bs.map (fun B => B.label)
  labels : (bs.map (fun B => B.label)).Nodup
  nodup : (allInsts bs).Nodup

/-- Decidable check of `RunInv`. -/
def runCheck (F : Function) (DT : DominatorTree) (bs : List BasicBlock) : Bool :=
  layoutCheck F DT bs &&
  F.insts.all (fun U => U.operands.all (fun v =>
    match v with
    | .inst J => (getParent bs J).isSome
    | .other => true)) &&
  termCheck F bs && decide (DT.root ∈ bs.map (fun B => B.label)) &&
  decide (bs.map (fun B => B.label)).Nodup && decide (allInsts bs).Nodup

/-- Bookkeeping for the instruction loop over block `BB` at the iterator position `I`: every
instruction the loop has already run on is in `BB` in front of `I`, or in a block that
strictly dominates `BB`. -/
def SeenOK (DT : DominatorTree) (bs : List BasicBlock) (BB I : Nat) (seen : List Nat) : Prop :=
  ∀ x ∈ seen, precedesIn bs BB x I ∨
    ∃ b, getParent bs x = some b ∧ b ≠ BB ∧ b ∈ DT.domChain BB

/-- The inputs on which the run is shown to return: a dominator tree whose root has no
immediate dominator and whose entries reach the root, a well-formed function (`RunInv`), and
fuel above the number of instructions and the size of the dominator tree. -/
structure RunInput (F : Function) (DT : DominatorTree) (bs : List BasicBlock) (fuel : Nat) :
    Prop where
  root : DT.getIDom DT.root = none
  idoms : ∀ e ∈ DT.idoms, DT.getIDom e.1 = some e.2 ∧ DT.inTree e.1
  inv : RunInv F DT bs
  fuelInsts : F.insts.length + 1 ≤ fuel
  fuelBlocks : (allInsts bs).length + 1 ≤ fuel
  fuelTree : DT.idoms.length + 1 ≤ fuel

/-- Decidable check of `RunInput`. -/
def runInputCheck (F : Function) (DT : DominatorTree) (bs : List BasicBlock) (fuel : Nat) :
    Bool :=
  treeCheck DT && runCheck F DT bs && decide (F.insts.length + 1 ≤ fuel) &&
  decide ((allInsts bs).length + 1 ≤ fuel) && decide (DT.idoms.length + 1 ≤ fuel)

/-! # Theorems -/

/-! ## Frame lemmas: what a relocation leaves in place -/


theorem filter_insertBeforeIn (keep : Nat → Bool) (i u : Nat) (hk : keep i = false)
    (l : List Nat) : (insertBeforeIn i u l).filter keep = l.filter keep := by
  induction l with
  | nil => rfl
  | cons x xs ih =>
    unfold insertBeforeIn
    split
    · simp [List.filter_cons, hk]
    · simp [List.filter_cons, ih]

theorem filter_remove (keep : Nat → Bool) (i : Nat) (hk : keep i = false) (l : List Nat) :
    (l.filter (fun x => x ≠ i)).filter keep = l.filter keep := by
  rw [List.filter_filter]
  apply List.filter_congr
  intro x _
  by_cases hx : x = i
  · subst hx; simp [hk]
  · simp [hx]

theorem moveBefore_keptSeq (keep : Nat → Bool) {bs bs1 : List BasicBlock} {i : Nat}
    {u : Option Nat} (hk : keep i = false) (h : moveBefore bs i u = .ok bs1) :
    keptSeq keep bs1 = keptSeq keep bs := by
  unfold moveBefore at h
  split at h
  · cases h
  · split at h
    · split at h
      · cases h; rfl
      · cases h
        simp only [keptSeq, insertBefore, removeInst, List.map_map]
        apply List.map_congr_left
        intro b _
        simp only [Function.comp_apply]
        rw [filter_insertBeforeIn keep _ _ hk, filter_remove keep _ hk]
    · cases h


theorem relocated_trans {F : Function} {keep : Nat → Bool} {a b c : List BasicBlock}
    (h1 : Relocated F keep a b) (h2 : Relocated F keep b c) : Relocated F keep a c := by
  induction h2 with
  | refl => exact h1
  | move _ hk hu hm ih => exact Relocated.move ih hk hu hm

theorem relocated_of_moveBefore {F : Function} {keep : Nat → Bool}
    {bs bs1 : List BasicBlock} {i : Nat} {u : Option Nat} (hk : keep i = false)
    (hu : ∀ v, u = some v → (F.opcode v).isPHINode = false)
    (h : moveBefore bs i u = .ok bs1) : Relocated F keep bs bs1 := by
  cases u with
  | none => simp [moveBefore] at h
  | some u => exact Relocated.move (Relocated.refl bs) hk (hu u rfl) h

theorem relocated_keptSeq {F : Function} {keep : Nat → Bool} {bs bs1 : List BasicBlock}
    (h : Relocated F keep bs bs1) : keptSeq keep bs1 = keptSeq keep bs := by
  induction h with
  | refl => rfl
  | move _ hk _ hm ih => rw [moveBefore_keptSeq keep hk hm, ih]

theorem isPHINode_of_getTerminator {F : Function} {bs : List BasicBlock} {b t : Nat}
    (h : getTerminator F bs b = some t) : (F.opcode t).isPHINode = false := by
  unfold getTerminator at h
  split at h
  · cases h
  · split at h
    · cases h
    · split at h
      · rename_i ht
        cases h
        cases hk : F.opcode t <;> rw [hk] at ht <;> first | rfl | cases ht
      · cases h

theorem moveToBlockEnd_relocated (F : Function) (keep : Nat → Bool) {s s1 : GCMState} {I : Nat}
    {B : Option Nat} (hk : keep I = false) (h : moveToBlockEnd F s I B = .ok s1) :
    Relocated F keep s.blocks s1.blocks := by
  unfold moveToBlockEnd at h
  cases B with
  | none => cases h
  | some b =>
    simp only at h
    cases hm : moveBefore s.blocks I (getTerminator F s.blocks b) with
    | error e => rw [hm] at h; cases h
    | ok bs =>
      rw [hm] at h
      cases h
      exact relocated_of_moveBefore hk (fun v hv => isPHINode_of_getTerminator hv) hm

theorem earlyOperandLoop_relocated {F : Function} (keep : Nat → Bool)
    (rec : Nat → GCMState → Except Fault GCMState) (ops : List Value)
    (hrec : ∀ j s s1, Value.inst j ∈ ops → rec j s = .ok s1 →
      Relocated F keep s.blocks s1.blocks) :
    ∀ (ib : Option Nat) (s : GCMState) (r : Option Nat × GCMState),
      earlyOperandLoop rec ops ib s = .ok r →
      Relocated F keep s.blocks r.2.blocks := by
  induction ops with
  | nil =>
    intro ib s r h
    simp only [earlyOperandLoop] at h
    cases h; exact Relocated.refl _
  | cons v rest ih =>
    have ih1 := ih (fun j s s1 hj => hrec j s s1 (List.mem_cons_of_mem _ hj))
    intro ib s r h
    cases v with
    | other =>
      simp only [earlyOperandLoop] at h
      exact ih1 _ _ _ h
    | inst j =>
      simp only [earlyOperandLoop] at h
      cases hr : rec j s with
      | error e => rw [hr] at h; cases h
      | ok s1 =>
        rw [hr] at h
        simp only at h
        have h1 := hrec j s s1 (List.mem_cons_self _ _) hr
        split at h
        · exact relocated_trans (h1) (ih1 _ _ _ h)
        · exact relocated_trans (h1) (ih1 _ _ _ h)

theorem scheduleEarly_relocated (F : Function) (DT : DominatorTree) (keep : Nat → Bool)
    (hop : ∀ U J, Value.inst J ∈ F.operands U → keep J = true → F.pinned J = true) :
    ∀ (fuel I : Nat) (s s1 : GCMState), (keep I = true → F.pinned I = true) →
      scheduleEarly F DT fuel I s = .ok s1 →
      Relocated F keep s.blocks s1.blocks := by
  intro fuel
  induction fuel with
  | zero => intro I s s1 _ h; simp only [scheduleEarly] at h; cases h
  | succ fuel ih =>
    intro I s s1 hI h
    simp only [scheduleEarly] at h
    split at h
    · cases h; exact Relocated.refl _
    · cases hl : earlyOperandLoop (scheduleEarly F DT fuel) (F.operands I) (some DT.root)
          (s.markVisited I) with
      | error e => rw [hl] at h; cases h
      | ok r =>
        rw [hl] at h
        obtain ⟨ib, s2⟩ := r
        simp only at h
        have h2 := earlyOperandLoop_relocated keep _ _
          (fun j t t1 hj hr => ih j t t1 (hop I j hj) hr) _ _ _ hl
        simp only [GCMState.markVisited] at h2
        split at h
        · rename_i hc
          have hp : F.pinned I = false := by
            cases hpi : F.pinned I
            · rfl
            · rw [hpi] at hc; simp at hc
          have hk : keep I = false := by
            cases hki : keep I
            · rfl
            · rw [hI hki] at hp; cases hp
          exact relocated_trans (h2) (moveToBlockEnd_relocated F keep hk h)
        · cases h; exact h2


theorem lateUseLoop_relocated (F : Function) (DT : DominatorTree) (keep : Nat → Bool)
    (rec : Nat → GCMState → Except Fault GCMState) (I : Nat)
    (hrec : ∀ j s s1, rec j s = .ok s1 → Relocated F keep s.blocks s1.blocks) :
    ∀ (us : List Nat) (lca : Option Nat) (s : GCMState) (r : Option Nat × GCMState),
      lateUseLoop F DT rec I us lca s = .ok r →
      Relocated F keep s.blocks r.2.blocks := by
  intro us
  induction us with
  | nil =>
    intro lca s r h
    simp only [lateUseLoop] at h
    cases h; exact Relocated.refl _
  | cons UI rest ih =>
    intro lca s r h
    simp only [lateUseLoop] at h
    cases hr : rec UI s with
    | error e => rw [hr] at h; cases h
    | ok s1 =>
      rw [hr] at h
      simp only at h
      have h1 := hrec UI s s1 hr
      cases lca with
      | none => simp only at h; exact relocated_trans h1 (ih _ _ _ h)
      | some l =>
        simp only at h
        cases hu : useBlockOf F s1.blocks I UI with
        | none => rw [hu] at h; cases h
        | some u => rw [hu] at h; simp only at h; exact relocated_trans h1 (ih _ _ _ h)

theorem latePlace_relocated (F : Function) (keep : Nat → Bool) {s s1 : GCMState} {I : Nat}
    {bestBlock instBlock : Option Nat} (hk : F.pinned I = false → keep I = false)
    (h : latePlace F s I bestBlock instBlock = .ok s1) :
    Relocated F keep s.blocks s1.blocks := by
  unfold latePlace at h
  cases ha : lateAnchor F s.blocks I bestBlock with
  | some UI =>
    rw [ha] at h
    simp only at h
    have hp : F.pinned I = false := by
      unfold lateAnchor at ha
      have := List.find?_some ha
      cases hpi : F.pinned I
      · rfl
      · rw [hpi] at this; simp at this
    cases hm : moveBefore s.blocks I (some UI) with
    | error e => rw [hm] at h; cases h
    | ok bs =>
      rw [hm] at h
      cases h
      have hphi : (F.opcode UI).isPHINode = false := by
        unfold lateAnchor at ha
        have := List.find?_some ha
        simp only [Bool.and_eq_true, Bool.not_eq_true'] at this
        exact this.2
      exact relocated_of_moveBefore (hk hp) (fun v hv => by cases hv; exact hphi) hm
  | none =>
    rw [ha] at h
    simp only at h
    split at h
    · rename_i hc
      have hp : F.pinned I = false := by
        cases hpi : F.pinned I
        · rfl
        · rw [hpi] at hc; simp at hc
      exact moveToBlockEnd_relocated F keep (hk hp) h
    · cases h; exact Relocated.refl _

theorem scheduleLate_relocated (F : Function) (DT : DominatorTree) (LI : LoopInfo)
    (keep : Nat → Bool)
    (hus : ∀ I, keep I = true → F.pinned I = true ∨ F.users I = []) :
    ∀ (fuel I : Nat) (s s1 : GCMState), scheduleLate F DT LI fuel I s = .ok s1 →
      Relocated F keep s.blocks s1.blocks := by
  intro fuel
  induction fuel with
  | zero => intro I s s1 h; simp only [scheduleLate] at h; cases h
  | succ fuel ih =>
    intro I s s1 h
    simp only [scheduleLate] at h
    split at h
    · cases h; exact Relocated.refl _
    · cases hl : lateUseLoop F DT (scheduleLate F DT LI fuel) I (F.derefUses I) none
          (s.markVisited I) with
      | error e => rw [hl] at h; cases h
      | ok r =>
        rw [hl] at h
        obtain ⟨lca, s2⟩ := r
        simp only at h
        have h2 := lateUseLoop_relocated F DT keep _ I ih _ _ _ _ hl
        simp only [GCMState.markVisited] at h2
        cases hw : lateWalk DT LI (fuel + 1) lca lca (getParent s2.blocks I) with
        | error e => rw [hw] at h; cases h
        | ok best =>
          rw [hw] at h
          simp only at h
          cases hki : keep I with
          | false => exact relocated_trans (h2) (latePlace_relocated F keep (fun _ => hki) h)
          | true =>
            rcases hus I hki with hp | hnil
            · exact relocated_trans h2
                (latePlace_relocated F keep (fun hnp => by rw [hp] at hnp; cases hnp) h)
            · have hnil : F.derefUses I = [] := by simp [Function.derefUses, hnil]
              rw [hnil] at hl
              simp only [lateUseLoop] at hl
              cases hl
              simp only [lateWalk] at hw
              split at hw
              · rename_i heq
                cases hw
                unfold latePlace lateAnchor at h
                rw [hnil] at h
                simp only [List.find?_nil, ← heq] at h
                split at h
                · rename_i hc; simp at hc
                · cases h; exact Relocated.refl _
              · simp at hw


theorem earlySeedLoop_relocated {F : Function} (keep : Nat → Bool)
    (rec : Nat → GCMState → Except Fault GCMState) (ops : List Value)
    (hrec : ∀ j s s1, Value.inst j ∈ ops → rec j s = .ok s1 →
      Relocated F keep s.blocks s1.blocks) :
    ∀ (s s1 : GCMState), earlySeedLoop rec ops s = .ok s1 →
      Relocated F keep s.blocks s1.blocks := by
  induction ops with
  | nil => intro s s1 h; simp only [earlySeedLoop] at h; cases h; exact Relocated.refl _
  | cons v rest ih =>
    have ih1 := ih (fun j s s1 hj => hrec j s s1 (List.mem_cons_of_mem _ hj))
    intro s s1 h
    cases v with
    | other => simp only [earlySeedLoop] at h; exact ih1 _ _ h
    | inst j =>
      simp only [earlySeedLoop] at h
      cases hr : rec j s with
      | error e => rw [hr] at h; cases h
      | ok s2 =>
        rw [hr] at h
        simp only at h
        exact relocated_trans (hrec j s s2 (List.mem_cons_self _ _) hr) (ih1 _ _ h)

theorem lateSeedLoop_relocated {F : Function} (keep : Nat → Bool)
    (rec : Nat → GCMState → Except Fault GCMState)
    (hrec : ∀ j s s1, rec j s = .ok s1 → Relocated F keep s.blocks s1.blocks) :
    ∀ (us : List Nat) (s s1 : GCMState), lateSeedLoop rec us s = .ok s1 →
      Relocated F keep s.blocks s1.blocks := by
  intro us
  induction us with
  | nil => intro s s1 h; simp only [lateSeedLoop] at h; cases h; exact Relocated.refl _
  | cons UI rest ih =>
    intro s s1 h
    simp only [lateSeedLoop] at h
    cases hr : rec UI s with
    | error e => rw [hr] at h; cases h
    | ok s2 =>
      rw [hr] at h
      simp only at h
      exact relocated_trans (hrec UI s s2 hr) (ih _ _ h)

theorem earlyBody_relocated (F : Function) (DT : DominatorTree) (keep : Nat → Bool)
    (hok : KeepOK F keep) (fuel I : Nat) (s s1 : GCMState)
    (h : earlyBody F DT fuel I s = .ok s1) :
    Relocated F keep s.blocks s1.blocks := by
  unfold earlyBody at h
  split at h
  · exact earlySeedLoop_relocated keep _ _
      (fun j t t1 hj hr => scheduleEarly_relocated F DT keep hok.operand fuel j t t1
        (hok.operand I j hj) hr) (s.markVisited I) _ h
  · cases h; exact Relocated.refl _

theorem lateBody_relocated (F : Function) (DT : DominatorTree) (LI : LoopInfo)
    (keep : Nat → Bool) (hok : KeepOK F keep) (fuel I : Nat) (s s1 : GCMState)
    (h : lateBody F DT LI fuel I s = .ok s1) :
    Relocated F keep s.blocks s1.blocks := by
  unfold lateBody at h
  split at h
  · exact lateSeedLoop_relocated keep _ (scheduleLate_relocated F DT LI keep hok.user fuel) _
      (s.markVisited I) _ h
  · cases h; exact Relocated.refl _

theorem forInsts_relocated {F : Function} (keep : Nat → Bool) (body : Nat → GCMState → Except Fault GCMState)
    (hbody : ∀ I s s1, body I s = .ok s1 → Relocated F keep s.blocks s1.blocks)
    (BB : Nat) :
    ∀ (fuel : Nat) (cur : Option Nat) (s s1 : GCMState), forInsts body BB fuel cur s = .ok s1 →
      Relocated F keep s.blocks s1.blocks := by
  intro fuel
  induction fuel with
  | zero => intro cur s s1 h; simp only [forInsts] at h; cases h
  | succ fuel ih =>
    intro cur s s1 h
    cases cur with
    | none => simp only [forInsts] at h; cases h; exact Relocated.refl _
    | some I =>
      simp only [forInsts] at h
      cases hb : body I s with
      | error e => rw [hb] at h; cases h
      | ok s2 =>
        rw [hb] at h
        simp only at h
        exact relocated_trans (hbody I s s2 hb) (ih _ _ _ h)

theorem forBlocks_relocated {F : Function} (keep : Nat → Bool) (body : Nat → GCMState → Except Fault GCMState)
    (hbody : ∀ I s s1, body I s = .ok s1 → Relocated F keep s.blocks s1.blocks)
    (fuel : Nat) :
    ∀ (bl : List Nat) (s s1 : GCMState), forBlocks body fuel bl s = .ok s1 →
      Relocated F keep s.blocks s1.blocks := by
  intro bl
  induction bl with
  | nil => intro s s1 h; simp only [forBlocks] at h; cases h; exact Relocated.refl _
  | cons BB rest ih =>
    intro s s1 h
    simp only [forBlocks] at h
    cases hb : forInsts body BB fuel ((blockInsts s.blocks BB).bind List.head?) s with
    | error e => rw [hb] at h; cases h
    | ok s2 =>
      rw [hb] at h
      simp only at h
      exact relocated_trans (forInsts_relocated keep body hbody BB _ _ _ _ hb) (ih _ _ h)

/-- A completed run is a sequence of relocations of instructions outside the selection. -/
theorem runOnFunction_relocated (F : Function) (DT : DominatorTree) (LI : LoopInfo)
    (keep : Nat → Bool) (hok : KeepOK F keep) (fuel : Nat) (s s1 : GCMState)
    (h : runOnFunction F DT LI fuel s = .ok s1) :
    Relocated F keep s.blocks s1.blocks := by
  unfold runOnFunction at h
  cases ha : annotateBasicBlocks DT fuel DT.root 0 s.dominatorTreeDepth with
  | error e => rw [ha] at h; cases h
  | ok m =>
    rw [ha] at h
    simp only at h
    cases he : forBlocks (earlyBody F DT fuel) fuel (s.blocks.map (fun b => b.label))
        { s with dominatorTreeDepth := m } with
    | error e => rw [he] at h; cases h
    | ok s2 =>
      rw [he] at h
      simp only at h
      have h1 := forBlocks_relocated keep _ (earlyBody_relocated F DT keep hok fuel) fuel _ _ _ he
      have h2 := forBlocks_relocated keep _ (lateBody_relocated F DT LI keep hok fuel) fuel _ _ _ h
      exact relocated_trans (h1) (h2)

/-- A completed run leaves the selected subsequence of every block as it was. -/
theorem runOnFunction_keptSeq (F : Function) (DT : DominatorTree) (LI : LoopInfo)
    (keep : Nat → Bool) (hok : KeepOK F keep) (fuel : Nat) (s s1 : GCMState)
    (h : runOnFunction F DT LI fuel s = .ok s1) :
    keptSeq keep s1.blocks = keptSeq keep s.blocks :=
  relocated_keptSeq (runOnFunction_relocated F DT LI keep hok fuel s s1 h)

theorem precedes_filter_iff (keep : Nat → Bool) (l : List Nat) (x y : Nat)
    (hx : keep x = true) (hy : keep y = true) :
    precedes (l.filter keep) x y ↔ precedes l x y := by
  constructor
  · rintro ⟨l1, l2, l3, h⟩
    obtain ⟨a, b, rfl, -, hb⟩ := List.filter_eq_append_iff.mp h
    obtain ⟨b1, b2, rfl, -, -, hb2⟩ := List.filter_eq_cons_iff.mp hb
    obtain ⟨c, d, rfl, -, hd⟩ := List.filter_eq_append_iff.mp hb2
    obtain ⟨d1, d2, rfl, -, -, -⟩ := List.filter_eq_cons_iff.mp hd
    exact ⟨a ++ b1, c ++ d1, d2, by simp⟩
  · rintro ⟨l1, l2, l3, rfl⟩
    exact ⟨l1.filter keep, l2.filter keep, l3.filter keep, by
      simp [List.filter_append, List.filter_cons, hx, hy]⟩

theorem getParent_eq_of_keptSeq (keep : Nat → Bool) (I : Nat) (hk : keep I = true) :
    ∀ (bs : List BasicBlock),
      getParent bs I = ((keptSeq keep bs).find? (fun p => decide (I ∈ p.2))).map (fun p => p.1) := by
  intro bs
  induction bs with
  | nil => rfl
  | cons b rest ih =>
    unfold getParent at ih ⊢
    simp only [keptSeq, List.map_cons, List.find?_cons] at ih ⊢
    by_cases hm : I ∈ b.insts
    · have : I ∈ b.insts.filter keep := List.mem_filter.mpr ⟨hm, hk⟩
      simp [hm, this]
    · have : I ∉ b.insts.filter keep := fun h => hm (List.mem_filter.mp h).1
      simp only [hm, this, decide_False]
      exact ih

theorem blockInsts_filter_eq_of_keptSeq (keep : Nat → Bool) (b : Nat) :
    ∀ (bs : List BasicBlock),
      (blockInsts bs b).map (fun l => l.filter keep)
        = ((keptSeq keep bs).find? (fun p => decide (p.1 = b))).map (fun p => p.2) := by
  intro bs
  induction bs with
  | nil => rfl
  | cons B rest ih =>
    unfold blockInsts at ih ⊢
    simp only [keptSeq, List.map_cons, List.find?_cons] at ih ⊢
    by_cases hm : B.label = b
    · simp [hm]
    · simp only [hm, decide_False]
      exact ih

theorem precedesIn_iff_of_keptSeq (keep : Nat → Bool) (bs bs1 : List BasicBlock)
    (h : keptSeq keep bs1 = keptSeq keep bs) (b x y : Nat)
    (hx : keep x = true) (hy : keep y = true) :
    precedesIn bs1 b x y ↔ precedesIn bs b x y := by
  have key : ∀ (cs ds : List BasicBlock), keptSeq keep cs = keptSeq keep ds →
      precedesIn cs b x y → precedesIn ds b x y := by
    intro cs ds hcd
    rintro ⟨is, his, hp⟩
    have h1 := blockInsts_filter_eq_of_keptSeq keep b cs
    have h2 := blockInsts_filter_eq_of_keptSeq keep b ds
    rw [hcd, ← h2, his] at h1
    cases hd : blockInsts ds b with
    | none => rw [hd] at h1; cases h1
    | some js =>
      rw [hd] at h1
      simp only [Option.map_some', Option.some.injEq] at h1
      refine ⟨js, hd, ?_⟩
      rw [← precedes_filter_iff keep js x y hx hy, ← h1, precedes_filter_iff keep is x y hx hy]
      exact hp
  exact ⟨key _ _ h, key _ _ h.symm⟩


/-! ## Reading the instruction table -/

theorem operands_mem_insts (F : Function) (U : Nat) (v : Value) (h : v ∈ F.operands U) :
    ∃ inst ∈ F.insts, v ∈ inst.operands := by
  unfold Function.operands Function.inst at h
  rw [List.getD_eq_getElem?_getD] at h
  cases hU : F.insts[U]? with
  | none => rw [hU] at h; simp at h
  | some x => rw [hU] at h; exact ⟨x, List.getElem?_mem hU, h⟩

theorem usesRecorded_spec (F : Function) (h : F.usesRecorded = true) :
    ∀ U J, Value.inst J ∈ F.operands U → F.users J ≠ [] := by
  intro U J hJ
  obtain ⟨x, hx, hv⟩ := operands_mem_insts F U _ hJ
  unfold Function.usesRecorded at h
  have := List.all_eq_true.mp (List.all_eq_true.mp h x hx) _ hv
  simpa using this

/-! ## The pinned-operation classifier -/

/-- C8: `isPinned` is true exactly for a phi, a block terminator (`ret`, `br`, `switch`,
`indirectbr`, `invoke`, `resume`, `unreachable`, `cleanupret`, `catchret`, `catchswitch`), a
call, and an exception-handling pad (`landingpad`, `cleanuppad`, `catchpad`, `catchswitch`);
for every other opcode it is false. It is a function of the opcode alone and takes no state. -/
theorem isPinned_iff (k : Opcode) :
    (isPinned k = true ↔
      (k.isPHINode = true ∨ k.isTerminatorInst = true ∨ k.isCallInst = true ∨ k.isEHPad = true)) ∧
    (isPinned k = true ↔
      k ∈ [Opcode.phi, .ret, .br, .switch, .indirectBr, .invoke, .resume, .unreachable,
        .cleanupRet, .catchRet, .catchSwitch, .call, .landingPad, .cleanupPad, .catchPad]) ∧
    (isPinned k = false ↔
      ¬ (k.isPHINode = true ∨ k.isTerminatorInst = true ∨ k.isCallInst = true ∨ k.isEHPad = true)) := by
  cases k <;> decide

/-! ## Side effects -/

/-- C7, counterexample: `exMemF` passes the well-formedness checks, its block 1 stores to
memory and then loads; the run completes and has moved the load out of block 1 into block 0,
in front of the store. -/
theorem load_is_moved :
    runInputCheck exMemF exMemDT exMemS.blocks 10 = true ∧
    staticCheck exMemF exMemDT = true ∧ layoutCheck exMemF exMemDT exMemS.blocks = true ∧
    termCheck exMemF exMemS.blocks = true ∧
    runOnFunction exMemF exMemDT ⟨[]⟩ 10 exMemS = .ok exMemS1 ∧
    exMemF.opcode 1 = Opcode.store ∧ exMemF.opcode 2 = Opcode.load ∧
    precedesIn exMemS.blocks 1 1 2 ∧
    getParent exMemS.blocks 2 = some 1 ∧ getParent exMemS1.blocks 2 = some 0 ∧
    ¬ (getParent exMemS1.blocks 2 = getParent exMemS.blocks 2) := by
  refine ⟨by decide, by decide, by decide, by decide, by rfl, by rfl, by rfl,
    ⟨[1, 2, 3], by rfl, [], [], [3], by rfl⟩, by rfl, by rfl, by decide⟩

/-! ## The dominator tree -/

theorem chainUp_head (DT : DominatorTree) (n b : Nat) :
    ∃ t, DT.chainUp n b = b :: t := by
  cases n with
  | zero => exact ⟨[], rfl⟩
  | succ n =>
    simp only [DominatorTree.chainUp]
    cases DT.getIDom b with
    | none => exact ⟨[], rfl⟩
    | some p => exact ⟨_, rfl⟩

theorem self_mem_domChain (DT : DominatorTree) (b : Nat) : b ∈ DT.domChain b := by
  obtain ⟨t, ht⟩ := chainUp_head DT DT.idoms.length b
  unfold DominatorTree.domChain
  rw [ht]
  exact List.mem_cons_self _ _

theorem chainUp_fuel (DT : DominatorTree) (hroot : DT.getIDom DT.root = none) :
    ∀ (n b : Nat), DT.root ∈ DT.chainUp n b → ∀ m, n ≤ m → DT.chainUp m b = DT.chainUp n b := by
  intro n
  induction n with
  | zero =>
    intro b hb m _
    simp only [DominatorTree.chainUp, List.mem_singleton] at hb
    subst hb
    cases m with
    | zero => rfl
    | succ m => simp only [DominatorTree.chainUp, hroot]
  | succ n ih =>
    intro b hb m hm
    obtain ⟨m, rfl⟩ : ∃ k, m = k + 1 := ⟨m - 1, by omega⟩
    simp only [DominatorTree.chainUp] at hb ⊢
    cases hp : DT.getIDom b with
    | none => rfl
    | some p =>
      rw [hp] at hb
      simp only [List.mem_cons] at hb
      rcases hb with hb | hb
      · rw [hb, hp] at hroot; cases hroot
      · simp only
        rw [ih p hb m (by omega)]

/-- The dominators of a block of the tree: the block itself, then those of its immediate
dominator; the root is the only block of the tree without immediate dominator. -/
theorem domChain_unfold (DT : DominatorTree) (hroot : DT.getIDom DT.root = none) (b : Nat)
    (hb : DT.inTree b) :
    (DT.getIDom b = none → b = DT.root ∧ DT.domChain b = [b]) ∧
    (∀ p, DT.getIDom b = some p → DT.domChain b = b :: DT.domChain p ∧ DT.inTree p) := by
  unfold DominatorTree.inTree DominatorTree.domChain at *
  generalize DT.idoms.length = N at *
  cases N with
  | zero =>
    simp only [DominatorTree.chainUp, List.mem_singleton] at hb
    subst hb
    refine ⟨fun _ => ⟨rfl, rfl⟩, fun p hp => ?_⟩
    rw [hp] at hroot; cases hroot
  | succ n =>
    simp only [DominatorTree.chainUp] at hb ⊢
    constructor
    · intro hn
      rw [hn] at hb ⊢
      simp only [List.mem_singleton] at hb
      exact ⟨hb.symm, rfl⟩
    · intro p hp
      rw [hp] at hb ⊢
      simp only [List.mem_cons] at hb
      rcases hb with hb | hb
      · rw [hb, hp] at hroot; cases hroot
      · have := chainUp_fuel DT hroot n p hb (n + 1) (by omega)
        simp only [DominatorTree.chainUp] at this
        simp only
        rw [this]
        exact ⟨rfl, hb⟩

/-- Induction along the immediate-dominator chain of a block of the tree. -/
theorem inTree_induction (DT : DominatorTree) (hroot : DT.getIDom DT.root = none)
    (P : Nat → Prop)
    (step : ∀ b, DT.inTree b → (∀ p, DT.getIDom b = some p → P p) → P b) :
    ∀ b, DT.inTree b → P b := by
  have key : ∀ (n b : Nat), (DT.domChain b).length ≤ n → DT.inTree b → P b := by
    intro n
    induction n with
    | zero =>
      intro b hlen _
      obtain ⟨t, ht⟩ := chainUp_head DT DT.idoms.length b
      unfold DominatorTree.domChain at hlen
      rw [ht] at hlen
      simp at hlen
    | succ n ih =>
      intro b hlen hb
      apply step b hb
      intro p hp
      obtain ⟨h1, h2⟩ := (domChain_unfold DT hroot b hb).2 p hp
      apply ih p _ h2
      rw [h1] at hlen
      simp only [List.length_cons] at hlen
      omega
  intro b hb
  exact key _ b (Nat.le_refl _) hb

theorem domChain_suffix (DT : DominatorTree) (hroot : DT.getIDom DT.root = none) :
    ∀ b, DT.inTree b → ∀ x, x ∈ DT.domChain b → DT.domChain x <:+ DT.domChain b ∧ DT.inTree x := by
  apply inTree_induction DT hroot
  intro b hb ih x hx
  cases hp : DT.getIDom b with
  | none =>
    obtain ⟨-, h2⟩ := (domChain_unfold DT hroot b hb).1 hp
    rw [h2] at hx
    simp only [List.mem_singleton] at hx
    subst hx
    exact ⟨List.suffix_refl _, hb⟩
  | some p =>
    obtain ⟨h1, -⟩ := (domChain_unfold DT hroot b hb).2 p hp
    rw [h1] at hx
    simp only [List.mem_cons] at hx
    rcases hx with hx | hx
    · subst hx
      exact ⟨List.suffix_refl _, hb⟩
    · obtain ⟨h3, h4⟩ := ih p hp x hx
      rw [h1]
      exact ⟨h3.trans (List.suffix_cons _ _), h4⟩

theorem dominates_iff (DT : DominatorTree) (a b : Nat) :
    DT.dominates a b = true ↔ a ∈ DT.domChain b := by
  simp [DominatorTree.dominates]

theorem domChain_trans (DT : DominatorTree) (hroot : DT.getIDom DT.root = none) {a b c : Nat}
    (hc : DT.inTree c) (hab : a ∈ DT.domChain b) (hbc : b ∈ DT.domChain c) :
    a ∈ DT.domChain c :=
  (domChain_suffix DT hroot c hc b hbc).1.subset hab

theorem domChain_antisymm (DT : DominatorTree) (hroot : DT.getIDom DT.root = none) {a b : Nat}
    (ha : DT.inTree a) (hb : DT.inTree b) (hab : a ∈ DT.domChain b) (hba : b ∈ DT.domChain a) :
    a = b := by
  have h1 := (domChain_suffix DT hroot b hb a hab).1
  have h2 := (domChain_suffix DT hroot a ha b hba).1
  have hlen : (DT.domChain a).length = (DT.domChain b).length :=
    Nat.le_antisymm h1.length_le h2.length_le
  have heq := h1.eq_of_length hlen
  obtain ⟨t1, ht1⟩ := chainUp_head DT DT.idoms.length a
  obtain ⟨t2, ht2⟩ := chainUp_head DT DT.idoms.length b
  unfold DominatorTree.domChain at heq
  rw [ht1, ht2] at heq
  exact (List.cons.inj heq).1

/-- On blocks of the tree, `findNearestCommonDominator` returns the greatest lower bound of
its arguments in the dominance order. -/
theorem findNCD_glb (DT : DominatorTree) (hroot : DT.getIDom DT.root = none) (a : Nat)
    (ha : DT.inTree a) :
    ∀ b, DT.inTree b → ∃ L, DT.findNearestCommonDominator a b = some L ∧
      L ∈ DT.domChain a ∧ L ∈ DT.domChain b ∧
      ∀ c, c ∈ DT.domChain a → c ∈ DT.domChain b → c ∈ DT.domChain L := by
  apply inTree_induction DT hroot
  intro b hb ih
  unfold DominatorTree.findNearestCommonDominator at ih ⊢
  by_cases hba : b ∈ DT.domChain a
  · refine ⟨b, ?_, hba, self_mem_domChain DT b, fun c _ hc => hc⟩
    obtain ⟨t, ht⟩ := chainUp_head DT DT.idoms.length b
    unfold DominatorTree.domChain at hba ⊢
    rw [ht]
    simp [hba]
  · cases hp : DT.getIDom b with
    | none =>
      obtain ⟨h1, -⟩ := (domChain_unfold DT hroot b hb).1 hp
      rw [h1] at hba
      exact absurd ha hba
    | some p =>
      obtain ⟨h1, -⟩ := (domChain_unfold DT hroot b hb).2 p hp
      obtain ⟨L, hL, hLa, hLp, hglb⟩ := ih p hp
      refine ⟨L, ?_, hLa, ?_, ?_⟩
      · rw [h1]
        simp only [List.find?_cons, hba, decide_False]
        exact hL
      · rw [h1]; exact List.mem_cons_of_mem _ hLp
      · intro c hca hcb
        rw [h1] at hcb
        simp only [List.mem_cons] at hcb
        rcases hcb with hcb | hcb
        · subst hcb; exact absurd hca hba
        · exact hglb c hca hcb


theorem findLCA_glb (DT : DominatorTree) (hroot : DT.getIDom DT.root = none) {a b : Nat}
    (ha : DT.inTree a) (hb : DT.inTree b) :
    ∃ L, findLCA a b DT = some L ∧ DT.inTree L ∧ L ∈ DT.domChain a ∧ L ∈ DT.domChain b ∧
      ∀ c, c ∈ DT.domChain a → c ∈ DT.domChain b → c ∈ DT.domChain L := by
  obtain ⟨L, h1, h2, h3, h4⟩ := findNCD_glb DT hroot a ha b hb
  exact ⟨L, h1, (domChain_suffix DT hroot a ha L h2).2, h2, h3, h4⟩

theorem findLCA_comm (DT : DominatorTree) (hroot : DT.getIDom DT.root = none) {a b : Nat}
    (ha : DT.inTree a) (hb : DT.inTree b) : findLCA a b DT = findLCA b a DT := by
  obtain ⟨L1, e1, t1, a1, b1, g1⟩ := findLCA_glb DT hroot ha hb
  obtain ⟨L2, e2, t2, b2, a2, g2⟩ := findLCA_glb DT hroot hb ha
  rw [e1, e2, domChain_antisymm DT hroot t1 t2 (g2 L1 b1 a1) (g1 L2 a2 b2)]

theorem findLCA_assoc (DT : DominatorTree) (hroot : DT.getIDom DT.root = none) {a b c : Nat}
    (ha : DT.inTree a) (hb : DT.inTree b) (hc : DT.inTree c) :
    (findLCA a b DT).bind (fun l => findLCA l c DT)
      = (findLCA b c DT).bind (fun l => findLCA a l DT) := by
  obtain ⟨L1, e1, t1, a1, b1, g1⟩ := findLCA_glb DT hroot ha hb
  obtain ⟨M1, f1, u1, l1, c1, k1⟩ := findLCA_glb DT hroot t1 hc
  obtain ⟨L2, e2, t2, b2, c2, g2⟩ := findLCA_glb DT hroot hb hc
  obtain ⟨M2, f2, u2, a2, l2, k2⟩ := findLCA_glb DT hroot ha t2
  rw [e1, e2]
  simp only [Option.some_bind]
  rw [f1, f2]
  congr 1
  apply domChain_antisymm DT hroot u1 u2
  · apply k2
    · exact domChain_trans DT hroot ha l1 a1
    · exact g2 M1 (domChain_trans DT hroot hb l1 b1) c1
  · apply k1
    · exact g1 M2 a2 (domChain_trans DT hroot hb l2 b2)
    · exact domChain_trans DT hroot hc l2 c2

theorem foldl_lcaStep_glb (DT : DominatorTree) (hroot : DT.getIDom DT.root = none) :
    ∀ (bs : List Nat) (l : Nat), DT.inTree l → (∀ b ∈ bs, DT.inTree b) →
      ∃ L, bs.foldl (lcaStep DT) (some l) = some L ∧ DT.inTree L ∧
        (∀ b ∈ l :: bs, L ∈ DT.domChain b) ∧
        ∀ c, (∀ b ∈ l :: bs, c ∈ DT.domChain b) → c ∈ DT.domChain L := by
  intro bs
  induction bs with
  | nil =>
    intro l hl _
    refine ⟨l, rfl, hl, ?_, ?_⟩
    · intro b hb
      simp only [List.mem_singleton] at hb
      subst hb
      exact self_mem_domChain DT b
    · intro c hc
      exact hc l (List.mem_cons_self _ _)
  | cons b rest ih =>
    intro l hl hbs
    have hb : DT.inTree b := hbs b (List.mem_cons_self _ _)
    obtain ⟨L0, e0, t0, a0, b0, g0⟩ := findLCA_glb DT hroot hl hb
    obtain ⟨L, eL, tL, dL, gL⟩ := ih L0 t0 (fun x hx => hbs x (List.mem_cons_of_mem _ hx))
    refine ⟨L, ?_, tL, ?_, ?_⟩
    · simp only [List.foldl_cons, lcaStep, e0]
      exact eL
    · intro x hx
      have hL0 : L ∈ DT.domChain L0 := dL L0 (List.mem_cons_self _ _)
      simp only [List.mem_cons] at hx
      rcases hx with hx | hx | hx
      · subst hx; exact domChain_trans DT hroot hl hL0 a0
      · subst hx; exact domChain_trans DT hroot hb hL0 b0
      · exact dL x (List.mem_cons_of_mem _ hx)
    · intro c hc
      apply gL
      intro x hx
      simp only [List.mem_cons] at hx
      rcases hx with hx | hx
      · subst hx
        exact g0 c (hc l (List.mem_cons_self _ _))
          (hc b (List.mem_cons_of_mem _ (List.mem_cons_self _ _)))
      · exact hc x (List.mem_cons_of_mem _ (List.mem_cons_of_mem _ hx))

theorem lcaFold_glb (DT : DominatorTree) (hroot : DT.getIDom DT.root = none) (bs : List Nat)
    (hne : bs ≠ []) (hbs : ∀ b ∈ bs, DT.inTree b) :
    ∃ L, lcaFold DT bs = some L ∧ DT.inTree L ∧ (∀ b ∈ bs, L ∈ DT.domChain b) ∧
      ∀ c, (∀ b ∈ bs, c ∈ DT.domChain b) → c ∈ DT.domChain L := by
  cases bs with
  | nil => exact absurd rfl hne
  | cons b rest =>
    exact foldl_lcaStep_glb DT hroot rest b (hbs b (List.mem_cons_self _ _))
      (fun x hx => hbs x (List.mem_cons_of_mem _ hx))

theorem lateUseLoop_eq_fold (F : Function) (DT : DominatorTree)
    (rec : Nat → GCMState → Except Fault GCMState) (I : Nat) (s : GCMState) :
    ∀ (us : List Nat) (lca : Option Nat), (∀ UI ∈ us, rec UI s = .ok s) →
      (∀ UI ∈ us, (useBlockOf F s.blocks I UI).isSome = true) →
      lateUseLoop F DT rec I us lca s
        = .ok ((us.filterMap (useBlockOf F s.blocks I)).foldl (lcaStep DT) lca, s) := by
  intro us
  induction us with
  | nil => intro lca _ _; rfl
  | cons UI rest ih =>
    intro lca hrec hsome
    have h1 := hrec UI (List.mem_cons_self _ _)
    have h2 := hsome UI (List.mem_cons_self _ _)
    obtain ⟨u, hu⟩ := Option.isSome_iff_exists.mp h2
    have ih1 := fun l => ih l (fun x hx => hrec x (List.mem_cons_of_mem _ hx))
      (fun x hx => hsome x (List.mem_cons_of_mem _ hx))
    simp only [lateUseLoop, h1, List.filterMap_cons, hu, List.foldl_cons]
    cases lca with
    | none => simp only [lcaStep]; exact ih1 _
    | some l => simp only [lcaStep]; exact ih1 _

/-! ## Nearest common dominator -/

/-- C10: on the blocks of a dominator tree `findLCA` is commutative and associative; the fold
that `scheduleLate` performs over a non-empty list of use blocks (the first block, then
`findLCA` with each next block, which is what `lateUseLoop` computes when its consumers are
already scheduled) yields a block, the same block for every permutation of the list; that
block dominates every block of the list and is dominated by every block that dominates all of
them. -/
theorem findLCA_fold_order_independent (DT : DominatorTree)
    (hroot : DT.getIDom DT.root = none) :
    (∀ a b, DT.inTree a → DT.inTree b → findLCA a b DT = findLCA b a DT) ∧
    (∀ a b c, DT.inTree a → DT.inTree b → DT.inTree c →
      (findLCA a b DT).bind (fun l => findLCA l c DT)
        = (findLCA b c DT).bind (fun l => findLCA a l DT)) ∧
    (∀ (F : Function) (rec : Nat → GCMState → Except Fault GCMState) (I : Nat) (s : GCMState)
      (us : List Nat), (∀ UI ∈ us, rec UI s = .ok s) →
      (∀ UI ∈ us, (useBlockOf F s.blocks I UI).isSome = true) →
      lateUseLoop F DT rec I us none s
        = .ok (lcaFold DT (us.filterMap (useBlockOf F s.blocks I)), s)) ∧
    (∀ bs : List Nat, bs ≠ [] → (∀ b ∈ bs, DT.inTree b) →
      ∃ L, lcaFold DT bs = some L ∧
        (∀ b ∈ bs, DT.dominates L b = true) ∧
        (∀ c, (∀ b ∈ bs, DT.dominates c b = true) → DT.dominates c L = true) ∧
        (∀ bs1, bs1.Perm bs → lcaFold DT bs1 = some L)) := by
  refine ⟨fun a b ha hb => findLCA_comm DT hroot ha hb,
    fun a b c ha hb hc => findLCA_assoc DT hroot ha hb hc,
    fun F rec I s us h1 h2 => lateUseLoop_eq_fold F DT rec I s us none h1 h2, ?_⟩
  intro bs hne hbs
  obtain ⟨L, eL, tL, dL, gL⟩ := lcaFold_glb DT hroot bs hne hbs
  refine ⟨L, eL, ?_, ?_, ?_⟩
  · intro b hb
    exact (dominates_iff DT L b).mpr (dL b hb)
  · intro c hc
    exact (dominates_iff DT c L).mpr (gL c (fun b hb => (dominates_iff DT c b).mp (hc b hb)))
  · intro bs1 hperm
    have hne1 : bs1 ≠ [] := by
      intro h
      rw [h] at hperm
      exact hne (List.Perm.nil_eq hperm).symm
    obtain ⟨L1, eL1, tL1, dL1, gL1⟩ :=
      lcaFold_glb DT hroot bs1 hne1 (fun b hb => hbs b (hperm.subset hb))
    rw [eL1]
    congr 1
    apply domChain_antisymm DT hroot tL1 tL
    · exact gL L1 (fun b hb => dL1 b (hperm.symm.subset hb))
    · exact gL1 L (fun b hb => dL b (hperm.subset hb))

/-- Witness of C10 on the dominator tree of `exPhiF`: the fold over the blocks 5, 2, 3 and
over every permutation of them is block 1. -/
theorem findLCA_fold_order_independent_witness :
    exPhiDT.getIDom exPhiDT.root = none ∧ (∀ b ∈ [5, 2, 3], exPhiDT.inTree b) ∧
    lcaFold exPhiDT [5, 2, 3] = some 1 ∧ lcaFold exPhiDT [3, 5, 2] = some 1 ∧
    ∃ L, lcaFold exPhiDT [5, 2, 3] = some L ∧
      (∀ b ∈ [5, 2, 3], exPhiDT.dominates L b = true) ∧
      (∀ c, (∀ b ∈ [5, 2, 3], exPhiDT.dominates c b = true) → exPhiDT.dominates c L = true) ∧
      (∀ bs1, bs1.Perm [5, 2, 3] → lcaFold exPhiDT bs1 = some L) :=
  ⟨by rfl, by decide, by rfl, by rfl,
    (findLCA_fold_order_independent exPhiDT (by rfl)).2.2.2 [5, 2, 3] (by decide) (by decide)⟩


/-! ## Relocation and the parent query -/

theorem mem_insertBeforeIn (i u x : Nat) (l : List Nat) :
    x ∈ insertBeforeIn i u l ↔ x ∈ l ∨ (x = i ∧ u ∈ l) := by
  induction l with
  | nil => simp [insertBeforeIn]
  | cons y ys ih =>
    unfold insertBeforeIn
    by_cases hy : y = u
    · subst hy
      simp only [if_true, List.mem_cons]
      tauto
    · simp only [hy, if_false, List.mem_cons, ih]
      have : ¬ u = y := fun e => hy e.symm
      tauto

theorem getParent_map (f : BasicBlock → BasicBlock) (t t1 : Nat)
    (hlabel : ∀ B, (f B).label = B.label)
    (hmem : ∀ B, t ∈ (f B).insts ↔ t1 ∈ B.insts) :
    ∀ bs : List BasicBlock, getParent (bs.map f) t = getParent bs t1 := by
  intro bs
  induction bs with
  | nil => rfl
  | cons B rest ih =>
    unfold getParent at ih ⊢
    simp only [List.map_cons, List.find?_cons]
    by_cases h : t1 ∈ B.insts
    · have h1 : t ∈ (f B).insts := (hmem B).mpr h
      simp [h, h1, hlabel]
    · have h1 : t ∉ (f B).insts := fun hh => h ((hmem B).mp hh)
      simp only [h, h1, decide_False]
      exact ih

theorem getParent_mem {bs : List BasicBlock} {t b : Nat} (h : getParent bs t = some b) :
    ∃ B ∈ bs, B.label = b ∧ t ∈ B.insts := by
  unfold getParent at h
  cases hf : bs.find? (fun b => decide (t ∈ b.insts)) with
  | none => rw [hf] at h; cases h
  | some B =>
    rw [hf] at h
    simp only [Option.map_some', Option.some.injEq] at h
    have h1 := List.find?_some hf
    exact ⟨B, List.mem_of_find?_eq_some hf, h, by simpa using h1⟩

/-- The effect of a successful `moveBefore` of `i` in front of another instruction `u` on the
parent query: `i` gets the parent of `u`, every other instruction keeps its parent. -/
theorem moveBefore_getParent {bs bs1 : List BasicBlock} {i u : Nat}
    (h : moveBefore bs i (some u) = .ok bs1) :
    getParent bs1 i = getParent bs u ∧ (∀ t, t ≠ i → getParent bs1 t = getParent bs t) ∧
    (∃ b, getParent bs u = some b) ∧ (∃ b, getParent bs i = some b) ∧
    bs1.map (fun B => B.label) = bs.map (fun B => B.label) := by
  unfold moveBefore at h
  simp only at h
  cases hu : getParent bs u with
  | none => rw [hu] at h; simp at h
  | some bu =>
    cases hi : getParent bs i with
    | none => rw [hu, hi] at h; simp at h
    | some bi =>
      rw [hu, hi] at h
      simp only at h
      by_cases hiu : i = u
      · simp only [hiu, if_true] at h
        cases h
        subst hiu
        exact ⟨hu, fun _ _ => rfl, ⟨bu, rfl⟩, ⟨bi, rfl⟩, rfl⟩
      · simp only [hiu, if_false] at h
        cases h
        refine ⟨?_, ?_, ⟨bu, rfl⟩, ⟨bi, rfl⟩, ?_⟩
        · rw [← hu]
          unfold insertBefore removeInst
          rw [List.map_map]
          apply getParent_map
          · intro B; rfl
          · intro B
            simp only [Function.comp_apply, mem_insertBeforeIn, List.mem_filter]
            have : ¬ u = i := fun e => hiu e.symm
            simp only [ne_eq, decide_not, Bool.not_eq_true', decide_eq_false_iff_not]
            tauto
        · intro t ht
          unfold insertBefore removeInst
          rw [List.map_map]
          apply getParent_map
          · intro B; rfl
          · intro B
            simp only [Function.comp_apply, mem_insertBeforeIn, List.mem_filter]
            simp only [ne_eq, decide_not, Bool.not_eq_true', decide_eq_false_iff_not]
            tauto
        · unfold insertBefore removeInst
          rw [List.map_map, List.map_map]
          rfl

theorem moveBefore_shape {bs bs1 : List BasicBlock} {i u : Nat}
    (h : moveBefore bs i (some u) = .ok bs1) :
    (i = u ∧ bs1 = bs) ∨ (i ≠ u ∧ bs1 = insertBefore (removeInst bs i) i u) := by
  unfold moveBefore at h
  simp only at h
  split at h
  · split at h
    · rename_i hiu; cases h; exact Or.inl ⟨hiu, rfl⟩
    · rename_i hiu; cases h; exact Or.inr ⟨hiu, rfl⟩
  · cases h

theorem moveBefore_located {bs bs1 : List BasicBlock} {i u : Nat} (hloc : Located bs)
    (h : moveBefore bs i (some u) = .ok bs1) : Located bs1 := by
  obtain ⟨hpi, hpt, -, -, -⟩ := moveBefore_getParent h
  rcases moveBefore_shape h with ⟨-, rfl⟩ | ⟨hiu, hbs⟩
  · exact hloc
  · intro B1 hB1 t ht
    rw [hbs] at hB1
    unfold insertBefore removeInst at hB1
    rw [List.map_map] at hB1
    obtain ⟨B, hB, rfl⟩ := List.mem_map.mp hB1
    simp only [Function.comp_apply, mem_insertBeforeIn, List.mem_filter] at ht
    simp only [Function.comp_apply]
    by_cases hti : t = i
    · subst hti
      rw [hpi]
      rcases ht with ⟨_, h2⟩ | ⟨_, h2, _⟩
      · simp at h2
      · exact hloc B hB u h2
    · rw [hpt t hti]
      rcases ht with ⟨h1, _⟩ | ⟨h1, _⟩
      · exact hloc B hB t h1
      · exact absurd h1 hti

theorem inTree_of_getParent {DT : DominatorTree} {bs : List BasicBlock}
    (hin : ∀ B ∈ bs, DT.inTree B.label) {t b : Nat} (h : getParent bs t = some b) :
    DT.inTree b := by
  obtain ⟨B, hB, hl, -⟩ := getParent_mem h
  rw [← hl]
  exact hin B hB

/-- A relocation of a non-phi instruction `i` in front of `u` keeps the layout invariant when
the new block `T` is dominated by the blocks of the operands of `i` and dominates the blocks
of the non-phi consumers of `i`. -/
theorem moveBefore_layoutInv (F : Function) (DT : DominatorTree) {bs bs1 : List BasicBlock}
    {i u T : Nat} (hinv : LayoutInv F DT bs)
    (h : moveBefore bs i (some u) = .ok bs1) (hT : getParent bs u = some T)
    (hop : ∀ J bJ, Value.inst J ∈ F.operands i → J ≠ i → getParent bs J = some bJ →
      bJ ∈ DT.domChain T)
    (hus : ∀ U bU, (F.opcode U).isPHINode = false → Value.inst i ∈ F.operands U → U ≠ i →
      getParent bs U = some bU → T ∈ DT.domChain bU) :
    LayoutInv F DT bs1 := by
  obtain ⟨hpi, hpt, -, ⟨bi, hbi⟩, hlab⟩ := moveBefore_getParent h
  refine ⟨moveBefore_located hinv.located h, ?_, ?_⟩
  · intro B1 hB1
    have : B1.label ∈ bs1.map (fun B => B.label) := List.mem_map.mpr ⟨B1, hB1, rfl⟩
    rw [hlab] at this
    obtain ⟨B, hB, hl⟩ := List.mem_map.mp this
    rw [← hl]
    exact hinv.inTree B hB
  · intro U J bU hU hJ hpar
    by_cases hUi : U = i
    · subst hUi
      rw [hpi, hT] at hpar
      cases hpar
      by_cases hJi : J = U
      · subst hJi
        exact ⟨T, by rw [hpi, hT], self_mem_domChain DT T⟩
      · obtain ⟨bJ, hbJ, -⟩ := hinv.dom U J bi hU hJ hbi
        exact ⟨bJ, by rw [hpt J hJi, hbJ], hop J bJ hJ hJi hbJ⟩
    · rw [hpt U hUi] at hpar
      by_cases hJi : J = i
      · subst hJi
        exact ⟨T, by rw [hpi, hT], hus U bU hU hJ hUi hpar⟩
      · obtain ⟨bJ, hbJ, hd⟩ := hinv.dom U J bU hU hJ hpar
        exact ⟨bJ, by rw [hpt J hJi, hbJ], hd⟩


/-! ## Frames and the terminator of a block -/

theorem isPHINode_of_not_pinned {F : Function} {I : Nat} (h : F.pinned I = false) :
    (F.opcode I).isPHINode = false := by
  unfold Function.pinned isPinned at h
  cases hp : (F.opcode I).isPHINode
  · rfl
  · rw [hp] at h; simp at h

theorem frame_refl (s : GCMState) : Frame s s := ⟨fun _ h => h, fun _ _ => rfl, rfl⟩

theorem frame_trans {s s1 s2 : GCMState} (h1 : Frame s s1) (h2 : Frame s1 s2) : Frame s s2 :=
  ⟨fun K hK => h2.visited K (h1.visited K hK),
   fun K hK => (h2.parent K (h1.visited K hK)).trans (h1.parent K hK),
   h2.depth.trans h1.depth⟩

theorem frame_mark (s : GCMState) (I : Nat) : Frame s (s.markVisited I) :=
  ⟨fun _ h => List.mem_cons_of_mem _ h, fun _ _ => rfl, rfl⟩

theorem blockInsts_mem {bs : List BasicBlock} {b : Nat} {is : List Nat}
    (h : blockInsts bs b = some is) : ∃ B ∈ bs, B.label = b ∧ B.insts = is := by
  unfold blockInsts at h
  cases hf : bs.find? (fun B => decide (B.label = b)) with
  | none => rw [hf] at h; cases h
  | some B =>
    rw [hf] at h
    simp only [Option.map_some', Option.some.injEq] at h
    have h1 := List.find?_some hf
    exact ⟨B, List.mem_of_find?_eq_some hf, by simpa using h1, h⟩

theorem getTerminator_parent {F : Function} {bs : List BasicBlock} {b t : Nat}
    (hloc : Located bs) (h : getTerminator F bs b = some t) : getParent bs t = some b := by
  unfold getTerminator at h
  cases hb : blockInsts bs b with
  | none => rw [hb] at h; cases h
  | some is =>
    rw [hb] at h
    simp only at h
    obtain ⟨B, hB, hl, hi⟩ := blockInsts_mem hb
    cases hlast : is.getLast? with
    | none => rw [hlast] at h; cases h
    | some t1 =>
      rw [hlast] at h
      simp only at h
      split at h
      · cases h
        rw [← hl]
        apply hloc B hB
        rw [hi]
        exact List.mem_of_getLast?_eq_some hlast
      · cases h

theorem moveToBlockEnd_spec {F : Function} {s s1 : GCMState} {I : Nat} {B : Option Nat}
    (hloc : Located s.blocks) (h : moveToBlockEnd F s I B = .ok s1) :
    ∃ T t, B = some T ∧ getParent s.blocks t = some T ∧
      moveBefore s.blocks I (some t) = .ok s1.blocks ∧ s1 = { s with blocks := s1.blocks } := by
  unfold moveToBlockEnd at h
  cases B with
  | none => cases h
  | some T =>
    simp only at h
    cases ht : getTerminator F s.blocks T with
    | none => rw [ht] at h; simp [moveBefore] at h
    | some t =>
      rw [ht] at h
      cases hm : moveBefore s.blocks I (some t) with
      | error e => rw [hm] at h; cases h
      | ok bs =>
        rw [hm] at h
        cases h
        exact ⟨T, t, rfl, getTerminator_parent hloc ht, hm, rfl⟩

/-! ## The early phase keeps the layout invariant -/

theorem domChain_comparable (DT : DominatorTree) (hroot : DT.getIDom DT.root = none)
    {B x y : Nat} (hB : DT.inTree B) (hx : x ∈ DT.domChain B) (hy : y ∈ DT.domChain B)
    (hlen : (DT.domChain x).length ≤ (DT.domChain y).length) : x ∈ DT.domChain y := by
  have h1 := (domChain_suffix DT hroot B hB x hx).1
  have h2 := (domChain_suffix DT hroot B hB y hy).1
  exact (List.suffix_of_suffix_length_le h1 h2 hlen).subset (self_mem_domChain DT x)

theorem targetOK_mono {DT : DominatorTree} {P Q : Nat → Prop} {ib : Option Nat} {s : GCMState}
    (h : TargetOK DT P ib s) (hPQ : ∀ j, P j ↔ Q j) : TargetOK DT Q ib s := by
  obtain ⟨T, h1, h2, h3⟩ := h
  refine ⟨T, h1, ?_, fun j hj => h3 j ((hPQ j).mpr hj)⟩
  rcases h2 with h2 | ⟨j, hj, hp⟩
  · exact Or.inl h2
  · exact Or.inr ⟨j, (hPQ j).mp hj, hp⟩

theorem earlyOperandLoop_inv (F : Function) (DT : DominatorTree)
    (rec : Nat → GCMState → Except Fault GCMState) (m : List (Nat × Nat))
    (hrec : ∀ j t t1, LayoutInv F DT t.blocks → t.dominatorTreeDepth = m → rec j t = .ok t1 →
      LayoutInv F DT t1.blocks ∧ Frame t t1 ∧ j ∈ t1.visited) :
    ∀ (ops : List Value) (P : Nat → Prop) (ib : Option Nat) (s : GCMState)
      (r : Option Nat × GCMState),
      LayoutInv F DT s.blocks → s.dominatorTreeDepth = m → (∀ j, P j → j ∈ s.visited) →
      TargetOK DT P ib s →
      earlyOperandLoop rec ops ib s = .ok r →
      LayoutInv F DT r.2.blocks ∧ Frame s r.2 ∧
        TargetOK DT (fun j => P j ∨ Value.inst j ∈ ops) r.1 r.2 := by
  intro ops
  induction ops with
  | nil =>
    intro P ib s r hinv _ _ ht h
    simp only [earlyOperandLoop] at h
    cases h
    exact ⟨hinv, frame_refl s, targetOK_mono ht (fun j => by simp)⟩
  | cons v rest ih =>
    intro P ib s r hinv hdm hP ht h
    cases v with
    | other =>
      simp only [earlyOperandLoop] at h
      obtain ⟨h1, h2, h3⟩ := ih P ib s r hinv hdm hP ht h
      exact ⟨h1, h2, targetOK_mono h3 (fun j => by simp)⟩
    | inst j =>
      simp only [earlyOperandLoop] at h
      cases hr : rec j s with
      | error e => rw [hr] at h; cases h
      | ok s1 =>
        rw [hr] at h
        simp only at h
        obtain ⟨inv1, fr1, vis1⟩ := hrec j s s1 hinv hdm hr
        have hP1 : ∀ k, (P k ∨ k = j) → k ∈ s1.visited := by
          rintro k (hk | hk)
          · exact fr1.visited k (hP k hk)
          · rw [hk]; exact vis1
        obtain ⟨T, hT, hT2, hT3⟩ := ht
        have hT2a : T = DT.root ∨ ∃ k, P k ∧ getParent s1.blocks k = some T := by
          rcases hT2 with h2 | ⟨k, hk, hp⟩
          · exact Or.inl h2
          · exact Or.inr ⟨k, hk, by rw [fr1.parent k (hP k hk)]; exact hp⟩
        have hT3a : ∀ k, P k → depthOf s1.dominatorTreeDepth (getParent s1.blocks k)
            ≤ depthOf s1.dominatorTreeDepth (some T) := by
          intro k hk
          rw [fr1.parent k (hP k hk), fr1.depth]
          exact hT3 k hk
        have finish : ∀ (ib1 : Option Nat), TargetOK DT (fun k => P k ∨ k = j) ib1 s1 →
            earlyOperandLoop rec rest ib1 s1 = .ok r →
            LayoutInv F DT r.2.blocks ∧ Frame s r.2 ∧
              TargetOK DT (fun k => P k ∨ Value.inst k ∈ Value.inst j :: rest) r.1 r.2 := by
          intro ib1 ht1 h1
          obtain ⟨inv2, fr2, ht2⟩ := ih _ ib1 s1 r inv1 (fr1.depth.trans hdm) hP1 ht1 h1
          refine ⟨inv2, frame_trans fr1 fr2, targetOK_mono ht2 ?_⟩
          intro k
          simp only [List.mem_cons, Value.inst.injEq]
          tauto
        subst hT
        split at h
        · rename_i hlt
          apply finish _ _ h
          cases hpj : getParent s1.blocks j with
          | none => rw [hpj] at hlt; simp [depthOf] at hlt
          | some T1 =>
            rw [hpj] at hlt
            refine ⟨T1, rfl, Or.inr ⟨j, Or.inr rfl, hpj⟩, ?_⟩
            rintro k (hk | hk)
            · exact Nat.le_of_lt (Nat.lt_of_le_of_lt (hT3a k hk) hlt)
            · rw [hk, hpj]
        · rename_i hlt
          apply finish _ _ h
          refine ⟨T, rfl, ?_, ?_⟩
          · rcases hT2a with h2 | ⟨k, hk, hp⟩
            · exact Or.inl h2
            · exact Or.inr ⟨k, Or.inl hk, hp⟩
          · rintro k (hk | hk)
            · exact hT3a k hk
            · rw [hk]; exact Nat.le_of_not_lt hlt

/-- A call of `scheduleEarly` keeps the layout invariant, leaves the instructions that were
already visited where they are, and leaves its instruction marked visited. -/
theorem scheduleEarly_inv (F : Function) (DT : DominatorTree) (hroot : DT.getIDom DT.root = none)
    (m : List (Nat × Nat)) (hm : DepthOK DT m) :
    ∀ (fuel I : Nat) (s s1 : GCMState), LayoutInv F DT s.blocks → s.dominatorTreeDepth = m →
      scheduleEarly F DT fuel I s = .ok s1 →
      LayoutInv F DT s1.blocks ∧ Frame s s1 ∧ I ∈ s1.visited := by
  intro fuel
  induction fuel with
  | zero => intro I s s1 _ _ h; simp only [scheduleEarly] at h; cases h
  | succ fuel ih =>
    intro I s s1 hinv hdm h
    simp only [scheduleEarly] at h
    split at h
    · rename_i hv
      cases h
      exact ⟨hinv, frame_refl _, by simpa [GCMState.isVisited] using hv⟩
    · rename_i hv
      have hIv : I ∉ s.visited := by simpa [GCMState.isVisited] using hv
      cases hl : earlyOperandLoop (scheduleEarly F DT fuel) (F.operands I) (some DT.root)
          (s.markVisited I) with
      | error e => rw [hl] at h; cases h
      | ok r =>
        rw [hl] at h
        obtain ⟨ib, s2⟩ := r
        simp only at h
        have ht0 : TargetOK DT (fun _ => False) (some DT.root) (s.markVisited I) :=
          ⟨DT.root, rfl, Or.inl rfl, fun j hj => absurd hj id⟩
        obtain ⟨inv2, fr2, ht2⟩ := earlyOperandLoop_inv F DT _ m ih (F.operands I) _ _
          (s.markVisited I) _ hinv hdm (fun j hj => absurd hj id) ht0 hl
        simp only at inv2 fr2 ht2
        have fr02 : Frame s s2 := frame_trans (frame_mark s I) fr2
        have hI2 : I ∈ s2.visited := fr2.visited I (List.mem_cons_self _ _)
        split at h
        · rename_i hc
          simp only [Bool.and_eq_true, Bool.not_eq_true'] at hc
          have hnp : F.pinned I = false := hc.1
          obtain ⟨T, t, hib, htT, hmv, hs1⟩ := moveToBlockEnd_spec inv2.located h
          obtain ⟨hpi, hpt, -, ⟨B, hB⟩, -⟩ := moveBefore_getParent hmv
          obtain ⟨T1, hT1, hT2, hT3⟩ := ht2
          rw [hib] at hT1
          cases hT1
          have tB : DT.inTree B := inTree_of_getParent inv2.inTree hB
          have hphi := isPHINode_of_not_pinned hnp
          have hTB : T ∈ DT.domChain B := by
            rcases hT2 with h2 | ⟨j, hj, hp⟩
            · rw [h2]; exact tB
            · rcases hj with hj | hj
              · exact absurd hj id
              · obtain ⟨bJ, h1, h2⟩ := inv2.dom I j B hphi hj hB
                rw [h1] at hp
                cases hp
                exact h2
          have tT : DT.inTree T := (domChain_suffix DT hroot B tB T hTB).2
          have hd2 : s2.dominatorTreeDepth = m := fr02.depth.trans hdm
          have inv1 : LayoutInv F DT s1.blocks := by
            apply moveBefore_layoutInv F DT inv2 hmv htT
            · intro J bJ hJ _ hpJ
              obtain ⟨bJ1, h1, h2⟩ := inv2.dom I J B hphi hJ hB
              rw [h1] at hpJ
              cases hpJ
              have tJ : DT.inTree bJ := inTree_of_getParent inv2.inTree h1
              apply domChain_comparable DT hroot tB h2 hTB
              have h3 := hT3 J (Or.inr hJ)
              rw [h1, hd2] at h3
              have e1 := hm bJ tJ
              have e2 := hm T tT
              omega
            · intro U bU hU hUI _ hpU
              obtain ⟨bI, h1, h2⟩ := inv2.dom U I bU hU hUI hpU
              rw [hB] at h1
              cases h1
              exact domChain_trans DT hroot (inTree_of_getParent inv2.inTree hpU) hTB h2
          refine ⟨inv1, ⟨?_, ?_, ?_⟩, ?_⟩
          · intro K hK
            rw [hs1]
            exact fr02.visited K hK
          · intro K hK
            have hKI : K ≠ I := fun e => hIv (e ▸ hK)
            rw [hpt K hKI]
            exact fr02.parent K hK
          · rw [hs1]
            exact fr02.depth
          · rw [hs1]
            exact hI2
        · cases h
          exact ⟨inv2, fr02, hI2⟩


/-! ## The depth annotation -/

theorem mem_of_lookup {k v : Nat} : ∀ {l : List (Nat × Nat)}, l.lookup k = some v → (k, v) ∈ l := by
  intro l
  induction l with
  | nil => intro h; simp at h
  | cons e rest ih =>
    intro h
    obtain ⟨a, b⟩ := e
    rw [List.lookup_cons] at h
    by_cases hk : k = a
    · subst hk
      simp only [beq_self_eq_true, Option.some.injEq] at h
      subst h
      exact List.mem_cons_self _ _
    · have : (k == a) = false := by simpa using hk
      rw [this] at h
      exact List.mem_cons_of_mem _ (ih h)

theorem mem_getChildren (DT : DominatorTree) (c N : Nat) :
    c ∈ DT.getChildren N ↔ (c, N) ∈ DT.idoms := by
  unfold DominatorTree.getChildren
  simp only [List.mem_map, List.mem_filter, decide_eq_true_eq]
  constructor
  · rintro ⟨e, ⟨he, h2⟩, h1⟩
    obtain ⟨a, b⟩ := e
    simp only at h1 h2
    subst h1 h2
    exact he
  · intro h
    exact ⟨(c, N), ⟨h, rfl⟩, rfl⟩

/-- A block of the tree below `N` is `N` or lies below a child of `N`. -/
theorem child_on_path (DT : DominatorTree) (hroot : DT.getIDom DT.root = none) (N : Nat) :
    ∀ b, DT.inTree b → N ∈ DT.domChain b →
      b = N ∨ ∃ c, DT.getIDom c = some N ∧ DT.inTree c ∧ c ∈ DT.domChain b := by
  apply inTree_induction DT hroot
  intro b hb ih hN
  by_cases hbN : b = N
  · exact Or.inl hbN
  · right
    cases hp : DT.getIDom b with
    | none =>
      obtain ⟨-, h2⟩ := (domChain_unfold DT hroot b hb).1 hp
      rw [h2] at hN
      simp only [List.mem_singleton] at hN
      exact absurd hN.symm hbN
    | some p =>
      obtain ⟨h1, h2⟩ := (domChain_unfold DT hroot b hb).2 p hp
      rw [h1] at hN
      simp only [List.mem_cons] at hN
      rcases hN with hN | hN
      · exact absurd hN.symm hbN
      · rcases ih p hp hN with h3 | ⟨c, hc1, hc2, hc3⟩
        · subst h3
          exact ⟨b, hp, hb, self_mem_domChain DT b⟩
        · exact ⟨c, hc1, hc2, by rw [h1]; exact List.mem_cons_of_mem _ hc3⟩

theorem annotateBasicBlocks_spec (DT : DominatorTree) (hroot : DT.getIDom DT.root = none)
    (hidoms : ∀ e ∈ DT.idoms, DT.getIDom e.1 = some e.2 ∧ DT.inTree e.1) :
    ∀ (fuel N d : Nat) (m m1 : List (Nat × Nat)), DT.inTree N →
      d + 1 = (DT.domChain N).length → annotateBasicBlocks DT fuel N d m = .ok m1 →
      ∃ W, m1 = W ++ m ∧ DepthEntries DT W ∧
        ∀ b, DT.inTree b → N ∈ DT.domChain b → ∃ e ∈ W, e.1 = b := by
  intro fuel
  induction fuel with
  | zero => intro N d m m1 _ _ h; simp only [annotateBasicBlocks] at h; cases h
  | succ fuel ih =>
    intro N d m m1 hN hd h
    simp only [annotateBasicBlocks] at h
    have hrec : ∀ c, c ∈ DT.getChildren N → ∀ m2 m3,
        annotateBasicBlocks DT fuel c (d + 1) m2 = .ok m3 →
        ∃ W, m3 = W ++ m2 ∧ DepthEntries DT W ∧
          ∀ b, (DT.inTree b ∧ c ∈ DT.domChain b) → ∃ e ∈ W, e.1 = b := by
      intro c hc m2 m3 h3
      obtain ⟨hc1, hc2⟩ := hidoms (c, N) ((mem_getChildren DT c N).mp hc)
      obtain ⟨hc3, -⟩ := (domChain_unfold DT hroot c hc2).2 N hc1
      obtain ⟨W, e1, d1, c1⟩ := ih c (d + 1) m2 m3 hc2
        (by rw [hc3, List.length_cons, hd]) h3
      exact ⟨W, e1, d1, fun b hb => c1 b hb.1 hb.2⟩
    have key : ∀ (cs : List Nat), (∀ c ∈ cs, c ∈ DT.getChildren N) →
        ∀ (m2 m3 : List (Nat × Nat)),
        annotateChildren (fun Child acc => annotateBasicBlocks DT fuel Child (d + 1) acc) cs m2
          = .ok m3 →
        ∃ W, m3 = W ++ m2 ∧ DepthEntries DT W ∧
          ∀ c ∈ cs, ∀ b, (DT.inTree b ∧ c ∈ DT.domChain b) → ∃ e ∈ W, e.1 = b := by
      intro cs
      induction cs with
      | nil =>
        intro _ m2 m3 h3
        simp only [annotateChildren] at h3
        cases h3
        exact ⟨[], rfl, fun e he => (by cases he), fun c hc => (by cases hc)⟩
      | cons c rest ihc =>
        intro hcs m2 m3 h3
        simp only [annotateChildren] at h3
        cases hr : annotateBasicBlocks DT fuel c (d + 1) m2 with
        | error e => rw [hr] at h3; cases h3
        | ok m4 =>
          rw [hr] at h3
          simp only at h3
          obtain ⟨W1, e1, d1, c1⟩ := hrec c (hcs c (List.mem_cons_self _ _)) m2 m4 hr
          obtain ⟨W2, e2, d2, c2⟩ :=
            ihc (fun x hx => hcs x (List.mem_cons_of_mem _ hx)) m4 m3 h3
          refine ⟨W2 ++ W1, by rw [e2, e1, List.append_assoc], ?_, ?_⟩
          · intro e he
            rcases List.mem_append.mp he with he | he
            · exact d2 e he
            · exact d1 e he
          · intro x hx b hb
            simp only [List.mem_cons] at hx
            rcases hx with hx | hx
            · subst hx
              obtain ⟨e, he, hb1⟩ := c1 b hb
              exact ⟨e, List.mem_append_right _ he, hb1⟩
            · obtain ⟨e, he, hb1⟩ := c2 x hx b hb
              exact ⟨e, List.mem_append_left _ he, hb1⟩
    obtain ⟨W, e1, d1, c1⟩ := key (DT.getChildren N) (fun c hc => hc) _ _ h
    refine ⟨W ++ [(N, d)], by rw [e1]; simp, ?_, ?_⟩
    · intro e he
      rcases List.mem_append.mp he with he | he
      · exact d1 e he
      · simp only [List.mem_singleton] at he
        subst he
        exact ⟨hN, hd⟩
    · intro b hb hNb
      rcases child_on_path DT hroot N b hb hNb with hbN | ⟨c, hc1, hc2, hc3⟩
      · exact ⟨(N, d), List.mem_append_right _ (List.mem_singleton.mpr rfl), hbN.symm⟩
      · obtain ⟨e, he, hb1⟩ := c1 c ((mem_getChildren DT c N).mpr (mem_of_lookup hc1)) b
          ⟨hb, hc3⟩
        exact ⟨e, List.mem_append_left _ he, hb1⟩

theorem depthOf_append (DT : DominatorTree) (b : Nat) :
    ∀ (W m : List (Nat × Nat)), DepthEntries DT W → (∃ e ∈ W, e.1 = b) →
      depthOf (W ++ m) (some b) + 1 = (DT.domChain b).length := by
  intro W
  induction W with
  | nil => intro m _ h; obtain ⟨e, he, -⟩ := h; cases he
  | cons e rest ih =>
    intro m hW hb
    obtain ⟨k, v⟩ := e
    simp only [depthOf, List.cons_append, List.lookup_cons]
    by_cases hk : b = k
    · subst hk
      simp only [beq_self_eq_true, Option.getD_some]
      exact (hW (b, v) (List.mem_cons_self _ _)).2
    · have hbeq : (b == k) = false := by simpa using hk
      rw [hbeq]
      simp only
      apply ih m (fun x hx => hW x (List.mem_cons_of_mem _ hx))
      obtain ⟨x, hx, hx1⟩ := hb
      simp only [List.mem_cons] at hx
      rcases hx with hx | hx
      · subst hx; exact absurd hx1.symm hk
      · exact ⟨x, hx, hx1⟩

/-- The annotation from the root with depth 0 records the number of strict dominators of
every block of the tree, whatever the depth map held before. -/
theorem annotateBasicBlocks_depthOK (DT : DominatorTree) (hroot : DT.getIDom DT.root = none)
    (hidoms : ∀ e ∈ DT.idoms, DT.getIDom e.1 = some e.2 ∧ DT.inTree e.1)
    (fuel : Nat) (m m1 : List (Nat × Nat))
    (h : annotateBasicBlocks DT fuel DT.root 0 m = .ok m1) : DepthOK DT m1 := by
  have hr : DT.inTree DT.root := self_mem_domChain DT DT.root
  have hlen : 0 + 1 = (DT.domChain DT.root).length := by
    rw [((domChain_unfold DT hroot DT.root hr).1 hroot).2]
    rfl
  obtain ⟨W, e1, d1, c1⟩ := annotateBasicBlocks_spec DT hroot hidoms fuel DT.root 0 m m1 hr hlen h
  intro b hb
  rw [e1]
  exact depthOf_append DT b W m d1 (c1 b hb hb)


/-! ## Decidable well-formedness checks -/

theorem inst_of_ge (F : Function) (U : Nat) (h : F.insts.length ≤ U) :
    F.inst U = ⟨Opcode.unreachable, [], [], []⟩ := by
  unfold Function.inst
  exact List.getD_eq_default _ _ h

theorem layoutCheck_spec (F : Function) (DT : DominatorTree) (bs : List BasicBlock)
    (h : layoutCheck F DT bs = true) : LayoutInv F DT bs := by
  unfold layoutCheck at h
  simp only [Bool.and_eq_true] at h
  obtain ⟨⟨h1, h2⟩, h3⟩ := h
  refine ⟨?_, ?_, ?_⟩
  · intro B hB t ht
    have := List.all_eq_true.mp (List.all_eq_true.mp h1 B hB) t ht
    simpa using this
  · intro B hB
    have := List.all_eq_true.mp h2 B hB
    simpa using this
  · intro U J bU hphi hJ hpar
    by_cases hU : U < F.insts.length
    · have h4 := List.all_eq_true.mp h3 U (List.mem_range.mpr hU)
      rw [hphi, hpar] at h4
      simp only [Bool.false_or] at h4
      have h5 := List.all_eq_true.mp h4 _ hJ
      simp only at h5
      cases hpJ : getParent bs J with
      | none => rw [hpJ] at h5; cases h5
      | some bJ =>
        rw [hpJ] at h5
        exact ⟨bJ, rfl, by simpa using h5⟩
    · unfold Function.operands at hJ
      rw [inst_of_ge F U (by omega)] at hJ
      cases hJ

/-! ## The driver loops -/

theorem earlySeedLoop_preserves (Inv : GCMState → Prop)
    (rec : Nat → GCMState → Except Fault GCMState)
    (hrec : ∀ j s s1, Inv s → rec j s = .ok s1 → Inv s1) :
    ∀ (ops : List Value) (s s1 : GCMState), Inv s → earlySeedLoop rec ops s = .ok s1 →
      Inv s1 := by
  intro ops
  induction ops with
  | nil => intro s s1 hs h; simp only [earlySeedLoop] at h; cases h; exact hs
  | cons v rest ih =>
    intro s s1 hs h
    cases v with
    | other => simp only [earlySeedLoop] at h; exact ih _ _ hs h
    | inst j =>
      simp only [earlySeedLoop] at h
      cases hr : rec j s with
      | error e => rw [hr] at h; cases h
      | ok s2 =>
        rw [hr] at h
        exact ih _ _ (hrec j s s2 hs hr) h

theorem lateSeedLoop_preserves (Inv : GCMState → Prop)
    (rec : Nat → GCMState → Except Fault GCMState)
    (hrec : ∀ j s s1, Inv s → rec j s = .ok s1 → Inv s1) :
    ∀ (us : List Nat) (s s1 : GCMState), Inv s → lateSeedLoop rec us s = .ok s1 → Inv s1 := by
  intro us
  induction us with
  | nil => intro s s1 hs h; simp only [lateSeedLoop] at h; cases h; exact hs
  | cons UI rest ih =>
    intro s s1 hs h
    simp only [lateSeedLoop] at h
    cases hr : rec UI s with
    | error e => rw [hr] at h; cases h
    | ok s2 =>
      rw [hr] at h
      exact ih _ _ (hrec UI s s2 hs hr) h

theorem forInsts_preserves (Inv : GCMState → Prop)
    (body : Nat → GCMState → Except Fault GCMState)
    (hbody : ∀ I s s1, Inv s → body I s = .ok s1 → Inv s1) (BB : Nat) :
    ∀ (fuel : Nat) (cur : Option Nat) (s s1 : GCMState), Inv s →
      forInsts body BB fuel cur s = .ok s1 → Inv s1 := by
  intro fuel
  induction fuel with
  | zero => intro cur s s1 _ h; simp only [forInsts] at h; cases h
  | succ fuel ih =>
    intro cur s s1 hs h
    cases cur with
    | none => simp only [forInsts] at h; cases h; exact hs
    | some I =>
      simp only [forInsts] at h
      cases hb : body I s with
      | error e => rw [hb] at h; cases h
      | ok s2 =>
        rw [hb] at h
        exact ih _ _ _ (hbody I s s2 hs hb) h

theorem forBlocks_preserves (Inv : GCMState → Prop)
    (body : Nat → GCMState → Except Fault GCMState)
    (hbody : ∀ I s s1, Inv s → body I s = .ok s1 → Inv s1) (fuel : Nat) :
    ∀ (bl : List Nat) (s s1 : GCMState), Inv s → forBlocks body fuel bl s = .ok s1 →
      Inv s1 := by
  intro bl
  induction bl with
  | nil => intro s s1 hs h; simp only [forBlocks] at h; cases h; exact hs
  | cons BB rest ih =>
    intro s s1 hs h
    simp only [forBlocks] at h
    cases hb : forInsts body BB fuel ((blockInsts s.blocks BB).bind List.head?) s with
    | error e => rw [hb] at h; cases h
    | ok s2 =>
      rw [hb] at h
      exact ih _ _ (forInsts_preserves Inv body hbody BB _ _ _ _ hs hb) h

/-! ## Terminators -/

theorem isPinned_of_terminator {k : Opcode} (h : k.isTerminatorInst = true) :
    isPinned k = true := by
  unfold isPinned
  simp [h]

theorem getLast?_filter_of {p : Nat → Bool} {l : List Nat} {t : Nat}
    (h : l.getLast? = some t) (hp : p t = true) : (l.filter p).getLast? = some t := by
  obtain ⟨ys, rfl⟩ := List.getLast?_eq_some_iff.mp h
  simp [List.filter_append, List.filter_cons, hp]

theorem insertBeforeIn_concat (i u t : Nat) :
    ∀ ys : List Nat, ∃ zs, insertBeforeIn i u (ys ++ [t]) = zs ++ [t] := by
  intro ys
  induction ys with
  | nil =>
    simp only [List.nil_append, insertBeforeIn]
    split
    · exact ⟨[i], rfl⟩
    · exact ⟨[], rfl⟩
  | cons y ys ih =>
    simp only [List.cons_append, insertBeforeIn]
    split
    · exact ⟨i :: y :: ys, rfl⟩
    · obtain ⟨zs, hzs⟩ := ih
      exact ⟨y :: zs, by show y :: insertBeforeIn i u (ys ++ [t]) = _; rw [hzs]; rfl⟩

theorem getLast?_insertBeforeIn {i u t : Nat} {l : List Nat} (h : l.getLast? = some t) :
    (insertBeforeIn i u l).getLast? = some t := by
  obtain ⟨ys, rfl⟩ := List.getLast?_eq_some_iff.mp h
  obtain ⟨zs, hzs⟩ := insertBeforeIn_concat i u t ys
  rw [hzs]
  simp

theorem termCheck_spec (F : Function) (bs : List BasicBlock) (h : termCheck F bs = true) :
    TermOK F bs := by
  intro B hB
  have h1 := List.all_eq_true.mp h B hB
  cases hl : B.insts.getLast? with
  | none => rw [hl] at h1; cases h1
  | some t => rw [hl] at h1; exact ⟨t, rfl, h1⟩

theorem getTerminator_of_termOK {F : Function} {bs : List BasicBlock} (hterm : TermOK F bs)
    {b : Nat} (hb : b ∈ bs.map (fun B => B.label)) :
    ∃ t, getTerminator F bs b = some t := by
  unfold getTerminator blockInsts
  cases hf : bs.find? (fun B => decide (B.label = b)) with
  | none =>
    obtain ⟨B, hB, hl⟩ := List.mem_map.mp hb
    have := List.find?_eq_none.mp hf B hB
    simp at this
    exact absurd hl this
  | some B =>
    obtain ⟨t, ht, htt⟩ := hterm B (List.mem_of_find?_eq_some hf)
    simp only [Option.map_some', ht, htt, if_true]
    exact ⟨t, rfl⟩

theorem chainUp_length_le (DT : DominatorTree) :
    ∀ (n b : Nat), (DT.chainUp n b).length ≤ n + 1 := by
  intro n
  induction n with
  | zero => intro b; simp [DominatorTree.chainUp]
  | succ n ih =>
    intro b
    simp only [DominatorTree.chainUp]
    cases DT.getIDom b with
    | none => simp
    | some p => simp only [List.length_cons]; have := ih p; omega

/-! ## The dominator depth annotation (C11) -/

theorem domChain_nodup (DT : DominatorTree) (hroot : DT.getIDom DT.root = none) :
    ∀ b, DT.inTree b → (DT.domChain b).Nodup ∧ strictDominators DT b = (DT.domChain b).tail := by
  apply inTree_induction DT hroot
  intro b hb ih
  cases hp : DT.getIDom b with
  | none =>
    obtain ⟨-, h2⟩ := (domChain_unfold DT hroot b hb).1 hp
    unfold strictDominators
    rw [h2]
    simp
  | some p =>
    obtain ⟨h1, h2⟩ := (domChain_unfold DT hroot b hb).2 p hp
    obtain ⟨ihn, -⟩ := ih p hp
    have hnot : b ∉ DT.domChain p := by
      intro hmem
      have hs := (domChain_suffix DT hroot p h2 b hmem).1
      have := hs.length_le
      rw [h1] at this
      simp at this
    unfold strictDominators
    rw [h1]
    refine ⟨List.nodup_cons.mpr ⟨hnot, ihn⟩, ?_⟩
    simp only [List.tail_cons, List.filter_cons, ne_eq, not_true_eq_false, decide_False,
      Bool.false_eq_true, if_false]
    apply List.filter_eq_self.mpr
    intro a ha
    have : a ≠ b := fun e => hnot (e ▸ ha)
    simpa using this

theorem annotateBasicBlocks_total (DT : DominatorTree) (hroot : DT.getIDom DT.root = none)
    (hidoms : ∀ e ∈ DT.idoms, DT.getIDom e.1 = some e.2 ∧ DT.inTree e.1) :
    ∀ (fuel N d : Nat) (m : List (Nat × Nat)), DT.inTree N →
      DT.idoms.length + 2 ≤ fuel + (DT.domChain N).length →
      ∃ m1, annotateBasicBlocks DT fuel N d m = .ok m1 := by
  intro fuel
  induction fuel with
  | zero =>
    intro N d m _ hlen
    have := chainUp_length_le DT DT.idoms.length N
    unfold DominatorTree.domChain at hlen
    omega
  | succ fuel ih =>
    intro N d m hN hlen
    simp only [annotateBasicBlocks]
    have key : ∀ (cs : List Nat), (∀ c ∈ cs, c ∈ DT.getChildren N) →
        ∀ (m2 : List (Nat × Nat)), ∃ m3,
        annotateChildren (fun Child acc => annotateBasicBlocks DT fuel Child (d + 1) acc) cs m2
          = .ok m3 := by
      intro cs
      induction cs with
      | nil => intro _ m2; exact ⟨m2, rfl⟩
      | cons c rest ihc =>
        intro hcs m2
        obtain ⟨hc1, hc2⟩ :=
          hidoms (c, N) ((mem_getChildren DT c N).mp (hcs c (List.mem_cons_self _ _)))
        obtain ⟨hc3, -⟩ := (domChain_unfold DT hroot c hc2).2 N hc1
        obtain ⟨m4, hm4⟩ := ih c (d + 1) m2 hc2 (by rw [hc3, List.length_cons]; omega)
        obtain ⟨m3, hm3⟩ := ihc (fun x hx => hcs x (List.mem_cons_of_mem _ hx)) m4
        exact ⟨m3, by simp only [annotateChildren, hm4]; exact hm3⟩
    exact key _ (fun c hc => hc) _

/-- C11: on a dominator tree (the root has no immediate dominator, every entry is the immediate
dominator of its block and the block reaches the root) `annotateBasicBlocks(root, DT, 0)`
completes, whatever the depth map held before, and afterwards the recorded depth is 0 for the
root and the depth of the immediate dominator plus 1 for every other block of the tree; it is
the number of strict dominators of the block; and of two blocks that dominate one block (two
blocks on one root-to-leaf path) the one whose recorded depth is not greater dominates the
other. -/
theorem annotate_records_depth (DT : DominatorTree) (hroot : DT.getIDom DT.root = none)
    (hidoms : ∀ e ∈ DT.idoms, DT.getIDom e.1 = some e.2 ∧ DT.inTree e.1)
    (fuel : Nat) (m : List (Nat × Nat)) (hfuel : DT.idoms.length + 1 ≤ fuel) :
    ∃ m1, annotateBasicBlocks DT fuel DT.root 0 m = .ok m1 ∧
      depthOf m1 (some DT.root) = 0 ∧
      (∀ b p, DT.inTree b → DT.getIDom b = some p →
        depthOf m1 (some b) = depthOf m1 (some p) + 1) ∧
      (∀ b, DT.inTree b → (DT.domChain b).Nodup ∧
        depthOf m1 (some b) = (strictDominators DT b).length) ∧
      (∀ B x y, DT.inTree B → DT.dominates x B = true → DT.dominates y B = true →
        depthOf m1 (some x) ≤ depthOf m1 (some y) → DT.dominates x y = true) := by
  have hr : DT.inTree DT.root := self_mem_domChain DT DT.root
  have hrc : DT.domChain DT.root = [DT.root] := ((domChain_unfold DT hroot DT.root hr).1 hroot).2
  obtain ⟨m1, hm1⟩ := annotateBasicBlocks_total DT hroot hidoms fuel DT.root 0 m hr
    (by rw [hrc]; simp; omega)
  have hok := annotateBasicBlocks_depthOK DT hroot hidoms fuel m m1 hm1
  refine ⟨m1, hm1, ?_, ?_, ?_, ?_⟩
  · have := hok DT.root hr
    rw [hrc] at this
    simpa using this
  · intro b p hb hp
    obtain ⟨h1, h2⟩ := (domChain_unfold DT hroot b hb).2 p hp
    have e1 := hok b hb
    have e2 := hok p h2
    rw [h1, List.length_cons] at e1
    omega
  · intro b hb
    obtain ⟨h1, h2⟩ := domChain_nodup DT hroot b hb
    refine ⟨h1, ?_⟩
    have e1 := hok b hb
    rw [h2, List.length_tail]
    omega
  · intro B x y hB hx hy hle
    rw [dominates_iff] at hx hy ⊢
    have tx := (domChain_suffix DT hroot B hB x hx).2
    have ty := (domChain_suffix DT hroot B hB y hy).2
    apply domChain_comparable DT hroot hB hx hy
    have e1 := hok x tx
    have e2 := hok y ty
    omega

/-- Witness of C11 on the dominator tree of the loop example, started from a stale depth
map. -/
theorem annotate_records_depth_witness :
    ∃ m1, annotateBasicBlocks exLoopDT 7 exLoopDT.root 0 [(3, 9), (7, 2)] = .ok m1 ∧
      depthOf m1 (some exLoopDT.root) = 0 ∧
      (∀ b p, exLoopDT.inTree b → exLoopDT.getIDom b = some p →
        depthOf m1 (some b) = depthOf m1 (some p) + 1) ∧
      (∀ b, exLoopDT.inTree b → (exLoopDT.domChain b).Nodup ∧
        depthOf m1 (some b) = (strictDominators exLoopDT b).length) ∧
      (∀ B x y, exLoopDT.inTree B → exLoopDT.dominates x B = true →
        exLoopDT.dominates y B = true →
        depthOf m1 (some x) ≤ depthOf m1 (some y) → exLoopDT.dominates x y = true) :=
  annotate_records_depth exLoopDT (by rfl) (by decide) 7 [(3, 9), (7, 2)] (by decide)


/-! ## The memo log -/

theorem memoLog_refl (s : GCMState) : MemoLog s s [] :=
  ⟨rfl, List.nodup_nil, fun _ h => (by cases h)⟩

theorem memoLog_trans {s s1 s2 : GCMState} {W1 W2 : List Nat} (h1 : MemoLog s s1 W1)
    (h2 : MemoLog s1 s2 W2) : MemoLog s s2 (W2 ++ W1) := by
  obtain ⟨e1, n1, d1⟩ := h1
  obtain ⟨e2, n2, d2⟩ := h2
  refine ⟨by rw [e2, e1, List.append_assoc], ?_, ?_⟩
  · rw [List.nodup_append]
    refine ⟨n2, n1, ?_⟩
    intro x hx2 hx1
    exact d2 x hx2 (by rw [e1]; exact List.mem_append_left _ hx1)
  · intro x hx
    rcases List.mem_append.mp hx with hx | hx
    · intro hv
      exact d2 x hx (by rw [e1]; exact List.mem_append_right _ hv)
    · exact d1 x hx

theorem memoLog_mark {s : GCMState} {I : Nat} (h : I ∉ s.visited) :
    MemoLog s (s.markVisited I) [I] :=
  ⟨rfl, List.nodup_singleton I, fun x hx => by
    simp only [List.mem_singleton] at hx
    rw [hx]; exact h⟩

theorem moveToBlockEnd_visited {F : Function} {s s1 : GCMState} {I : Nat} {B : Option Nat}
    (h : moveToBlockEnd F s I B = .ok s1) : s1.visited = s.visited := by
  unfold moveToBlockEnd at h
  cases B with
  | none => cases h
  | some b =>
    simp only at h
    cases hm : moveBefore s.blocks I (getTerminator F s.blocks b) with
    | error e => rw [hm] at h; cases h
    | ok bs => rw [hm] at h; cases h; rfl

theorem latePlace_visited {F : Function} {s s1 : GCMState} {I : Nat}
    {best inst : Option Nat} (h : latePlace F s I best inst = .ok s1) :
    s1.visited = s.visited := by
  unfold latePlace at h
  cases ha : lateAnchor F s.blocks I best with
  | some UI =>
    rw [ha] at h
    simp only at h
    cases hm : moveBefore s.blocks I (some UI) with
    | error e => rw [hm] at h; cases h
    | ok bs => rw [hm] at h; cases h; rfl
  | none =>
    rw [ha] at h
    simp only at h
    split at h
    · exact moveToBlockEnd_visited h
    · cases h; rfl

theorem earlyOperandLoop_memo (rec : Nat → GCMState → Except Fault GCMState)
    (hrec : ∀ j s s1, rec j s = .ok s1 → ∃ W, MemoLog s s1 W) :
    ∀ (ops : List Value) (ib : Option Nat) (s : GCMState) (r : Option Nat × GCMState),
      earlyOperandLoop rec ops ib s = .ok r → ∃ W, MemoLog s r.2 W := by
  intro ops
  induction ops with
  | nil =>
    intro ib s r h
    simp only [earlyOperandLoop] at h
    cases h
    exact ⟨[], memoLog_refl s⟩
  | cons v rest ih =>
    intro ib s r h
    cases v with
    | other => simp only [earlyOperandLoop] at h; exact ih _ _ _ h
    | inst j =>
      simp only [earlyOperandLoop] at h
      cases hr : rec j s with
      | error e => rw [hr] at h; cases h
      | ok s1 =>
        rw [hr] at h
        simp only at h
        obtain ⟨W1, h1⟩ := hrec j s s1 hr
        split at h
        · obtain ⟨W2, h2⟩ := ih _ _ _ h
          exact ⟨_, memoLog_trans h1 h2⟩
        · obtain ⟨W2, h2⟩ := ih _ _ _ h
          exact ⟨_, memoLog_trans h1 h2⟩

theorem lateUseLoop_memo (F : Function) (DT : DominatorTree)
    (rec : Nat → GCMState → Except Fault GCMState) (I : Nat)
    (hrec : ∀ j s s1, rec j s = .ok s1 → ∃ W, MemoLog s s1 W) :
    ∀ (us : List Nat) (lca : Option Nat) (s : GCMState) (r : Option Nat × GCMState),
      lateUseLoop F DT rec I us lca s = .ok r → ∃ W, MemoLog s r.2 W := by
  intro us
  induction us with
  | nil =>
    intro lca s r h
    simp only [lateUseLoop] at h
    cases h
    exact ⟨[], memoLog_refl s⟩
  | cons UI rest ih =>
    intro lca s r h
    simp only [lateUseLoop] at h
    cases hr : rec UI s with
    | error e => rw [hr] at h; cases h
    | ok s1 =>
      rw [hr] at h
      simp only at h
      obtain ⟨W1, h1⟩ := hrec UI s s1 hr
      cases lca with
      | none =>
        simp only at h
        obtain ⟨W2, h2⟩ := ih _ _ _ h
        exact ⟨_, memoLog_trans h1 h2⟩
      | some l =>
        simp only at h
        cases hu : useBlockOf F s1.blocks I UI with
        | none => rw [hu] at h; cases h
        | some u =>
          rw [hu] at h
          simp only at h
          obtain ⟨W2, h2⟩ := ih _ _ _ h
          exact ⟨_, memoLog_trans h1 h2⟩

/-- The memo entries added by a call of `scheduleEarly` are the operations on which its body
(GCM.cpp 135-148) ran: none if the operation was visited, else the operation itself and the
operations reached from it that were not visited, each once. -/
theorem scheduleEarly_memo (F : Function) (DT : DominatorTree) :
    ∀ (fuel I : Nat) (s s1 : GCMState), scheduleEarly F DT fuel I s = .ok s1 →
      ∃ W, MemoLog s s1 W ∧ (I ∈ s.visited → W = []) ∧ (I ∉ s.visited → I ∈ W) := by
  intro fuel
  induction fuel with
  | zero => intro I s s1 h; simp only [scheduleEarly] at h; cases h
  | succ fuel ih =>
    intro I s s1 h
    simp only [scheduleEarly] at h
    split at h
    · rename_i hv
      cases h
      have hI : I ∈ s.visited := by simpa [GCMState.isVisited] using hv
      exact ⟨[], memoLog_refl s, fun _ => rfl, fun hn => absurd hI hn⟩
    · rename_i hv
      have hIv : I ∉ s.visited := by simpa [GCMState.isVisited] using hv
      cases hl : earlyOperandLoop (scheduleEarly F DT fuel) (F.operands I) (some DT.root)
          (s.markVisited I) with
      | error e => rw [hl] at h; cases h
      | ok r =>
        rw [hl] at h
        obtain ⟨ib, s2⟩ := r
        simp only at h
        obtain ⟨W2, h2⟩ := earlyOperandLoop_memo _
          (fun j t t1 hr => by
            obtain ⟨W, hW, -, -⟩ := ih j t t1 hr
            exact ⟨W, hW⟩) _ _ _ _ hl
        have h3 := memoLog_trans (memoLog_mark hIv) h2
        have hvis : s1.visited = s2.visited := by
          split at h
          · exact moveToBlockEnd_visited h
          · cases h; rfl
        refine ⟨W2 ++ [I], ⟨by rw [hvis]; exact h3.1, h3.2.1, h3.2.2⟩,
          fun hI => absurd hI hIv, fun _ => by simp⟩

/-- The memo entries added by a call of `scheduleLate` are the operations on which its body
(GCM.cpp 79-128) ran, each once. -/
theorem scheduleLate_memo (F : Function) (DT : DominatorTree) (LI : LoopInfo) :
    ∀ (fuel I : Nat) (s s1 : GCMState), scheduleLate F DT LI fuel I s = .ok s1 →
      ∃ W, MemoLog s s1 W ∧ (I ∈ s.visited → W = []) ∧ (I ∉ s.visited → I ∈ W) := by
  intro fuel
  induction fuel with
  | zero => intro I s s1 h; simp only [scheduleLate] at h; cases h
  | succ fuel ih =>
    intro I s s1 h
    simp only [scheduleLate] at h
    split at h
    · rename_i hv
      cases h
      have hI : I ∈ s.visited := by simpa [GCMState.isVisited] using hv
      exact ⟨[], memoLog_refl s, fun _ => rfl, fun hn => absurd hI hn⟩
    · rename_i hv
      have hIv : I ∉ s.visited := by simpa [GCMState.isVisited] using hv
      cases hl : lateUseLoop F DT (scheduleLate F DT LI fuel) I (F.derefUses I) none
          (s.markVisited I) with
      | error e => rw [hl] at h; cases h
      | ok r =>
        rw [hl] at h
        obtain ⟨lca, s2⟩ := r
        simp only at h
        obtain ⟨W2, h2⟩ := lateUseLoop_memo F DT _ I
          (fun j t t1 hr => by
            obtain ⟨W, hW, -, -⟩ := ih j t t1 hr
            exact ⟨W, hW⟩) _ _ _ _ hl
        have h3 := memoLog_trans (memoLog_mark hIv) h2
        cases hw : lateWalk DT LI (fuel + 1) lca lca (getParent s2.blocks I) with
        | error e => rw [hw] at h; cases h
        | ok best =>
          rw [hw] at h
          simp only at h
          have hvis : s1.visited = s2.visited := latePlace_visited h
          refine ⟨W2 ++ [I], ⟨by rw [hvis]; exact h3.1, h3.2.1, h3.2.2⟩,
            fun hI => absurd hI hIv, fun _ => by simp⟩


theorem memoLog_filter_nodup {s s1 : GCMState} {W : List Nat} (p : Nat → Bool)
    (h : MemoLog s s1 W) (hn : (s.visited.filter p).Nodup) : (s1.visited.filter p).Nodup := by
  obtain ⟨e, n, d⟩ := h
  rw [e, List.filter_append, List.nodup_append]
  refine ⟨n.filter p, hn, ?_⟩
  intro x hx1 hx2
  exact d x (List.mem_filter.mp hx1).1 (List.mem_filter.mp hx2).1

theorem early_phase_memo (F : Function) (DT : DominatorTree) (fuel : Nat) :
    ∀ (bl : List Nat) (s s1 : GCMState),
      (s.visited.filter (fun K => !F.pinned K)).Nodup →
      forBlocks (earlyBody F DT fuel) fuel bl s = .ok s1 →
      (s1.visited.filter (fun K => !F.pinned K)).Nodup := by
  apply forBlocks_preserves (fun s => (s.visited.filter (fun K => !F.pinned K)).Nodup)
  intro I t t1 ht hb
  unfold earlyBody at hb
  split at hb
  · rename_i hp
    refine earlySeedLoop_preserves
      (fun s => (s.visited.filter (fun K => !F.pinned K)).Nodup) _ ?_ _ (t.markVisited I) t1 ?_ hb
    · intro j x x1 hx hr
      obtain ⟨W, hW, -, -⟩ := scheduleEarly_memo F DT fuel j x x1 hr
      exact memoLog_filter_nodup _ hW hx
    · simp only [GCMState.markVisited, List.filter_cons, hp, Bool.not_true, Bool.false_eq_true,
        if_false]
      exact ht
  · cases hb; exact ht

/-! ## Fuel bounds -/

theorem unvisitedCount_mono (F : Function) {s s1 : GCMState}
    (h : ∀ x, x ∈ s.visited → x ∈ s1.visited) : unvisitedCount F s1 ≤ unvisitedCount F s := by
  unfold unvisitedCount
  apply List.Sublist.length_le
  apply List.monotone_filter_right
  intro i hi
  simp only [decide_eq_true_eq] at hi ⊢
  exact fun hx => hi (h i hx)

theorem unvisitedCount_mark (F : Function) (s : GCMState) (I : Nat)
    (hI : I < F.insts.length) (hv : I ∉ s.visited) :
    unvisitedCount F (s.markVisited I) + 1 ≤ unvisitedCount F s := by
  unfold unvisitedCount GCMState.markVisited
  have h1 : (List.range F.insts.length).filter (fun i => decide (i ∉ I :: s.visited))
      = ((List.range F.insts.length).filter (fun i => decide (i ∉ s.visited))).filter
          (fun i => decide (i ≠ I)) := by
    rw [List.filter_filter]
    apply List.filter_congr
    intro x _
    by_cases hx : x = I <;> simp [hx]
  rw [h1]
  have hmem : I ∈ (List.range F.insts.length).filter (fun i => decide (i ∉ s.visited)) := by
    simp [List.mem_filter, hI, hv]
  have := (List.length_filter_lt_length_iff_exists (p := fun i => decide (i ≠ I))).mpr
    ⟨I, hmem, by simp⟩
  omega

theorem memoLog_subset {s s1 : GCMState} {W : List Nat} (h : MemoLog s s1 W) :
    ∀ x, x ∈ s.visited → x ∈ s1.visited := by
  intro x hx
  rw [h.1]
  exact List.mem_append_right _ hx

theorem moveBefore_no_timeout (bs : List BasicBlock) (i : Nat) (u : Option Nat) :
    moveBefore bs i u ≠ .error .outOfFuel := by
  unfold moveBefore
  intro h
  split at h
  · cases h
  · split at h
    · split at h <;> cases h
    · cases h

theorem moveToBlockEnd_no_timeout (F : Function) (s : GCMState) (I : Nat) (B : Option Nat) :
    moveToBlockEnd F s I B ≠ .error .outOfFuel := by
  unfold moveToBlockEnd
  intro h
  cases B with
  | none => cases h
  | some b =>
    simp only at h
    cases hm : moveBefore s.blocks I (getTerminator F s.blocks b) with
    | error e =>
      rw [hm] at h
      simp only at h
      cases h
      exact moveBefore_no_timeout _ _ _ hm
    | ok bs => rw [hm] at h; cases h

theorem latePlace_no_timeout (F : Function) (s : GCMState) (I : Nat)
    (best inst : Option Nat) : latePlace F s I best inst ≠ .error .outOfFuel := by
  unfold latePlace
  intro h
  cases ha : lateAnchor F s.blocks I best with
  | some UI =>
    rw [ha] at h
    simp only at h
    cases hm : moveBefore s.blocks I (some UI) with
    | error e =>
      rw [hm] at h
      simp only at h
      cases h
      exact moveBefore_no_timeout _ _ _ hm
    | ok bs => rw [hm] at h; cases h
  | none =>
    rw [ha] at h
    simp only at h
    split at h
    · exact moveToBlockEnd_no_timeout _ _ _ _ h
    · cases h

theorem earlyOperandLoop_no_timeout (F : Function)
    (rec : Nat → GCMState → Except Fault GCMState) (n : Nat)
    (hmono : ∀ j s s1, rec j s = .ok s1 → ∀ x, x ∈ s.visited → x ∈ s1.visited)
    (hrec : ∀ j s, unvisitedCount F s ≤ n → rec j s ≠ .error .outOfFuel) :
    ∀ (ops : List Value) (ib : Option Nat) (s : GCMState), unvisitedCount F s ≤ n →
      earlyOperandLoop rec ops ib s ≠ .error .outOfFuel := by
  intro ops
  induction ops with
  | nil => intro ib s _ h; simp only [earlyOperandLoop] at h; cases h
  | cons v rest ih =>
    intro ib s hs h
    cases v with
    | other => simp only [earlyOperandLoop] at h; exact ih _ _ hs h
    | inst j =>
      simp only [earlyOperandLoop] at h
      cases hr : rec j s with
      | error e =>
        rw [hr] at h
        simp only at h
        cases h
        exact hrec j s hs hr
      | ok s1 =>
        rw [hr] at h
        simp only at h
        have hs1 : unvisitedCount F s1 ≤ n :=
          Nat.le_trans (unvisitedCount_mono F (hmono j s s1 hr)) hs
        split at h
        · exact ih _ _ hs1 h
        · exact ih _ _ hs1 h

theorem lateUseLoop_no_timeout (F : Function) (DT : DominatorTree)
    (rec : Nat → GCMState → Except Fault GCMState) (I n : Nat)
    (hmono : ∀ j s s1, rec j s = .ok s1 → ∀ x, x ∈ s.visited → x ∈ s1.visited)
    (hrec : ∀ j s, unvisitedCount F s ≤ n → rec j s ≠ .error .outOfFuel) :
    ∀ (us : List Nat) (lca : Option Nat) (s : GCMState), unvisitedCount F s ≤ n →
      lateUseLoop F DT rec I us lca s ≠ .error .outOfFuel := by
  intro us
  induction us with
  | nil => intro lca s _ h; simp only [lateUseLoop] at h; cases h
  | cons UI rest ih =>
    intro lca s hs h
    simp only [lateUseLoop] at h
    cases hr : rec UI s with
    | error e =>
      rw [hr] at h
      simp only at h
      cases h
      exact hrec UI s hs hr
    | ok s1 =>
      rw [hr] at h
      simp only at h
      have hs1 : unvisitedCount F s1 ≤ n :=
        Nat.le_trans (unvisitedCount_mono F (hmono UI s s1 hr)) hs
      cases lca with
      | none => simp only at h; exact ih _ _ hs1 h
      | some l =>
        simp only at h
        cases hu : useBlockOf F s1.blocks I UI with
        | none => rw [hu] at h; cases h
        | some u => rw [hu] at h; simp only at h; exact ih _ _ hs1 h

theorem operands_of_ge (F : Function) (I : Nat) (h : F.insts.length ≤ I) :
    F.operands I = [] := by
  unfold Function.operands
  rw [inst_of_ge F I h]

theorem users_of_ge (F : Function) (I : Nat) (h : F.insts.length ≤ I) : F.users I = [] := by
  unfold Function.users
  rw [inst_of_ge F I h]

/-- With more fuel than there are unvisited instructions, `scheduleEarly` does not run out of
fuel: it returns or faults. -/
theorem scheduleEarly_no_timeout (F : Function) (DT : DominatorTree) :
    ∀ (fuel I : Nat) (s : GCMState), unvisitedCount F s + 1 ≤ fuel →
      scheduleEarly F DT fuel I s ≠ .error .outOfFuel := by
  intro fuel
  induction fuel with
  | zero => intro I s h; omega
  | succ fuel ih =>
    intro I s hf h
    simp only [scheduleEarly] at h
    split at h
    · cases h
    · rename_i hv
      have hIv : I ∉ s.visited := by simpa [GCMState.isVisited] using hv
      have hloop : earlyOperandLoop (scheduleEarly F DT fuel) (F.operands I) (some DT.root)
          (s.markVisited I) ≠ .error .outOfFuel := by
        by_cases hI : I < F.insts.length
        · have hc := unvisitedCount_mark F s I hI hIv
          cases fuel with
          | zero => omega
          | succ fuel =>
            apply earlyOperandLoop_no_timeout F _ fuel
            · intro j t t1 hr
              obtain ⟨W, hW, -, -⟩ := scheduleEarly_memo F DT _ j t t1 hr
              exact memoLog_subset hW
            · intro j t ht
              exact ih j t (by omega)
            · omega
        · rw [operands_of_ge F I (by omega)]
          intro h1
          simp only [earlyOperandLoop] at h1
          cases h1
      cases hl : earlyOperandLoop (scheduleEarly F DT fuel) (F.operands I) (some DT.root)
          (s.markVisited I) with
      | error e =>
        rw [hl] at h
        simp only at h
        cases h
        exact hloop hl
      | ok r =>
        rw [hl] at h
        simp only at h
        split at h
        · exact moveToBlockEnd_no_timeout _ _ _ _ h
        · cases h

theorem lateWalk_no_timeout (DT : DominatorTree) (LI : LoopInfo)
    (hroot : DT.getIDom DT.root = none)
    (hidoms : ∀ e ∈ DT.idoms, DT.getIDom e.1 = some e.2 ∧ DT.inTree e.1)
    (inst : Option Nat) :
    ∀ (n : Nat) (lca best : Option Nat), DT.idoms.length + 1 ≤ n →
      lateWalk DT LI n lca best inst ≠ .error .outOfFuel := by
  have key : ∀ cur, DT.inTree cur → ∀ (n : Nat) (best : Option Nat),
      (DT.domChain cur).length ≤ n →
      lateWalk DT LI n (some cur) best inst ≠ .error .outOfFuel := by
    apply inTree_induction DT hroot
    intro cur hcur ih n best hn h
    cases n with
    | zero =>
      obtain ⟨t, ht⟩ := chainUp_head DT DT.idoms.length cur
      unfold DominatorTree.domChain at hn
      rw [ht] at hn
      simp at hn
    | succ n =>
      simp only [lateWalk] at h
      split at h
      · cases h
      · simp only [Option.bind] at h
        cases hp : DT.getIDom cur with
        | none => rw [hp] at h; cases h
        | some p =>
          rw [hp] at h
          simp only at h
          obtain ⟨h1, -⟩ := (domChain_unfold DT hroot cur hcur).2 p hp
          rw [h1, List.length_cons] at hn
          exact ih p hp n _ (by omega) h
  intro n lca best hn h
  cases lca with
  | none =>
    cases n with
    | zero => omega
    | succ n =>
      simp only [lateWalk] at h
      split at h
      · cases h
      · simp at h
  | some cur =>
    cases hp : DT.getIDom cur with
    | none =>
      cases n with
      | zero => omega
      | succ n =>
        simp only [lateWalk, Option.bind, hp] at h
        split at h <;> cases h
    | some p =>
      have hcur : DT.inTree cur := (hidoms (cur, p) (mem_of_lookup hp)).2
      have hlen := chainUp_length_le DT DT.idoms.length cur
      exact key cur hcur n best (by unfold DominatorTree.domChain; omega) h

/-- With enough fuel for the unvisited instructions and for the walk up the dominator tree,
`scheduleLate` does not run out of fuel: it returns or faults. -/
theorem scheduleLate_no_timeout (F : Function) (DT : DominatorTree) (LI : LoopInfo)
    (hroot : DT.getIDom DT.root = none)
    (hidoms : ∀ e ∈ DT.idoms, DT.getIDom e.1 = some e.2 ∧ DT.inTree e.1) :
    ∀ (fuel I : Nat) (s : GCMState), unvisitedCount F s + DT.idoms.length + 1 ≤ fuel →
      scheduleLate F DT LI fuel I s ≠ .error .outOfFuel := by
  intro fuel
  induction fuel with
  | zero => intro I s h; omega
  | succ fuel ih =>
    intro I s hf h
    simp only [scheduleLate] at h
    split at h
    · cases h
    · rename_i hv
      have hIv : I ∉ s.visited := by simpa [GCMState.isVisited] using hv
      have hloop : lateUseLoop F DT (scheduleLate F DT LI fuel) I (F.derefUses I) none
          (s.markVisited I) ≠ .error .outOfFuel := by
        by_cases hI : I < F.insts.length
        · have hc := unvisitedCount_mark F s I hI hIv
          apply lateUseLoop_no_timeout F DT _ I (unvisitedCount F (s.markVisited I))
          · intro j t t1 hr
            obtain ⟨W, hW, -, -⟩ := scheduleLate_memo F DT LI _ j t t1 hr
            exact memoLog_subset hW
          · intro j t ht
            exact ih j t (by omega)
          · exact Nat.le_refl _
        · rw [show F.derefUses I = [] from by simp [Function.derefUses, users_of_ge F I (by omega)]]
          intro h1
          simp only [lateUseLoop] at h1
          cases h1
      cases hl : lateUseLoop F DT (scheduleLate F DT LI fuel) I (F.derefUses I) none
          (s.markVisited I) with
      | error e =>
        rw [hl] at h
        simp only at h
        cases h
        exact hloop hl
      | ok r =>
        rw [hl] at h
        simp only at h
        cases hw : lateWalk DT LI (fuel + 1) r.1 r.1 (getParent r.2.blocks I) with
        | error e =>
          rw [hw] at h
          simp only at h
          cases h
          exact lateWalk_no_timeout DT LI hroot hidoms _ _ _ _ (by omega) hw
        | ok best =>
          rw [hw] at h
          simp only at h
          exact latePlace_no_timeout _ _ _ _ _ h

/-! ## The walk up the dominator tree -/

theorem blockInsts_map (f : BasicBlock → BasicBlock) (hlabel : ∀ B, (f B).label = B.label)
    (b : Nat) : ∀ bs : List BasicBlock,
    blockInsts (bs.map f) b
      = (bs.find? (fun B => decide (B.label = b))).map (fun B => (f B).insts) := by
  intro bs
  induction bs with
  | nil => rfl
  | cons X rest ih =>
    unfold blockInsts at ih ⊢
    simp only [List.map_cons, List.find?_cons, hlabel]
    by_cases h : X.label = b
    · simp [h]
    · simp only [h, decide_False]
      exact ih

theorem moveBefore_blockInsts {bs bs1 : List BasicBlock} {i u : Nat} (hne : i ≠ u)
    (h : moveBefore bs i (some u) = .ok bs1) (b : Nat) :
    blockInsts bs1 b
      = (blockInsts bs b).map (fun is => insertBeforeIn i u (is.filter (fun x => x ≠ i))) := by
  rcases moveBefore_shape h with ⟨e, -⟩ | ⟨-, hbs⟩
  · exact absurd e hne
  · rw [hbs]
    unfold insertBefore removeInst
    rw [List.map_map]
    have key := blockInsts_map (fun X : BasicBlock =>
      (⟨X.label, insertBeforeIn i u (X.insts.filter (fun x => x ≠ i))⟩ : BasicBlock))
      (fun _ => rfl) b bs
    refine Eq.trans key ?_
    unfold blockInsts
    cases bs.find? (fun B => decide (B.label = b)) <;> rfl

theorem insertBeforeIn_split {i u : Nat} : ∀ {l : List Nat}, u ∈ l →
    ∃ pre post, l = pre ++ u :: post ∧ u ∉ pre ∧
      insertBeforeIn i u l = pre ++ i :: u :: post := by
  intro l
  induction l with
  | nil => intro h; cases h
  | cons x xs ih =>
    intro h
    by_cases hx : x = u
    · subst hx
      exact ⟨[], xs, rfl, by simp, by simp [insertBeforeIn]⟩
    · have hu : u ∈ xs := by
        rcases List.mem_cons.mp h with e | e
        · exact absurd e.symm hx
        · exact e
      obtain ⟨pre, post, e1, e2, e3⟩ := ih hu
      refine ⟨x :: pre, post, by rw [e1]; rfl, ?_, ?_⟩
      · simp only [List.mem_cons, not_or]
        exact ⟨fun e => hx e.symm, e2⟩
      · simp only [insertBeforeIn, hx, if_false, e3, List.cons_append]

theorem insertBeforeIn_last {i t : Nat} : ∀ {ys : List Nat}, t ∉ ys →
    insertBeforeIn i t (ys ++ [t]) = ys ++ [i, t] := by
  intro ys
  induction ys with
  | nil => intro _; simp [insertBeforeIn]
  | cons y ys ih =>
    intro h
    simp only [List.mem_cons, not_or] at h
    have hy : ¬ y = t := fun e => h.1 e.symm
    have e := ih h.2
    simp only [List.cons_append, insertBeforeIn, hy, if_false]
    exact congrArg (List.cons y) e

theorem label_inj {bs : List BasicBlock} (hlab : (bs.map (fun B => B.label)).Nodup)
    {X Y : BasicBlock} (hX : X ∈ bs) (hY : Y ∈ bs) (h : X.label = Y.label) : X = Y :=
  List.inj_on_of_nodup_map hlab hX hY h

theorem blockInsts_of_mem {bs : List BasicBlock} (hlab : (bs.map (fun B => B.label)).Nodup)
    {X : BasicBlock} (hX : X ∈ bs) : blockInsts bs X.label = some X.insts := by
  unfold blockInsts
  cases hf : bs.find? (fun B => decide (B.label = X.label)) with
  | none =>
    have := List.find?_eq_none.mp hf X hX
    simp at this
  | some Y =>
    have h1 := List.find?_some hf
    have hY : Y ∈ bs := List.mem_of_find?_eq_some hf
    have : Y = X := label_inj hlab hY hX (by simpa using h1)
    rw [this]
    rfl

theorem blockInsts_of_getParent {bs : List BasicBlock}
    (hlab : (bs.map (fun B => B.label)).Nodup) {t b : Nat} (h : getParent bs t = some b) :
    ∃ is, blockInsts bs b = some is ∧ t ∈ is := by
  obtain ⟨X, hX, hl, ht⟩ := getParent_mem h
  exact ⟨X.insts, by rw [← hl]; exact blockInsts_of_mem hlab hX, ht⟩

theorem getParent_of_blockInsts {bs : List BasicBlock} (hloc : Located bs) {t b : Nat}
    {is : List Nat} (h : blockInsts bs b = some is) (ht : t ∈ is) :
    getParent bs t = some b := by
  obtain ⟨X, hX, hl, hi⟩ := blockInsts_mem h
  rw [← hl]
  exact hloc X hX t (by rw [hi]; exact ht)

theorem getTerminator_split {F : Function} {bs : List BasicBlock} {b t : Nat}
    (h : getTerminator F bs b = some t) :
    ∃ pre, blockInsts bs b = some (pre ++ [t]) ∧ (F.opcode t).isTerminatorInst = true := by
  unfold getTerminator at h
  cases hb : blockInsts bs b with
  | none => rw [hb] at h; cases h
  | some is =>
    rw [hb] at h
    simp only at h
    cases hlast : is.getLast? with
    | none => rw [hlast] at h; cases h
    | some t1 =>
      rw [hlast] at h
      simp only at h
      split at h
      · rename_i ht
        cases h
        obtain ⟨ys, rfl⟩ := List.getLast?_eq_some_iff.mp hlast
        exact ⟨ys, rfl, ht⟩
      · cases h

/-- Relocation of `I` in front of the terminator `t` of a block that does not hold `I`: the
block becomes its old sequence with `I` inserted immediately before `t`. -/
theorem moveBefore_terminator {F : Function} {bs bs1 : List BasicBlock} {I B t : Nat}
    (hloc : Located bs) (hnd : ∀ X ∈ bs, X.insts.Nodup)
    (ht : getTerminator F bs B = some t) (hI : getParent bs I ≠ some B) (hmov : F.pinned I = false)
    (h : moveBefore bs I (some t) = .ok bs1) :
    ∃ pre, blockInsts bs B = some (pre ++ [t]) ∧ blockInsts bs1 B = some (pre ++ [I, t]) := by
  obtain ⟨pre, hpre, htt⟩ := getTerminator_split ht
  have hne : I ≠ t := by
    intro e
    subst e
    have := isPinned_of_terminator htt
    unfold Function.pinned at hmov
    rw [this] at hmov
    cases hmov
  refine ⟨pre, hpre, ?_⟩
  rw [moveBefore_blockInsts hne h, hpre]
  simp only [Option.map_some']
  have hIn : I ∉ pre ++ [t] := fun hm => hI (getParent_of_blockInsts hloc hpre hm)
  have hf : (pre ++ [t]).filter (fun x => decide (x ≠ I)) = pre ++ [t] := by
    apply List.filter_eq_self.mpr
    intro a ha
    simp only [ne_eq, decide_not, Bool.not_eq_true', decide_eq_false_iff_not]
    intro e
    exact hIn (e ▸ ha)
  rw [hf]
  obtain ⟨X, hX, -, hi⟩ := blockInsts_mem hpre
  have hn := hnd X hX
  rw [hi] at hn
  have : t ∉ pre := by
    intro hm
    have := List.nodup_append.mp hn
    exact this.2.2 hm (List.mem_singleton_self t) 
  exact congrArg some (insertBeforeIn_last this)


/-! ## Distinct labels and instructions -/

theorem shapeCheck_spec {F : Function} {is : List Nat} (h : shapeCheck F is = true) :
    BlockShape F is := by
  unfold shapeCheck at h
  cases hl : (is.dropWhile (fun i => (F.opcode i).isPHINode)).getLast? with
  | none => rw [hl] at h; cases h
  | some t =>
    rw [hl] at h
    simp only [Bool.and_eq_true, List.all_eq_true, Bool.not_eq_true'] at h
    refine ⟨is.takeWhile (fun i => (F.opcode i).isPHINode),
      (is.dropWhile (fun i => (F.opcode i).isPHINode)).dropLast, t, ?_, ?_, h.2, h.1⟩
    · rw [List.append_assoc, List.dropLast_append_getLast? t (by rw [hl]; rfl),
        List.takeWhile_append_dropWhile]
    · intro i hi
      exact @List.mem_takeWhile_imp _ (fun i => (F.opcode i).isPHINode) _ _ hi

theorem insertBeforeIn_append_of_mem {i u : Nat} (r : List Nat) : ∀ {ys : List Nat}, u ∈ ys →
    insertBeforeIn i u (ys ++ r) = insertBeforeIn i u ys ++ r := by
  intro ys
  induction ys with
  | nil => intro h; cases h
  | cons y ys ih =>
    intro h
    by_cases hy : y = u
    · simp [insertBeforeIn, hy]
    · have hu : u ∈ ys := by
        rcases List.mem_cons.mp h with e | e
        · exact absurd e.symm hy
        · exact e
      have e := ih hu
      simp only [List.cons_append, insertBeforeIn, hy, if_false]
      exact congrArg (List.cons y) e

theorem insertBeforeIn_append_of_not_mem {i u : Nat} (r : List Nat) : ∀ {ys : List Nat},
    u ∉ ys → insertBeforeIn i u (ys ++ r) = ys ++ insertBeforeIn i u r := by
  intro ys
  induction ys with
  | nil => intro _; rfl
  | cons y ys ih =>
    intro h
    simp only [List.mem_cons, not_or] at h
    have hy : ¬ y = u := fun e => h.1 e.symm
    have e := ih h.2
    simp only [List.cons_append, insertBeforeIn, hy, if_false]
    exact congrArg (List.cons y) e

theorem insertBeforeIn_of_not_mem {i u : Nat} {l : List Nat} (h : u ∉ l) :
    insertBeforeIn i u l = l := by
  have := insertBeforeIn_append_of_not_mem (i := i) [] h
  simpa [insertBeforeIn] using this

/-- Removing a movable instruction `i` from a well-formed block and inserting it in front of
an instruction `u` that is no phi leaves a well-formed block. -/
theorem blockShape_move {F : Function} {i u : Nat} (hi : F.pinned i = false)
    (hu : (F.opcode u).isPHINode = false) {is : List Nat} (h : BlockShape F is) :
    BlockShape F (insertBeforeIn i u (is.filter (fun x => x ≠ i))) := by
  obtain ⟨phis, mid, t, rfl, hphis, hmid, ht⟩ := h
  have hiphi : (F.opcode i).isPHINode = false := isPHINode_of_not_pinned hi
  have hiterm : (F.opcode i).isTerminatorInst = false := by
    cases hk : (F.opcode i).isTerminatorInst
    · rfl
    · have := isPinned_of_terminator hk
      unfold Function.pinned at hi
      rw [this] at hi
      cases hi
  have hti : t ≠ i := by
    intro e
    rw [e, hiterm] at ht
    cases ht
  have hf1 : phis.filter (fun x => decide (x ≠ i)) = phis := by
    apply List.filter_eq_self.mpr
    intro a ha
    simp only [ne_eq, decide_not, Bool.not_eq_true', decide_eq_false_iff_not]
    intro e
    have := hphis a ha
    rw [e, hiphi] at this
    cases this
  have hfil : (phis ++ mid ++ [t]).filter (fun x => decide (x ≠ i))
      = phis ++ (mid.filter (fun x => decide (x ≠ i)) ++ [t]) := by
    rw [List.append_assoc, List.filter_append, List.filter_append, hf1]
    simp [List.filter_cons, hti]
  rw [hfil]
  have huphis : u ∉ phis := by
    intro hm
    rw [hphis u hm] at hu
    cases hu
  rw [insertBeforeIn_append_of_not_mem _ huphis]
  have hmid1 : ∀ x ∈ mid.filter (fun x => decide (x ≠ i)),
      (F.opcode x).isPHINode = false ∧ (F.opcode x).isTerminatorInst = false :=
    fun x hx => hmid x (List.mem_filter.mp hx).1
  by_cases hum : u ∈ mid.filter (fun x => decide (x ≠ i))
  · rw [insertBeforeIn_append_of_mem _ hum]
    refine ⟨phis, insertBeforeIn i u (mid.filter (fun x => decide (x ≠ i))), t,
      by rw [List.append_assoc], hphis, ?_, ht⟩
    intro x hx
    rcases (mem_insertBeforeIn i u x _).mp hx with hx | ⟨hx, -⟩
    · exact hmid1 x hx
    · rw [hx]; exact ⟨hiphi, hiterm⟩
  · rw [insertBeforeIn_append_of_not_mem _ hum]
    by_cases htu : t = u
    · refine ⟨phis, mid.filter (fun x => decide (x ≠ i)) ++ [i], t, ?_, hphis, ?_, ht⟩
      · simp [insertBeforeIn, htu]
      · intro x hx
        rcases List.mem_append.mp hx with hx | hx
        · exact hmid1 x hx
        · rw [List.mem_singleton.mp hx]; exact ⟨hiphi, hiterm⟩
    · refine ⟨phis, mid.filter (fun x => decide (x ≠ i)), t, ?_, hphis, hmid1, ht⟩
      simp [insertBeforeIn, htu]

theorem insertBeforeIn_perm {i u : Nat} {l : List Nat} (h : u ∈ l) :
    (insertBeforeIn i u l).Perm (i :: l) := by
  obtain ⟨pre, post, e1, -, e3⟩ := insertBeforeIn_split (i := i) h
  rw [e3, e1]
  exact List.perm_middle

/-- The instructions of all blocks after unlinking `i` everywhere and linking it in front of
`u`: when `u` occurs in exactly one place, they are the old ones without `i`, and `i`. -/
theorem allInsts_move {i u : Nat} (hne : i ≠ u) : ∀ (bs : List BasicBlock),
    (allInsts bs).Nodup →
    (u ∈ allInsts bs →
      (allInsts (bs.map (fun X : BasicBlock =>
        (⟨X.label, insertBeforeIn i u (X.insts.filter (fun x => x ≠ i))⟩ : BasicBlock)))).Perm
        (i :: (allInsts bs).filter (fun x => x ≠ i))) ∧
    (u ∉ allInsts bs →
      allInsts (bs.map (fun X : BasicBlock =>
        (⟨X.label, insertBeforeIn i u (X.insts.filter (fun x => x ≠ i))⟩ : BasicBlock)))
        = (allInsts bs).filter (fun x => x ≠ i)) := by
  intro bs
  induction bs with
  | nil =>
    intro _
    exact ⟨fun h => (by cases h), fun _ => rfl⟩
  | cons X rest ih =>
    intro hnd
    simp only [allInsts, List.flatMap_cons, List.map_cons] at hnd ⊢
    have hnd2 := List.nodup_append.mp hnd
    obtain ⟨ih1, ih2⟩ := ih hnd2.2.1
    simp only [allInsts] at ih1 ih2
    rw [List.filter_append]
    by_cases huX : u ∈ X.insts
    · have hur : u ∉ rest.flatMap (fun X => X.insts) := fun hm => hnd2.2.2 huX hm
      have huf : u ∈ X.insts.filter (fun x => decide (x ≠ i)) :=
        List.mem_filter.mpr ⟨huX, by simpa using fun e => hne e.symm⟩
      refine ⟨fun _ => ?_, fun h => absurd (List.mem_append_left _ huX) h⟩
      rw [ih2 hur]
      exact List.Perm.append_right _ (insertBeforeIn_perm huf)
    · have huf : u ∉ X.insts.filter (fun x => decide (x ≠ i)) :=
        fun hm => huX (List.mem_filter.mp hm).1
      rw [insertBeforeIn_of_not_mem huf]
      constructor
      · intro hm
        have hur : u ∈ rest.flatMap (fun X => X.insts) := by
          rcases List.mem_append.mp hm with h | h
          · exact absurd h huX
          · exact h
        exact (List.Perm.append_left _ (ih1 hur)).trans List.perm_middle
      · intro hm
        have hur : u ∉ rest.flatMap (fun X => X.insts) :=
          fun h => hm (List.mem_append_right _ h)
        rw [ih2 hur]

theorem mem_allInsts_of_getParent {bs : List BasicBlock} {t b : Nat}
    (h : getParent bs t = some b) : t ∈ allInsts bs := by
  obtain ⟨X, hX, -, ht⟩ := getParent_mem h
  exact List.mem_flatMap.mpr ⟨X, hX, ht⟩

/-- A relocation by `moveBefore` permutes the instructions of the function: none is lost,
none is duplicated. -/
theorem moveBefore_perm {bs bs1 : List BasicBlock} {i u : Nat} (hnd : (allInsts bs).Nodup)
    (h : moveBefore bs i (some u) = .ok bs1) : (allInsts bs1).Perm (allInsts bs) := by
  rcases moveBefore_shape h with ⟨-, rfl⟩ | ⟨hne, hbs⟩
  · exact List.Perm.refl _
  · obtain ⟨-, -, ⟨bu, hbu⟩, ⟨bi, hbi⟩, -⟩ := moveBefore_getParent h
    have hu := mem_allInsts_of_getParent hbu
    have hi := mem_allInsts_of_getParent hbi
    have key := (allInsts_move hne bs hnd).1 hu
    have e : bs1 = bs.map (fun X : BasicBlock =>
        (⟨X.label, insertBeforeIn i u (X.insts.filter (fun x => x ≠ i))⟩ : BasicBlock)) := by
      rw [hbs]
      unfold insertBefore removeInst
      rw [List.map_map]
      rfl
    rw [e]
    refine key.trans ?_
    have h1 := List.perm_cons_erase hi
    rw [hnd.erase_eq_filter] at h1
    refine List.Perm.symm (h1.trans ?_)
    apply List.Perm.of_eq
    congr 1
    apply List.filter_congr
    intro x _
    by_cases hx : x = i <;> simp [hx]

/-- A relocation of a movable instruction keeps the last instruction of every block that ends
with a terminator. -/
theorem moveBefore_lastInsts {F : Function} {bs bs1 : List BasicBlock} {i u : Nat}
    (hterm : TermOK F bs) (hi : F.pinned i = false)
    (h : moveBefore bs i (some u) = .ok bs1) : lastInsts bs1 = lastInsts bs := by
  rcases moveBefore_shape h with ⟨-, rfl⟩ | ⟨-, hbs⟩
  · rfl
  · rw [hbs]
    unfold lastInsts insertBefore removeInst
    rw [List.map_map, List.map_map]
    apply List.map_congr_left
    intro X hX
    obtain ⟨t, ht, htt⟩ := hterm X hX
    simp only [Function.comp_apply, Prod.mk.injEq, true_and]
    rw [ht]
    apply getLast?_insertBeforeIn
    apply getLast?_filter_of ht
    have : t ≠ i := by
      intro e
      subst e
      have := isPinned_of_terminator htt
      unfold Function.pinned at hi
      rw [this] at hi
      cases hi
    simpa using this

theorem termOK_of_shape {F : Function} {bs : List BasicBlock}
    (h : ∀ X ∈ bs, BlockShape F X.insts) : TermOK F bs := by
  intro X hX
  obtain ⟨phis, mid, t, e, -, -, ht⟩ := h X hX
  exact ⟨t, by rw [e]; simp, ht⟩

theorem moveBefore_blockShape {F : Function} {bs bs1 : List BasicBlock} {i u : Nat}
    (hshape : ∀ X ∈ bs, BlockShape F X.insts) (hi : F.pinned i = false)
    (hu : (F.opcode u).isPHINode = false)
    (h : moveBefore bs i (some u) = .ok bs1) : ∀ X ∈ bs1, BlockShape F X.insts := by
  rcases moveBefore_shape h with ⟨-, rfl⟩ | ⟨-, hbs⟩
  · exact hshape
  · intro X1 hX1
    rw [hbs] at hX1
    unfold insertBefore removeInst at hX1
    rw [List.map_map] at hX1
    obtain ⟨X, hX, rfl⟩ := List.mem_map.mp hX1
    exact blockShape_move hi hu (hshape X hX)

/-- A sequence of relocations of movable instructions, each in front of an instruction that is
no phi, keeps every block well-formed, permutes the instructions of the function, and keeps
the last instruction of every block. -/
theorem relocated_wellformed {F : Function} {bs bs1 : List BasicBlock}
    (h : Relocated F F.pinned bs bs1) (hshape : ∀ X ∈ bs, BlockShape F X.insts)
    (hnd : (allInsts bs).Nodup) :
    (∀ X ∈ bs1, BlockShape F X.insts) ∧ (allInsts bs1).Perm (allInsts bs) ∧
      lastInsts bs1 = lastInsts bs := by
  induction h with
  | refl => exact ⟨hshape, List.Perm.refl _, rfl⟩
  | move _ hk hu hm ih =>
    obtain ⟨h1, h2, h3⟩ := ih
    refine ⟨moveBefore_blockShape h1 hk hu hm, ?_, ?_⟩
    · exact (moveBefore_perm (h2.nodup_iff.mpr hnd) hm).trans h2
    · rw [moveBefore_lastInsts (termOK_of_shape h1) hk hm, h3]

theorem wellFormedCheck_spec {F : Function} {bs : List BasicBlock}
    (h : wellFormedCheck F bs = true) :
    (∀ X ∈ bs, BlockShape F X.insts) ∧ (allInsts bs).Nodup := by
  simp only [wellFormedCheck, Bool.and_eq_true, List.all_eq_true, decide_eq_true_eq] at h
  exact ⟨fun X hX => shapeCheck_spec (h.1 X hX), h.2⟩

/-! ## The late phase as the program runs it

Every `UI` of the use loops is `I` itself (`Function.derefUses`), so `scheduleLate` moves
nothing, and the late driver only marks the pinned instructions. -/

theorem mem_derefUses {F : Function} {I u : Nat} (h : u ∈ F.derefUses I) : u = I := by
  unfold Function.derefUses at h
  obtain ⟨_, -, e⟩ := List.mem_map.mp h
  exact e.symm

theorem derefUses_eq_nil {F : Function} {I : Nat} : F.derefUses I = [] ↔ F.users I = [] := by
  unfold Function.derefUses
  exact List.map_eq_nil_iff

theorem findLCA_self (DT : DominatorTree) (b : Nat) : findLCA b b DT = some b := by
  obtain ⟨t, ht⟩ := chainUp_head DT DT.idoms.length b
  unfold findLCA DominatorTree.findNearestCommonDominator DominatorTree.domChain
  rw [ht]
  simp

theorem scheduleLate_visited (F : Function) (DT : DominatorTree) (LI : LoopInfo) (fuel I : Nat)
    (s : GCMState) (h : I ∈ s.visited) : scheduleLate F DT LI (fuel + 1) I s = .ok s := by
  simp [scheduleLate, GCMState.isVisited, h]

/-- The use loop of `scheduleLate` when every `UI` is the marked `I` itself and the recursive
call returns its state: the state stays, and for an operation that is no phi the use-LCA is
its own block as soon as it has a use. -/
theorem lateUseLoop_self (F : Function) (DT : DominatorTree)
    (rec : Nat → GCMState → Except Fault GCMState) (I : Nat)
    (hrec : ∀ t t1, I ∈ t.visited → rec I t = .ok t1 → t1 = t) :
    ∀ (us : List Nat), (∀ u ∈ us, u = I) → ∀ (lca : Option Nat) (s : GCMState)
      (r : Option Nat × GCMState), I ∈ s.visited →
      lateUseLoop F DT rec I us lca s = .ok r →
      r.2 = s ∧ ((F.opcode I).isPHINode = false →
        (lca = none ∨ lca = getParent s.blocks I) →
        r.1 = if us = [] then lca else getParent s.blocks I) := by
  intro us
  induction us with
  | nil =>
    intro _ lca s r _ h
    simp only [lateUseLoop] at h
    cases h
    exact ⟨rfl, fun _ _ => rfl⟩
  | cons u rest ih =>
    intro hus lca s r hv h
    have hu : u = I := hus u (List.mem_cons_self _ _)
    subst hu
    have hrest : ∀ x ∈ rest, x = u := fun x hx => hus x (List.mem_cons_of_mem _ hx)
    simp only [lateUseLoop] at h
    cases hr : rec u s with
    | error e => rw [hr] at h; cases h
    | ok s1 =>
      rw [hr] at h
      have e1 := hrec s s1 hv hr
      subst e1
      simp only at h
      have hub : (F.opcode u).isPHINode = false →
          useBlockOf F s1.blocks u u = getParent s1.blocks u := by
        intro hphi
        simp [useBlockOf, hphi]
      cases lca with
      | none =>
        simp only at h
        obtain ⟨h1, h2⟩ := ih hrest _ s1 r hv h
        refine ⟨h1, fun hphi _ => ?_⟩
        have := h2 hphi (Or.inr (hub hphi))
        rw [this, hub hphi]
        simp
      | some l =>
        simp only at h
        cases hb : useBlockOf F s1.blocks u u with
        | none => rw [hb] at h; cases h
        | some b =>
          rw [hb] at h
          simp only at h
          obtain ⟨h1, h2⟩ := ih hrest _ s1 r hv h
          refine ⟨h1, fun hphi hl => ?_⟩
          have hbp := hub hphi
          rw [hb] at hbp
          rcases hl with hl | hl
          · cases hl
          · rw [← hbp] at hl
            cases hl
            have := h2 hphi (Or.inr (by rw [findLCA_self, hbp]))
            rw [this, ← hbp]
            simp [findLCA_self]

/-- A call of `scheduleLate` relocates nothing: it leaves the blocks and the depth map as they
are and marks at most its own instruction. -/
theorem scheduleLate_blocks (F : Function) (DT : DominatorTree) (LI : LoopInfo) :
    ∀ (fuel I : Nat) (s s1 : GCMState), scheduleLate F DT LI fuel I s = .ok s1 →
      s1 = s ∨ (I ∉ s.visited ∧ s1 = s.markVisited I) := by
  intro fuel I s s1 h
  cases fuel with
  | zero => simp only [scheduleLate] at h; cases h
  | succ fuel =>
    simp only [scheduleLate] at h
    split at h
    · cases h; exact Or.inl rfl
    · rename_i hv
      have hIv : I ∉ s.visited := by simpa [GCMState.isVisited] using hv
      right
      refine ⟨hIv, ?_⟩
      have hrec : ∀ t t1, I ∈ t.visited → scheduleLate F DT LI fuel I t = .ok t1 → t1 = t := by
        intro t t1 ht hr
        cases fuel with
        | zero => simp only [scheduleLate] at hr; cases hr
        | succ n =>
          rw [scheduleLate_visited F DT LI n I t ht] at hr
          cases hr
          rfl
      cases hl : lateUseLoop F DT (scheduleLate F DT LI fuel) I (F.derefUses I) none
          (s.markVisited I) with
      | error e => rw [hl] at h; cases h
      | ok r =>
        rw [hl] at h
        obtain ⟨lca, s2⟩ := r
        simp only at h
        obtain ⟨e2, hlca⟩ := lateUseLoop_self F DT _ I hrec (F.derefUses I)
          (fun u hu => mem_derefUses hu) none (s.markVisited I) _ (List.mem_cons_self _ _) hl
        have e3 : s2 = s.markVisited I := e2
        have hlca2 : (F.opcode I).isPHINode = false →
            lca = if F.derefUses I = [] then none else getParent (s.markVisited I).blocks I :=
          fun hphi => hlca hphi (Or.inl rfl)
        subst e3
        cases hw : lateWalk DT LI (fuel + 1) lca lca (getParent (s.markVisited I).blocks I) with
        | error e => rw [hw] at h; cases h
        | ok best =>
          rw [hw] at h
          simp only at h
          cases hp : F.pinned I with
          | true =>
            have ha : lateAnchor F (s.markVisited I).blocks I best = none := by
              unfold lateAnchor
              apply List.find?_eq_none.mpr
              intro x _
              simp [hp]
            simp only [latePlace, ha, hp, Bool.not_true, Bool.false_and, Bool.false_eq_true,
              if_false] at h
            cases h
            rfl
          | false =>
            have hphi := isPHINode_of_not_pinned hp
            have hl2 := hlca2 hphi
            by_cases hnil : F.derefUses I = []
            · simp only [hnil, if_true] at hl2
              subst hl2
              simp only [lateWalk] at hw
              split at hw
              · rename_i heq
                cases hw
                simp only [latePlace, lateAnchor, hnil, List.find?_nil, ← heq, bne_self_eq_false,
                  Bool.and_false, Bool.false_eq_true, if_false] at h
                cases h
                rfl
              · simp at hw
            · simp only [hnil, if_false] at hl2
              subst hl2
              simp only [lateWalk, if_true] at hw
              cases hw
              obtain ⟨u, rest, hur⟩ := List.exists_cons_of_ne_nil hnil
              have hu : u = I := mem_derefUses (by rw [hur]; exact List.mem_cons_self _ _)
              rw [hu] at hur
              have ha : lateAnchor F (s.markVisited I).blocks I
                  (getParent (s.markVisited I).blocks I) = some I := by
                unfold lateAnchor
                rw [hur]
                simp [hp, hphi]
              simp only [latePlace, ha] at h
              cases hm : moveBefore (s.markVisited I).blocks I (some I) with
              | error e => rw [hm] at h; cases h
              | ok bs =>
                rw [hm] at h
                cases h
                rcases moveBefore_shape hm with ⟨-, e⟩ | ⟨hne, -⟩
                · rw [e]
                · exact absurd rfl hne

theorem lateSeedLoop_self (rec : Nat → GCMState → Except Fault GCMState) (I : Nat)
    (s : GCMState) (hrec : rec I s = .ok s) :
    ∀ (us : List Nat), (∀ u ∈ us, u = I) → lateSeedLoop rec us s = .ok s := by
  intro us
  induction us with
  | nil => intro _; rfl
  | cons u rest ih =>
    intro hus
    have hu : u = I := hus u (List.mem_cons_self _ _)
    simp only [lateSeedLoop, hu, hrec]
    exact ih (fun x hx => hus x (List.mem_cons_of_mem _ hx))

/-- The body of the late driver loop (GCM.cpp 173-180): a pinned instruction is marked and
every call of `scheduleLate` that follows is on that marked instruction and returns at the
visited check; an instruction that is not pinned is passed over. -/
theorem lateBody_eq (F : Function) (DT : DominatorTree) (LI : LoopInfo) (fuel I : Nat)
    (s : GCMState) :
    lateBody F DT LI (fuel + 1) I s = .ok (if F.pinned I then s.markVisited I else s) := by
  unfold lateBody
  cases hp : F.pinned I with
  | false => simp
  | true =>
    simp only [if_true]
    exact lateSeedLoop_self _ I _
      (scheduleLate_visited F DT LI fuel I _ (List.mem_cons_self _ _)) _
      (fun u hu => mem_derefUses hu)

theorem nextIn_append (I : Nat) : ∀ (pre rest : List Nat), I ∉ pre →
    nextIn I (pre ++ I :: rest) = rest.head? := by
  intro pre
  induction pre with
  | nil => intro rest _; simp [nextIn]
  | cons x xs ih =>
    intro rest h
    simp only [List.mem_cons, not_or] at h
    have hx : ¬ x = I := fun e => h.1 e.symm
    simp only [List.cons_append, nextIn, hx, if_false]
    exact ih rest h.2

/-- The instruction loop over a block whose sequence the body leaves as it is: with fuel for
the instructions of the block it runs to the end of the block. -/
theorem forInsts_static (body : Nat → GCMState → Except Fault GCMState)
    (Inv : GCMState → Prop)
    (hbody : ∀ I s, Inv s → ∃ s1, body I s = .ok s1 ∧ s1.blocks = s.blocks ∧ Inv s1)
    (BB : Nat) (is : List Nat) (hnd : is.Nodup) :
    ∀ (rest pre : List Nat), is = pre ++ rest → ∀ (fuel : Nat) (s : GCMState),
      blockInsts s.blocks BB = some is → rest.length + 1 ≤ fuel → Inv s →
      ∃ s1, forInsts body BB fuel rest.head? s = .ok s1 ∧ s1.blocks = s.blocks ∧ Inv s1 := by
  intro rest
  induction rest with
  | nil =>
    intro pre _ fuel s _ hf hs
    cases fuel with
    | zero => omega
    | succ fuel => exact ⟨s, rfl, rfl, hs⟩
  | cons I rest ih =>
    intro pre hpre fuel s hb hf hs
    cases fuel with
    | zero => omega
    | succ fuel =>
      obtain ⟨s1, h1, h2, h3⟩ := hbody I s hs
      have hIpre : I ∉ pre := by
        intro hm
        rw [hpre] at hnd
        exact (List.nodup_append.mp hnd).2.2 hm (List.mem_cons_self _ _)
      have hnext : (blockInsts s1.blocks BB).bind (nextIn I) = rest.head? := by
        rw [h2, hb, hpre]
        exact nextIn_append I pre rest hIpre
      simp only [List.head?_cons, forInsts, h1, hnext]
      obtain ⟨s2, e1, e2, e3⟩ := ih (pre ++ [I]) (by rw [hpre]; simp) fuel s1
        (by rw [h2]; exact hb) (by simp only [List.length_cons] at hf; omega) h3
      exact ⟨s2, e1, e2.trans h2, e3⟩

theorem forBlocks_static (body : Nat → GCMState → Except Fault GCMState)
    (Inv : GCMState → Prop)
    (hbody : ∀ I s, Inv s → ∃ s1, body I s = .ok s1 ∧ s1.blocks = s.blocks ∧ Inv s1)
    (fuel : Nat) :
    ∀ (bl : List Nat) (s : GCMState), (∀ X ∈ s.blocks, X.insts.Nodup) →
      (∀ X ∈ s.blocks, X.insts.length + 1 ≤ fuel) → 1 ≤ fuel → Inv s →
      ∃ s1, forBlocks body fuel bl s = .ok s1 ∧ s1.blocks = s.blocks ∧ Inv s1 := by
  intro bl
  induction bl with
  | nil => intro s _ _ _ hs; exact ⟨s, rfl, rfl, hs⟩
  | cons BB rest ih =>
    intro s hnd hlen hf hs
    have hstep : ∃ s1, forInsts body BB fuel ((blockInsts s.blocks BB).bind List.head?) s
        = .ok s1 ∧ s1.blocks = s.blocks ∧ Inv s1 := by
      cases hb : blockInsts s.blocks BB with
      | none =>
        cases fuel with
        | zero => omega
        | succ fuel => exact ⟨s, rfl, rfl, hs⟩
      | some is =>
        obtain ⟨X, hX, -, hi⟩ := blockInsts_mem hb
        have h1 := hnd X hX
        have h2 := hlen X hX
        rw [hi] at h1 h2
        exact forInsts_static body Inv hbody BB is h1 is [] rfl fuel s hb h2 hs
    obtain ⟨s1, e1, e2, e3⟩ := hstep
    simp only [forBlocks, e1]
    obtain ⟨s2, f1, f2, f3⟩ := ih s1 (by rw [e2]; exact hnd) (by rw [e2]; exact hlen) hf e3
    exact ⟨s2, f1, f2.trans e2, f3⟩

/-- The late phase as a whole: it completes, relocates nothing, leaves the depth map, and adds
only pinned instructions to the memo. -/
theorem late_phase_static (F : Function) (DT : DominatorTree) (LI : LoopInfo) (fuel : Nat)
    (bl : List Nat) (s : GCMState) (hnd : ∀ X ∈ s.blocks, X.insts.Nodup)
    (hlen : ∀ X ∈ s.blocks, X.insts.length + 1 ≤ fuel) (hf : 1 ≤ fuel) :
    ∃ s1, forBlocks (lateBody F DT LI fuel) fuel bl s = .ok s1 ∧ s1.blocks = s.blocks ∧
      s1.dominatorTreeDepth = s.dominatorTreeDepth ∧
      ∀ K ∈ s1.visited, K ∈ s.visited ∨ F.pinned K = true := by
  obtain ⟨n, rfl⟩ : ∃ n, fuel = n + 1 := ⟨fuel - 1, by omega⟩
  obtain ⟨s1, h1, h2, h3, h4⟩ := forBlocks_static (lateBody F DT LI (n + 1))
    (fun t => t.dominatorTreeDepth = s.dominatorTreeDepth ∧
      ∀ K ∈ t.visited, K ∈ s.visited ∨ F.pinned K = true)
    (by
      intro I t ht
      refine ⟨_, lateBody_eq F DT LI n I t, ?_, ?_, ?_⟩
      · split <;> rfl
      · split
        · exact ht.1
        · exact ht.1
      · intro K hK
        split at hK
        · rename_i hp
          rcases List.mem_cons.mp hK with e | e
          · right; rw [e]; exact hp
          · exact ht.2 K e
        · exact ht.2 K hK)
    (n + 1) bl s hnd hlen hf ⟨rfl, fun K hK => Or.inl hK⟩
  exact ⟨s1, h1, h2, h3, h4⟩

/-- Whatever the late phase returns, it has relocated nothing. -/
theorem late_phase_blocks (F : Function) (DT : DominatorTree) (LI : LoopInfo) (fuel : Nat) :
    ∀ (bl : List Nat) (s s1 : GCMState), forBlocks (lateBody F DT LI fuel) fuel bl s = .ok s1 →
      s1.blocks = s.blocks ∧ s1.dominatorTreeDepth = s.dominatorTreeDepth := by
  intro bl s
  have key := forBlocks_preserves
    (fun t => t.blocks = s.blocks ∧ t.dominatorTreeDepth = s.dominatorTreeDepth)
    (lateBody F DT LI fuel)
    (by
      intro I t t1 ht hb
      cases fuel with
      | zero =>
        unfold lateBody at hb
        split at hb
        · have key2 := lateSeedLoop_preserves
            (fun x => x.blocks = s.blocks ∧ x.dominatorTreeDepth = s.dominatorTreeDepth)
            (scheduleLate F DT LI 0)
            (fun j x x1 _ hr => by simp only [scheduleLate] at hr; cases hr)
            _ (t.markVisited I) _ ht hb
          exact key2
        · cases hb; exact ht
      | succ n =>
        rw [lateBody_eq] at hb
        cases hb
        split
        · exact ht
        · exact ht)
    fuel bl s
  intro s1 h
  exact key s1 ⟨rfl, rfl⟩ h


/-! ## The run as a sequence of early relocations -/

theorem earlyMoved_trans {F : Function} {DT : DominatorTree} {a b c : List BasicBlock}
    (h1 : EarlyMoved F DT a b) (h2 : EarlyMoved F DT b c) : EarlyMoved F DT a c := by
  induction h2 with
  | refl => exact h1
  | step _ hs ih => exact EarlyMoved.step ih hs

theorem moveToBlockEnd_term {F : Function} {s s1 : GCMState} {I : Nat} {B : Option Nat}
    (h : moveToBlockEnd F s I B = .ok s1) :
    ∃ T t, B = some T ∧ getTerminator F s.blocks T = some t ∧
      moveBefore s.blocks I (some t) = .ok s1.blocks ∧ s1 = { s with blocks := s1.blocks } := by
  unfold moveToBlockEnd at h
  cases B with
  | none => cases h
  | some T =>
    simp only at h
    cases ht : getTerminator F s.blocks T with
    | none => rw [ht] at h; simp [moveBefore] at h
    | some t =>
      rw [ht] at h
      cases hm : moveBefore s.blocks I (some t) with
      | error e => rw [hm] at h; cases h
      | ok bs =>
        rw [hm] at h
        cases h
        exact ⟨T, t, rfl, ht, hm, rfl⟩

theorem earlyOperandLoop_moved (F : Function) (DT : DominatorTree)
    (rec : Nat → GCMState → Except Fault GCMState) (m : List (Nat × Nat))
    (hrec : ∀ j t t1, LayoutInv F DT t.blocks → t.dominatorTreeDepth = m → rec j t = .ok t1 →
      LayoutInv F DT t1.blocks ∧ t1.dominatorTreeDepth = m ∧
        EarlyMoved F DT t.blocks t1.blocks) :
    ∀ (ops : List Value) (ib : Option Nat) (s : GCMState) (r : Option Nat × GCMState),
      LayoutInv F DT s.blocks → s.dominatorTreeDepth = m →
      earlyOperandLoop rec ops ib s = .ok r → EarlyMoved F DT s.blocks r.2.blocks := by
  intro ops
  induction ops with
  | nil =>
    intro ib s r _ _ h
    simp only [earlyOperandLoop] at h
    cases h
    exact EarlyMoved.refl _
  | cons v rest ih =>
    intro ib s r hinv hdm h
    cases v with
    | other =>
      simp only [earlyOperandLoop] at h
      exact ih ib s r hinv hdm h
    | inst j =>
      simp only [earlyOperandLoop] at h
      cases hr : rec j s with
      | error e => rw [hr] at h; cases h
      | ok s1 =>
        rw [hr] at h
        simp only at h
        obtain ⟨inv1, hd1, mv1⟩ := hrec j s s1 hinv hdm hr
        split at h
        · exact earlyMoved_trans mv1 (ih _ s1 r inv1 hd1 h)
        · exact earlyMoved_trans mv1 (ih _ s1 r inv1 hd1 h)

/-- A call of `scheduleEarly` on a layout that satisfies the layout invariant is a sequence of
early relocations. -/
theorem scheduleEarly_moved (F : Function) (DT : DominatorTree)
    (hroot : DT.getIDom DT.root = none) (m : List (Nat × Nat)) (hm : DepthOK DT m) :
    ∀ (fuel I : Nat) (s s1 : GCMState), LayoutInv F DT s.blocks → s.dominatorTreeDepth = m →
      scheduleEarly F DT fuel I s = .ok s1 → EarlyMoved F DT s.blocks s1.blocks := by
  intro fuel
  induction fuel with
  | zero => intro I s s1 _ _ h; simp only [scheduleEarly] at h; cases h
  | succ fuel ih =>
    intro I s s1 hinv hdm h
    have hrecInv := scheduleEarly_inv F DT hroot m hm fuel
    simp only [scheduleEarly] at h
    split at h
    · cases h; exact EarlyMoved.refl _
    · cases hl : earlyOperandLoop (scheduleEarly F DT fuel) (F.operands I) (some DT.root)
          (s.markVisited I) with
      | error e => rw [hl] at h; cases h
      | ok r =>
        rw [hl] at h
        obtain ⟨ib, s2⟩ := r
        simp only at h
        have ht0 : TargetOK DT (fun _ => False) (some DT.root) (s.markVisited I) :=
          ⟨DT.root, rfl, Or.inl rfl, fun j hj => absurd hj id⟩
        obtain ⟨inv2, fr2, ht2⟩ := earlyOperandLoop_inv F DT _ m hrecInv (F.operands I) _ _
          (s.markVisited I) _ hinv hdm (fun j hj => absurd hj id) ht0 hl
        simp only at inv2 fr2 ht2
        have mv2 : EarlyMoved F DT s.blocks s2.blocks :=
          earlyOperandLoop_moved F DT _ m
            (fun j t t1 ht hd hr =>
              ⟨(hrecInv j t t1 ht hd hr).1, (hrecInv j t t1 ht hd hr).2.1.depth.trans hd,
                ih j t t1 ht hd hr⟩)
            (F.operands I) _ (s.markVisited I) _ hinv hdm hl
        split at h
        · rename_i hc
          simp only [Bool.and_eq_true, Bool.not_eq_true', bne_iff_ne, ne_eq] at hc
          have hnp : F.pinned I = false := hc.1
          obtain ⟨T, t, hib, htT, hmv, -⟩ := moveToBlockEnd_term h
          obtain ⟨-, -, -, ⟨B, hB⟩, -⟩ := moveBefore_getParent hmv
          obtain ⟨T1, hT1, hT2, hT3⟩ := ht2
          rw [hib] at hT1
          cases hT1
          have tB : DT.inTree B := inTree_of_getParent inv2.inTree hB
          have hphi := isPHINode_of_not_pinned hnp
          have hTB : T ∈ DT.domChain B := by
            rcases hT2 with h2 | ⟨j, hj, hp⟩
            · rw [h2]; exact tB
            · rcases hj with hj | hj
              · exact absurd hj id
              · obtain ⟨bJ, h1, h2⟩ := inv2.dom I j B hphi hj hB
                rw [h1] at hp
                cases hp
                exact h2
          have tT : DT.inTree T := (domChain_suffix DT hroot B tB T hTB).2
          have hd2 : s2.dominatorTreeDepth = m := fr2.depth.trans hdm
          have hne : T ≠ B := by
            intro e
            apply hc.2
            rw [hB, hib, e]
          refine EarlyMoved.step mv2 ⟨inv2, hnp, hB, hne, hTB, ?_, htT, hmv⟩
          intro J bJ hJ hpJ
          obtain ⟨bJ1, h1, h2⟩ := inv2.dom I J B hphi hJ hB
          rw [h1] at hpJ
          cases hpJ
          have tJ : DT.inTree bJ := inTree_of_getParent inv2.inTree h1
          apply domChain_comparable DT hroot tB h2 hTB
          have h3 := hT3 J (Or.inr hJ)
          rw [h1, hd2] at h3
          have e1 := hm bJ tJ
          have e2 := hm T tT
          omega
        · cases h; exact mv2

/-- What a run returns: the early phase has completed on the annotated state, and the blocks
of the result are those the early phase left. -/
theorem runOnFunction_early (F : Function) (DT : DominatorTree) (LI : LoopInfo) (fuel : Nat)
    (s s1 : GCMState) (h : runOnFunction F DT LI fuel s = .ok s1) :
    ∃ m s2, annotateBasicBlocks DT fuel DT.root 0 s.dominatorTreeDepth = .ok m ∧
      forBlocks (earlyBody F DT fuel) fuel (s.blocks.map (fun b => b.label))
        { s with dominatorTreeDepth := m } = .ok s2 ∧
      s1.blocks = s2.blocks ∧ s1.dominatorTreeDepth = s2.dominatorTreeDepth := by
  unfold runOnFunction at h
  cases ha : annotateBasicBlocks DT fuel DT.root 0 s.dominatorTreeDepth with
  | error e => rw [ha] at h; cases h
  | ok m =>
    rw [ha] at h
    simp only at h
    cases he : forBlocks (earlyBody F DT fuel) fuel (s.blocks.map (fun b => b.label))
        { s with dominatorTreeDepth := m } with
    | error e => rw [he] at h; cases h
    | ok s2 =>
      rw [he] at h
      simp only at h
      obtain ⟨h1, h2⟩ := late_phase_blocks F DT LI fuel _ _ _ h
      exact ⟨m, s2, rfl, he, h1, h2⟩

/-- The early phase on a layout that satisfies the layout invariant, with the depths
annotated, is a sequence of early relocations. -/
theorem early_phase_moved (F : Function) (DT : DominatorTree)
    (hroot : DT.getIDom DT.root = none) (m : List (Nat × Nat)) (hm : DepthOK DT m)
    (fuel : Nat) (bl : List Nat) (s s1 : GCMState) (hinv : LayoutInv F DT s.blocks)
    (hd : s.dominatorTreeDepth = m)
    (h : forBlocks (earlyBody F DT fuel) fuel bl s = .ok s1) :
    EarlyMoved F DT s.blocks s1.blocks ∧ LayoutInv F DT s1.blocks ∧
      s1.dominatorTreeDepth = m := by
  have hE : ∀ I t t1, (LayoutInv F DT t.blocks ∧ t.dominatorTreeDepth = m ∧
        EarlyMoved F DT s.blocks t.blocks) →
      earlyBody F DT fuel I t = .ok t1 →
      (LayoutInv F DT t1.blocks ∧ t1.dominatorTreeDepth = m ∧
        EarlyMoved F DT s.blocks t1.blocks) := by
    intro I t t1 ht hb
    unfold earlyBody at hb
    split at hb
    · refine earlySeedLoop_preserves (fun x => LayoutInv F DT x.blocks ∧
        x.dominatorTreeDepth = m ∧ EarlyMoved F DT s.blocks x.blocks) _ ?_ _
        (t.markVisited I) t1 ht hb
      intro j x x1 hx hr
      obtain ⟨h1, h2, -⟩ := scheduleEarly_inv F DT hroot m hm fuel j x x1 hx.1 hx.2.1 hr
      exact ⟨h1, h2.depth.trans hx.2.1,
        earlyMoved_trans hx.2.2 (scheduleEarly_moved F DT hroot m hm fuel j x x1 hx.1 hx.2.1 hr)⟩
    · cases hb; exact ht
  obtain ⟨h1, h2, h3⟩ := forBlocks_preserves _ _ hE fuel bl s s1
    ⟨hinv, hd, EarlyMoved.refl _⟩ h
  exact ⟨h3, h1, h2⟩

/-- A completed run on a well-formed input is a sequence of early relocations and keeps the
layout invariant. -/
theorem runOnFunction_moved (F : Function) (DT : DominatorTree) (LI : LoopInfo)
    (hroot : DT.getIDom DT.root = none)
    (hidoms : ∀ e ∈ DT.idoms, DT.getIDom e.1 = some e.2 ∧ DT.inTree e.1)
    (fuel : Nat) (s s1 : GCMState) (hinv : LayoutInv F DT s.blocks)
    (h : runOnFunction F DT LI fuel s = .ok s1) :
    EarlyMoved F DT s.blocks s1.blocks ∧ LayoutInv F DT s1.blocks := by
  obtain ⟨m, s2, ha, he, hb, -⟩ := runOnFunction_early F DT LI fuel s s1 h
  have hm : DepthOK DT m := annotateBasicBlocks_depthOK DT hroot hidoms fuel _ m ha
  obtain ⟨h1, h2, -⟩ := early_phase_moved F DT hroot m hm fuel _
    { s with dominatorTreeDepth := m } s2 hinv rfl he
  rw [hb]
  exact ⟨h1, h2⟩


/-! ## Dominance of definitions over uses -/

theorem treeCheck_spec {DT : DominatorTree} (h : treeCheck DT = true) :
    DT.getIDom DT.root = none ∧
    ∀ e ∈ DT.idoms, DT.getIDom e.1 = some e.2 ∧ DT.inTree e.1 := by
  simp only [treeCheck, Bool.and_eq_true, Option.isNone_iff_eq_none, List.all_eq_true,
    beq_iff_eq, decide_eq_true_eq] at h
  exact h

theorem phiCheck_spec {F : Function} {DT : DominatorTree} {bs : List BasicBlock}
    (h : phiCheck F DT bs = true) : DomPhi F DT bs := by
  intro U J b hU hz
  have hlt : U < F.insts.length := by
    by_contra hge
    have e := inst_of_ge F U (by omega)
    unfold Function.opcode at hU
    rw [e] at hU
    cases hU
  have h1 := List.all_eq_true.mp h U (List.mem_range.mpr hlt)
  simp only [hU, Bool.not_true, Bool.false_or, List.all_eq_true] at h1
  have h2 := h1 _ hz
  simp only [Bool.and_eq_true, decide_eq_true_eq] at h2
  refine ⟨h2.1, ?_⟩
  cases hp : getParent bs J with
  | none => rw [hp] at h2; simp at h2
  | some bJ =>
    rw [hp] at h2
    exact ⟨bJ, rfl, by simpa using h2.2⟩

theorem earlyStep_domPhi {F : Function} {DT : DominatorTree}
    (hroot : DT.getIDom DT.root = none) {bs bs1 : List BasicBlock} {i t T P : Nat}
    (h : EarlyStep F DT bs bs1 i t T P) (hphi : DomPhi F DT bs) : DomPhi F DT bs1 := by
  obtain ⟨hpi, hpt, -, -, -⟩ := moveBefore_getParent h.move
  have hT := getTerminator_parent h.inv.located h.term
  intro U J b hU hz
  obtain ⟨tb, bJ, h1, h2⟩ := hphi U J b hU hz
  refine ⟨tb, ?_⟩
  by_cases hJ : J = i
  · subst hJ
    rw [h.parent] at h1
    cases h1
    exact ⟨T, by rw [hpi, hT], domChain_trans DT hroot tb h.dom h2⟩
  · exact ⟨bJ, by rw [hpt J hJ, h1], h2⟩

theorem earlyMoved_domPhi {F : Function} {DT : DominatorTree}
    (hroot : DT.getIDom DT.root = none) {bs bs1 : List BasicBlock}
    (h : EarlyMoved F DT bs bs1) (hphi : DomPhi F DT bs) : DomPhi F DT bs1 := by
  induction h with
  | refl => exact hphi
  | step _ hs ih => exact earlyStep_domPhi hroot hs ih

/-! ## Memoization (C12) -/

/-- The late phase adds only pinned instructions to the memo: its calls of `scheduleLate` are
on the pinned instruction that the driver has just marked, so the part of `scheduleLate` after
the visited check does not run. -/
theorem late_phase_marks (F : Function) (DT : DominatorTree) (LI : LoopInfo) (fuel : Nat) :
    ∀ (bl : List Nat) (s s1 : GCMState), forBlocks (lateBody F DT LI fuel) fuel bl s = .ok s1 →
      ∀ K ∈ s1.visited, K ∈ s.visited ∨ F.pinned K = true := by
  intro bl s
  have key := forBlocks_preserves
    (fun t => ∀ K ∈ t.visited, K ∈ s.visited ∨ F.pinned K = true)
    (lateBody F DT LI fuel)
    (by
      intro I t t1 ht hb
      have hmark : F.pinned I = true →
          ∀ K ∈ (t.markVisited I).visited, K ∈ s.visited ∨ F.pinned K = true := by
        intro hp K hK
        rcases List.mem_cons.mp hK with e | e
        · right; rw [e]; exact hp
        · exact ht K e
      cases fuel with
      | zero =>
        unfold lateBody at hb
        split at hb
        · rename_i hp
          exact lateSeedLoop_preserves
            (fun x => ∀ K ∈ x.visited, K ∈ s.visited ∨ F.pinned K = true)
            (scheduleLate F DT LI 0)
            (fun j x x1 _ hr => by simp only [scheduleLate] at hr; cases hr)
            _ (t.markVisited I) _ (hmark hp) hb
        · cases hb; exact ht
      | succ n =>
        rw [lateBody_eq] at hb
        cases hb
        split
        · rename_i hp; exact hmark hp
        · exact ht)
    fuel bl s
  intro s1 h
  exact key s1 (fun K hK => Or.inl hK) h

/-- Claim C12 (memoization). The memo is the log of the assignments `visited[I] = true`, and
inside a scheduler call every such assignment is one run of the part of the body after the
visited check. For every call of `scheduleEarly`, and of `scheduleLate`, whatever the memo
holds when it is made: the operations on which the body runs during the call are pairwise
different and none of them was marked before; the body does not run at all when the operation
of the call was marked, and runs on it (exactly once) otherwise. In a phase started with an
empty memo the scheduler bodies therefore run at most once on every operation: the memo the
phase leaves holds every non-pinned operation (which only a scheduler body marks) at most
once. The late phase reaches no operation that is not pinned: it marks pinned instructions
only. -/
theorem memoization (F : Function) (DT : DominatorTree) (LI : LoopInfo) :
    (∀ fuel I s s1, scheduleEarly F DT fuel I s = .ok s1 →
      ∃ W, MemoLog s s1 W ∧ (I ∈ s.visited → W = []) ∧ (I ∉ s.visited → W.count I = 1)) ∧
    (∀ fuel I s s1, scheduleLate F DT LI fuel I s = .ok s1 →
      ∃ W, MemoLog s s1 W ∧ (I ∈ s.visited → W = []) ∧ (I ∉ s.visited → W = [I])) ∧
    (∀ fuel bl s s1, s.visited = [] → forBlocks (earlyBody F DT fuel) fuel bl s = .ok s1 →
      ∀ K, F.pinned K = false → s1.visited.count K ≤ 1) ∧
    (∀ fuel bl s s1, s.visited = [] → forBlocks (lateBody F DT LI fuel) fuel bl s = .ok s1 →
      ∀ K, F.pinned K = false → s1.visited.count K = 0) := by
  have cnt : ∀ (l : List Nat) (K : Nat), F.pinned K = false →
      (l.filter (fun K => !F.pinned K)).Nodup → l.count K ≤ 1 := by
    intro l K hK hn
    have h1 : (l.filter (fun K => !F.pinned K)).count K = l.count K := by
      rw [List.count_filter]
      simp [hK]
    rw [← h1]
    exact List.nodup_iff_count_le_one.mp hn K
  refine ⟨?_, ?_, ?_, ?_⟩
  · intro fuel I s s1 h
    obtain ⟨W, hW, h1, h2⟩ := scheduleEarly_memo F DT fuel I s s1 h
    exact ⟨W, hW, h1, fun hI => List.count_eq_one_of_mem hW.2.1 (h2 hI)⟩
  · intro fuel I s s1 h
    rcases scheduleLate_blocks F DT LI fuel I s s1 h with e | ⟨hI, e⟩
    · subst e
      refine ⟨[], memoLog_refl _, fun _ => rfl, fun hI => ?_⟩
      exfalso
      cases fuel with
      | zero => simp only [scheduleLate] at h; cases h
      | succ n =>
        obtain ⟨W, hW, -, h2⟩ := scheduleLate_memo F DT LI (n + 1) I s1 s1 h
        have h3 := h2 hI
        have h4 := hW.1
        have : W = [] := by
          have := congrArg List.length h4
          simp only [List.length_append] at this
          exact List.eq_nil_of_length_eq_zero (by omega)
        rw [this] at h3
        cases h3
    · subst e
      exact ⟨[I], memoLog_mark hI, fun h1 => absurd h1 hI, fun _ => rfl⟩
  · intro fuel bl s s1 hs h K hK
    exact cnt _ K hK (early_phase_memo F DT fuel bl s s1 (by rw [hs]; exact List.nodup_nil) h)
  · intro fuel bl s s1 hs h K hK
    apply List.count_eq_zero.mpr
    intro hm
    rcases late_phase_marks F DT LI fuel bl s s1 h K hm with e | e
    · rw [hs] at e; cases e
    · rw [hK] at e; cases e

/-- Witness of C12 on the diamond `exDiaF`. The call of `scheduleEarly` on the call 3 reaches
the `add` 0 through the `mul` 1 and through the `sub` 2 and completes; the body has run once
on each of 3, 1, 0 and 2. The call of `scheduleLate` on the `add` 0, which has two uses,
re-enters itself twice on the marked `add` and marks nothing else. -/
theorem memoization_witness :
    ((scheduleEarly exDiaF exDiaDT 5 3 exDiaS).toOption.map (fun s => s.visited)
        = some [2, 0, 1, 3] ∧
      ∃ W, MemoLog exDiaS ⟨[⟨0, [0, 1, 2, 3, 4]⟩], [(0, 0)], [2, 0, 1, 3]⟩ W ∧
        (3 ∈ exDiaS.visited → W = []) ∧ (3 ∉ exDiaS.visited → W.count 3 = 1)) ∧
    (exDiaF.derefUses 0 = [0, 0] ∧
      scheduleLate exDiaF exDiaDT ⟨[]⟩ 5 0 exDiaS = .ok (exDiaS.markVisited 0) ∧
      ∃ W, MemoLog exDiaS (exDiaS.markVisited 0) W ∧
        (0 ∈ exDiaS.visited → W = []) ∧ (0 ∉ exDiaS.visited → W = [0])) :=
  ⟨⟨by rfl, (memoization exDiaF exDiaDT ⟨[]⟩).1 5 3 exDiaS _ (by rfl)⟩,
    ⟨by rfl, by rfl, (memoization exDiaF exDiaDT ⟨[]⟩).2.1 5 0 exDiaS _ (by rfl)⟩⟩

/-! ## Evaluations of the pass where it departs from the claims -/

/-- C5, evaluation at the failing input `exLoopF` in the layout `exLoopN`, which passes the
well-formedness checks: the movable `add` 2 sits in the loop body 3 and is used only by the
call 3 of that block, and its operand, the call 1, is defined in block 1, before the loop; the
block immediately preceding the loop entry is the preheader 5, which lies outside the loop,
is dominated by block 1 and dominates the loop body. The run completes and leaves the `add`
in block 1, where the early phase has put it: outside the loop, but not in the preheader. -/
theorem hoisting_stops_at_early_block :
    runInputCheck exLoopF exLoopDT exLoopN.blocks 10 = true ∧
    staticCheck exLoopF exLoopDT = true ∧
    treeCheck exLoopDT = true ∧ layoutCheck exLoopF exLoopDT exLoopN.blocks = true ∧
    wellFormedCheck exLoopF exLoopN.blocks = true ∧
    exLoopF.pinned 2 = false ∧ exLoopF.operands 2 = [.inst 1, .other] ∧
    exLoopF.users 2 = [3] ∧ getParent exLoopN.blocks 2 = some 3 ∧
    getParent exLoopN.blocks 1 = some 1 ∧ getParent exLoopN.blocks 3 = some 3 ∧
    exLoopLI.getLoopFor (some 3) = some ⟨2, [2, 3], 1⟩ ∧
    exLoopLI.getLoopFor (some 5) = none ∧ exLoopDT.getIDom 2 = some 5 ∧
    exLoopDT.dominates 1 5 = true ∧ exLoopDT.dominates 5 3 = true ∧
    runOnFunction exLoopF exLoopDT exLoopLI 10 exLoopN = .ok exLoopN1 ∧
    getParent exLoopN1.blocks 2 = some 1 ∧
    ¬ (getParent exLoopN1.blocks 2 = some 5) := by
  refine ⟨by decide, by decide, by decide, by decide, by decide, by rfl, by rfl, by rfl,
    by rfl, by rfl, by rfl, by rfl, by rfl, by rfl, by rfl, by rfl, by rfl, by rfl, by decide⟩

/-- C6, evaluation at the failing input `exRotF`, which passes the well-formedness checks: the
first run moves `I` (4) and `X` (6) into the header 1 and leaves `K` (5), whose only operand
is `I`, in the body 2; the second run on the same pass object moves `K` into the header. -/
theorem second_run_relocates :
    runInputCheck exRotF exRotDT exRotS.blocks 12 = true ∧
    staticCheck exRotF exRotDT = true ∧
    treeCheck exRotDT = true ∧ layoutCheck exRotF exRotDT exRotS.blocks = true ∧
    phiCheck exRotF exRotDT exRotS.blocks = true ∧
    wellFormedCheck exRotF exRotS.blocks = true ∧
    runOnFunction exRotF exRotDT exRotLI 12 exRotS = .ok exRotS1 ∧
    exRotF.operands 5 = [.inst 4, .other] ∧
    getParent exRotS1.blocks 4 = some 1 ∧ getParent exRotS1.blocks 5 = some 2 ∧
    runOnFunction exRotF exRotDT exRotLI 12 exRotS1 = .ok exRotS2 ∧
    getParent exRotS2.blocks 5 = some 1 ∧
    exRotS2.blocks ≠ exRotS1.blocks := by
  refine ⟨by decide, by decide, by decide, by decide, by decide, by decide, by rfl, by rfl,
    by rfl, by rfl, by rfl, by rfl, by decide⟩

/-- C9, evaluation at the failing input `exTwoF`, which passes the well-formedness checks: the
movable `add` 2 of block 1 is held by the phi 3 in the slot of the incoming block 2 and by the
phi 4 in the slot of the incoming block 6, and by nothing else; block 1 dominates both
incoming blocks and their nearest common dominator is block 2. The run completes and the
`add` is in block 1; so is it after a call of `scheduleLate` on the `add` itself, whose two
uses both yield the `add`. -/
theorem two_phi_uses_not_sunk :
    runInputCheck exTwoF exTwoDT exTwoN.blocks 12 = true ∧
    staticCheck exTwoF exTwoDT = true ∧
    treeCheck exTwoDT = true ∧ layoutCheck exTwoF exTwoDT exTwoN.blocks = true ∧
    phiCheck exTwoF exTwoDT exTwoN.blocks = true ∧
    wellFormedCheck exTwoF exTwoN.blocks = true ∧
    exTwoF.pinned 2 = false ∧ exTwoF.users 2 = [3, 4] ∧
    exTwoF.operands 3 = [.inst 2, .other] ∧ (exTwoF.inst 3).incoming = [2, 3] ∧
    exTwoF.operands 4 = [.inst 2, .other] ∧ (exTwoF.inst 4).incoming = [6, 3] ∧
    exTwoDT.dominates 1 2 = true ∧ exTwoDT.dominates 1 6 = true ∧
    findLCA 2 6 exTwoDT = some 2 ∧
    getParent exTwoN.blocks 2 = some 1 ∧
    (runOnFunction exTwoF exTwoDT ⟨[]⟩ 12 exTwoN).toOption.map
      (fun s => getParent s.blocks 2) = some (some 1) ∧
    exTwoF.derefUses 2 = [2, 2] ∧
    scheduleLate exTwoF exTwoDT ⟨[]⟩ 10 2 exTwoS = .ok (exTwoS.markVisited 2) ∧
    getParent (exTwoS.markVisited 2).blocks 2 = some 1 := by
  refine ⟨by decide, by decide, by decide, by decide, by decide, by decide, by rfl, by rfl,
    by rfl, by rfl, by rfl, by rfl, by rfl, by rfl, by rfl, by rfl, by rfl, by rfl, by rfl,
    by rfl⟩

/-- C15, evaluation at the failing input `exAdjF`, which passes the well-formedness checks:
the movable `add` 2 and its only consumer, the call 4, which is no phi, are in block 1 with
the call 3 between them. A call of `scheduleLate` on the `add` completes with block 1 as it
was: the use of the `add` yields the `add` itself, so the relocation of GCM.cpp 120 is that
of the `add` in front of itself. The whole run leaves block 1 as it was as well: the `add` is
not immediately in front of its consumer. -/
theorem late_placement_not_adjacent :
    runInputCheck exAdjF exAdjDT exAdjS.blocks 10 = true ∧
    staticCheck exAdjF exAdjDT = true ∧
    treeCheck exAdjDT = true ∧ layoutCheck exAdjF exAdjDT exAdjS.blocks = true ∧
    wellFormedCheck exAdjF exAdjS.blocks = true ∧
    exAdjF.pinned 2 = false ∧ exAdjF.users 2 = [4] ∧ (exAdjF.opcode 4).isPHINode = false ∧
    getParent exAdjMid.blocks 2 = some 1 ∧ getParent exAdjMid.blocks 4 = some 1 ∧
    exAdjF.derefUses 2 = [2] ∧
    lateAnchor exAdjF exAdjMid.blocks 2 (some 1) = some 2 ∧
    scheduleLate exAdjF exAdjDT ⟨[]⟩ 10 2 exAdjMid = .ok (exAdjMid.markVisited 2) ∧
    blockInsts (exAdjMid.markVisited 2).blocks 1 = some [1, 2, 3, 4, 5] ∧
    (runOnFunction exAdjF exAdjDT ⟨[]⟩ 10 exAdjS).toOption.map
      (fun s => blockInsts s.blocks 1) = some (some [1, 2, 3, 4, 5]) := by
  refine ⟨by decide, by decide, by decide, by decide, by decide, by rfl, by rfl, by rfl,
    by rfl, by rfl, by rfl, by rfl, by rfl, by rfl, by rfl⟩

/-- C20, evaluation at the failing input `exNestF`, which passes the well-formedness checks:
a first run on a fresh pass object leaves the blocks of `exNestS1` and a memo that holds the
pinned instructions. On these blocks a run on the used pass object moves `O` (6) and `Y` (7)
into the header 1, whereas a run on a fresh pass object, and a run on the used one with the
memo cleared, move `O` and leave `Y` in the body 2. -/
theorem stale_memo_changes_placement :
    runInputCheck exNestF exNestDT exNestS.blocks 14 = true ∧
    staticCheck exNestF exNestDT = true ∧
    treeCheck exNestDT = true ∧ layoutCheck exNestF exNestDT exNestS.blocks = true ∧
    phiCheck exNestF exNestDT exNestS.blocks = true ∧
    wellFormedCheck exNestF exNestS.blocks = true ∧
    runOnFunction exNestF exNestDT exNestLI 14 exNestS = .ok exNestS1 ∧
    exNestS1.visited = [10, 9, 4, 3, 2, 1, 0] ∧
    (runOnFunction exNestF exNestDT exNestLI 14 exNestS1).toOption.map (fun s => s.blocks)
      = some [⟨0, [0]⟩, ⟨1, [1, 2, 3, 5, 8, 6, 7, 4]⟩, ⟨2, [9]⟩, ⟨3, [10]⟩] ∧
    (runOnFunction exNestF exNestDT exNestLI 14 ⟨exNestS1.blocks, [], []⟩).toOption.map
      (fun s => s.blocks)
      = some [⟨0, [0]⟩, ⟨1, [1, 2, 3, 5, 8, 6, 4]⟩, ⟨2, [7, 9]⟩, ⟨3, [10]⟩] ∧
    (runOnFunction exNestF exNestDT exNestLI 14 { exNestS1 with visited := [] }).toOption.map
      (fun s => s.blocks)
      = some [⟨0, [0]⟩, ⟨1, [1, 2, 3, 5, 8, 6, 4]⟩, ⟨2, [7, 9]⟩, ⟨3, [10]⟩] := by
  refine ⟨by decide, by decide, by decide, by decide, by decide, by decide, by rfl, by rfl,
    by rfl, by rfl, by rfl⟩


/-! ## The loop-depth walk (C14) -/

theorem precedesB_spec : ∀ (l : List Nat) (x y : Nat), precedesB l x y = true → precedes l x y := by
  intro l x y
  induction l with
  | nil => intro h; simp [precedesB] at h
  | cons a r ih =>
    intro h
    simp only [precedesB] at h
    by_cases e : a = x
    · rw [if_pos e] at h
      obtain ⟨l2, l3, hr⟩ := List.append_of_mem (of_decide_eq_true h)
      exact ⟨[], l2, l3, by rw [hr, e]; rfl⟩
    · rw [if_neg e] at h
      obtain ⟨l1, l2, l3, hr⟩ := ih h
      exact ⟨a :: l1, l2, l3, by rw [hr]; rfl⟩

theorem defFirstCheck_spec {F : Function} {bs : List BasicBlock}
    (hlab : (bs.map (fun B => B.label)).Nodup) (h : defFirstCheck F bs = true) :
    DefFirst F bs := by
  intro J U b hJ hU hop hpJ hpU
  obtain ⟨X, hX, hl, hm⟩ := getParent_mem hpU
  simp only [defFirstCheck, List.all_eq_true] at h
  have h1 := h X hX U hm
  rw [hU, Bool.false_or, List.all_eq_true] at h1
  have h2 := h1 _ hop
  simp only [hJ, Bool.false_or, hl, hpJ, bne_self_eq_false] at h2
  exact ⟨X.insts, by rw [← hl]; exact blockInsts_of_mem hlab hX, precedesB_spec _ _ _ h2⟩

theorem block_nodup_of_allInsts : ∀ {bs : List BasicBlock}, (allInsts bs).Nodup →
    ∀ X ∈ bs, X.insts.Nodup := by
  intro bs
  induction bs with
  | nil => intro _ X hX; cases hX
  | cons B rest ih =>
    intro h X hX
    have h0 : allInsts (B :: rest) = B.insts ++ allInsts rest := by
      simp [allInsts, List.flatMap_cons]
    rw [h0] at h
    obtain ⟨h1, h2, -⟩ := List.nodup_append.mp h
    rcases List.mem_cons.mp hX with e | e
    · rw [e]; exact h1
    · exact ih h2 X e

/-- A relocation of the early phase keeps definitions in front of their uses: the relocated
instruction lands behind everything but the terminator of the target block, which holds none
of its consumers, and the order of the other instructions is as it was. -/
theorem earlyStep_defFirst {F : Function} {DT : DominatorTree}
    (hroot : DT.getIDom DT.root = none) {bs bs1 : List BasicBlock} {i t T P : Nat}
    (h : EarlyStep F DT bs bs1 i t T P)
    (hlab : (bs.map (fun B => B.label)).Nodup) (hnd : (allInsts bs).Nodup)
    (hdf : DefFirst F bs) :
    (bs1.map (fun B => B.label)).Nodup ∧ (allInsts bs1).Nodup ∧ DefFirst F bs1 := by
  obtain ⟨hpi, hpo, -, -, hlabels⟩ := moveBefore_getParent h.move
  have hpt : getParent bs t = some T := getTerminator_parent h.inv.located h.term
  rw [hpt] at hpi
  refine ⟨by rw [hlabels]; exact hlab, (moveBefore_perm hnd h.move).nodup_iff.mpr hnd, ?_⟩
  intro J U b hJ hU hop hpJ hpU
  by_cases eJ : J = i
  · exfalso
    rw [eJ] at hpJ hop
    rw [hpi] at hpJ
    have eb : b = T := (Option.some.inj hpJ).symm
    rw [eb] at hpU
    have hPT : P ∈ DT.domChain T := by
      by_cases eU : U = i
      · rw [eU] at hop
        exact h.operands i P hop h.parent
      · rw [hpo U eU] at hpU
        obtain ⟨bJ, h1, h2⟩ := h.inv.dom U i T hU hop hpU
        rw [h.parent] at h1
        cases h1
        exact h2
    exact h.ne (domChain_antisymm DT hroot (inTree_of_getParent h.inv.inTree hpt)
      (inTree_of_getParent h.inv.inTree h.parent) h.dom hPT)
  · rw [hpo J eJ] at hpJ
    by_cases eU : U = i
    · rw [eU] at hpU ⊢
      rw [hpi] at hpU
      have eb : b = T := (Option.some.inj hpU).symm
      rw [eb] at hpJ ⊢
      obtain ⟨pre, hb0, hb1⟩ := moveBefore_terminator h.inv.located
        (block_nodup_of_allInsts hnd) h.term
        (fun e => h.ne (by rw [h.parent] at e; exact (Option.some.inj e).symm)) h.movable h.move
      obtain ⟨is, his, hmem⟩ := blockInsts_of_getParent hlab hpJ
      rw [hb0] at his
      cases his
      have hJt : J ≠ t := by
        intro e
        obtain ⟨_, _, htt⟩ := getTerminator_split h.term
        have hp := isPinned_of_terminator htt
        unfold Function.pinned at hJ
        rw [e, hp] at hJ
        cases hJ
      have hJpre : J ∈ pre := by
        rcases List.mem_append.mp hmem with e | e
        · exact e
        · exact absurd (List.mem_singleton.mp e) hJt
      obtain ⟨l1, l2, hl⟩ := List.append_of_mem hJpre
      exact ⟨pre ++ [i, t], hb1, l1, l2, [t], by rw [hl]; simp⟩
    · rw [hpo U eU] at hpU
      have hold := hdf J U b hJ hU hop hpJ hpU
      have hk := moveBefore_keptSeq (fun x => decide (x ≠ i)) (by simp) h.move
      exact (precedesIn_iff_of_keptSeq (fun x => decide (x ≠ i)) bs bs1 hk b J U
        (by simpa using eJ) (by simpa using eU)).mpr hold

theorem earlyMoved_defFirst {F : Function} {DT : DominatorTree}
    (hroot : DT.getIDom DT.root = none) {bs bs1 : List BasicBlock}
    (h : EarlyMoved F DT bs bs1)
    (hlab : (bs.map (fun B => B.label)).Nodup) (hnd : (allInsts bs).Nodup)
    (hdf : DefFirst F bs) :
    (bs1.map (fun B => B.label)).Nodup ∧ (allInsts bs1).Nodup ∧ DefFirst F bs1 := by
  induction h with
  | refl => exact ⟨hlab, hnd, hdf⟩
  | step _ hs ih => exact earlyStep_defFirst hroot hs ih.1 ih.2.1 ih.2.2

/-! ## The run returns -/

theorem mem_labels_of_getParent {bs : List BasicBlock} {t b : Nat}
    (h : getParent bs t = some b) : b ∈ bs.map (fun B => B.label) := by
  obtain ⟨B, hB, hl, -⟩ := getParent_mem h
  exact List.mem_map.mpr ⟨B, hB, hl⟩

theorem moveBefore_termOK {F : Function} {bs bs1 : List BasicBlock} {i u : Nat}
    (hterm : TermOK F bs) (hi : F.pinned i = false)
    (h : moveBefore bs i (some u) = .ok bs1) : TermOK F bs1 := by
  rcases moveBefore_shape h with ⟨-, rfl⟩ | ⟨-, hbs⟩
  · exact hterm
  · intro B1 hB1
    rw [hbs] at hB1
    unfold insertBefore removeInst at hB1
    rw [List.map_map] at hB1
    obtain ⟨B, hB, rfl⟩ := List.mem_map.mp hB1
    obtain ⟨t, ht, htt⟩ := hterm B hB
    refine ⟨t, ?_, htt⟩
    simp only [Function.comp_apply]
    apply getLast?_insertBeforeIn
    apply getLast?_filter_of ht
    have : t ≠ i := by
      intro e
      subst e
      have := isPinned_of_terminator htt
      unfold Function.pinned at hi
      rw [this] at hi
      cases hi
    simpa using this

theorem earlyStep_layoutInv {F : Function} {DT : DominatorTree}
    (hroot : DT.getIDom DT.root = none) {bs bs1 : List BasicBlock} {i t T P : Nat}
    (h : EarlyStep F DT bs bs1 i t T P) : LayoutInv F DT bs1 := by
  apply moveBefore_layoutInv F DT h.inv h.move (getTerminator_parent h.inv.located h.term)
  · intro J bJ hJ _ hpJ
    exact h.operands J bJ hJ hpJ
  · intro U bU hU hUI _ hpU
    obtain ⟨bI, h1, h2⟩ := h.inv.dom U i bU hU hUI hpU
    rw [h.parent] at h1
    cases h1
    exact domChain_trans DT hroot (inTree_of_getParent h.inv.inTree hpU) h.dom h2

theorem runCheck_spec {F : Function} {DT : DominatorTree} {bs : List BasicBlock}
    (h : runCheck F DT bs = true) : RunInv F DT bs := by
  simp only [runCheck, Bool.and_eq_true, decide_eq_true_eq, List.all_eq_true] at h
  obtain ⟨⟨⟨⟨⟨h1, h2⟩, h3⟩, h4⟩, h5⟩, h6⟩ := h
  refine ⟨layoutCheck_spec F DT bs h1, ?_, termCheck_spec _ _ h3, h4, h5, h6⟩
  intro U J hJ
  obtain ⟨x, hx, hv⟩ := operands_mem_insts F U _ hJ
  have := h2 x hx _ hv
  simp only at this
  exact Option.isSome_iff_exists.mp this

theorem earlyStep_runInv {F : Function} {DT : DominatorTree}
    (hroot : DT.getIDom DT.root = none) {bs bs1 : List BasicBlock} {i t T P : Nat}
    (h : EarlyStep F DT bs bs1 i t T P) (hinv : RunInv F DT bs) : RunInv F DT bs1 := by
  obtain ⟨hpi, hpo, ⟨bu, hbu⟩, -, hlabels⟩ := moveBefore_getParent h.move
  refine ⟨earlyStep_layoutInv hroot h, ?_, moveBefore_termOK hinv.term h.movable h.move,
    by rw [hlabels]; exact hinv.root, by rw [hlabels]; exact hinv.labels,
    (moveBefore_perm hinv.nodup h.move).nodup_iff.mpr hinv.nodup⟩
  intro U J hJ
  by_cases e : J = i
  · rw [e, hpi]; exact ⟨bu, hbu⟩
  · rw [hpo J e]; exact hinv.placed U J hJ

theorem earlyMoved_runInv {F : Function} {DT : DominatorTree}
    (hroot : DT.getIDom DT.root = none) {bs bs1 : List BasicBlock}
    (h : EarlyMoved F DT bs bs1) (hinv : RunInv F DT bs) : RunInv F DT bs1 := by
  induction h with
  | refl => exact hinv
  | step _ hs ih => exact earlyStep_runInv hroot hs ih

theorem earlyMoved_perm {F : Function} {DT : DominatorTree} {bs bs1 : List BasicBlock}
    (h : EarlyMoved F DT bs bs1) (hnd : (allInsts bs).Nodup) :
    (allInsts bs1).Perm (allInsts bs) := by
  induction h with
  | refl => exact List.Perm.refl _
  | step _ hs ih =>
    exact (moveBefore_perm (ih.nodup_iff.mpr hnd) hs.move).trans ih

theorem earlyMoved_getParent_some {F : Function} {DT : DominatorTree} {bs bs1 : List BasicBlock}
    (h : EarlyMoved F DT bs bs1) {x : Nat} (hx : ∃ b, getParent bs x = some b) :
    ∃ b, getParent bs1 x = some b := by
  induction h with
  | refl => exact hx
  | @step _ _ i _ _ _ _ hs ih =>
    obtain ⟨hpi, hpo, hu, -, -⟩ := moveBefore_getParent hs.move
    by_cases e : x = i
    · rw [e, hpi]; exact hu
    · rw [hpo x e]; exact ih

theorem moveBefore_ok {bs : List BasicBlock} {i u b c : Nat}
    (hu : getParent bs u = some b) (hi : getParent bs i = some c) :
    ∃ bs1, moveBefore bs i (some u) = .ok bs1 := by
  unfold moveBefore
  simp only [hu, hi]
  split
  · exact ⟨_, rfl⟩
  · exact ⟨_, rfl⟩

theorem earlyOperandLoop_no_null (F : Function) (DT : DominatorTree)
    (rec : Nat → GCMState → Except Fault GCMState) (m : List (Nat × Nat))
    (hok : ∀ j t t1, RunInv F DT t.blocks → t.dominatorTreeDepth = m → rec j t = .ok t1 →
      RunInv F DT t1.blocks ∧ t1.dominatorTreeDepth = m)
    (hnull : ∀ j t, RunInv F DT t.blocks → t.dominatorTreeDepth = m →
      (∃ b, getParent t.blocks j = some b) → rec j t ≠ .error .nullDeref) :
    ∀ (ops : List Value) (ib : Option Nat) (s : GCMState), RunInv F DT s.blocks →
      s.dominatorTreeDepth = m → (∀ j, Value.inst j ∈ ops → ∃ U, Value.inst j ∈ F.operands U) →
      earlyOperandLoop rec ops ib s ≠ .error .nullDeref := by
  intro ops
  induction ops with
  | nil =>
    intro ib s _ _ _ h
    simp only [earlyOperandLoop] at h
    cases h
  | cons v rest ih =>
    intro ib s hinv hd hops
    cases v with
    | other =>
      simp only [earlyOperandLoop]
      exact ih ib s hinv hd (fun j hj => hops j (List.mem_cons_of_mem _ hj))
    | inst j =>
      simp only [earlyOperandLoop]
      obtain ⟨U, hU⟩ := hops j (List.mem_cons_self _ _)
      cases hr : rec j s with
      | error e =>
        simp only
        intro h
        cases h
        exact hnull j s hinv hd (hinv.placed U j hU) hr
      | ok s1 =>
        simp only
        obtain ⟨inv1, hd1⟩ := hok j s s1 hinv hd hr
        split
        · exact ih _ s1 inv1 hd1 (fun j hj => hops j (List.mem_cons_of_mem _ hj))
        · exact ih _ s1 inv1 hd1 (fun j hj => hops j (List.mem_cons_of_mem _ hj))

/-- On a well-formed layout `scheduleEarly` dereferences no absent block or terminator. -/
theorem scheduleEarly_no_null (F : Function) (DT : DominatorTree)
    (hroot : DT.getIDom DT.root = none) (m : List (Nat × Nat)) (hm : DepthOK DT m) :
    ∀ (fuel I : Nat) (s : GCMState), RunInv F DT s.blocks → s.dominatorTreeDepth = m →
      (∃ b, getParent s.blocks I = some b) →
      scheduleEarly F DT fuel I s ≠ .error .nullDeref := by
  intro fuel
  induction fuel with
  | zero => intro I s _ _ _ h; simp only [scheduleEarly] at h; cases h
  | succ fuel ih =>
    intro I s hinv hdm hI
    have hrecInv := scheduleEarly_inv F DT hroot m hm fuel
    have hrecMv := scheduleEarly_moved F DT hroot m hm fuel
    simp only [scheduleEarly]
    split
    · intro h; cases h
    · cases hl : earlyOperandLoop (scheduleEarly F DT fuel) (F.operands I) (some DT.root)
          (s.markVisited I) with
      | error e =>
        simp only
        intro h
        cases h
        exact earlyOperandLoop_no_null F DT _ m
          (fun j t t1 ht hd hr =>
            ⟨earlyMoved_runInv hroot (hrecMv j t t1 ht.layout hd hr) ht,
              (hrecInv j t t1 ht.layout hd hr).2.1.depth.trans hd⟩)
          ih (F.operands I) _ (s.markVisited I) hinv hdm (fun j hj => ⟨I, hj⟩) hl
      | ok r =>
        obtain ⟨ib, s2⟩ := r
        simp only
        have ht0 : TargetOK DT (fun _ => False) (some DT.root) (s.markVisited I) :=
          ⟨DT.root, rfl, Or.inl rfl, fun j hj => absurd hj id⟩
        obtain ⟨inv2, -, ht2⟩ := earlyOperandLoop_inv F DT _ m hrecInv (F.operands I) _ _
          (s.markVisited I) _ hinv.layout hdm (fun j hj => absurd hj id) ht0 hl
        simp only at inv2 ht2
        have mv2 : EarlyMoved F DT s.blocks s2.blocks :=
          earlyOperandLoop_moved F DT _ m
            (fun j t t1 ht hd hr =>
              ⟨(hrecInv j t t1 ht hd hr).1, (hrecInv j t t1 ht hd hr).2.1.depth.trans hd,
                hrecMv j t t1 ht hd hr⟩)
            (F.operands I) _ (s.markVisited I) _ hinv.layout hdm hl
        have rinv2 : RunInv F DT s2.blocks := earlyMoved_runInv hroot mv2 hinv
        split
        · obtain ⟨T, hT1, hT2, -⟩ := ht2
          have hTl : T ∈ s2.blocks.map (fun B => B.label) := by
            rcases hT2 with e | ⟨j, -, hp⟩
            · rw [e]; exact rinv2.root
            · exact mem_labels_of_getParent hp
          obtain ⟨t, ht⟩ := getTerminator_of_termOK rinv2.term hTl
          obtain ⟨c, hc⟩ := earlyMoved_getParent_some mv2 hI
          obtain ⟨bs1, hbs1⟩ := moveBefore_ok (getTerminator_parent inv2.located ht) hc
          rw [hT1]
          simp only [moveToBlockEnd, ht, hbs1]
          intro h
          cases h
        · intro h; cases h

/-- On a well-formed layout, with more fuel than there are unvisited instructions,
`scheduleEarly` returns. -/
theorem scheduleEarly_total (F : Function) (DT : DominatorTree)
    (hroot : DT.getIDom DT.root = none) (m : List (Nat × Nat)) (hm : DepthOK DT m)
    (fuel I : Nat) (s : GCMState) (hinv : RunInv F DT s.blocks) (hd : s.dominatorTreeDepth = m)
    (hI : ∃ b, getParent s.blocks I = some b) (hf : unvisitedCount F s + 1 ≤ fuel) :
    ∃ s1, scheduleEarly F DT fuel I s = .ok s1 := by
  cases h : scheduleEarly F DT fuel I s with
  | ok s1 => exact ⟨s1, rfl⟩
  | error e =>
    cases e with
    | nullDeref => exact absurd h (scheduleEarly_no_null F DT hroot m hm fuel I s hinv hd hI)
    | outOfFuel => exact absurd h (scheduleEarly_no_timeout F DT fuel I s hf)


theorem unvisitedCount_le (F : Function) (s : GCMState) :
    unvisitedCount F s ≤ F.insts.length := by
  unfold unvisitedCount
  exact (List.length_filter_le _ _).trans (by simp)

theorem earlySeedLoop_total (F : Function) (DT : DominatorTree)
    (hroot : DT.getIDom DT.root = none) (m : List (Nat × Nat)) (hm : DepthOK DT m)
    (fuel : Nat) (hf : F.insts.length + 1 ≤ fuel) :
    ∀ (ops : List Value) (s : GCMState), RunInv F DT s.blocks → s.dominatorTreeDepth = m →
      (∀ j, Value.inst j ∈ ops → ∃ U, Value.inst j ∈ F.operands U) →
      ∃ s1, earlySeedLoop (scheduleEarly F DT fuel) ops s = .ok s1 := by
  intro ops
  induction ops with
  | nil => intro s _ _ _; exact ⟨s, rfl⟩
  | cons v rest ih =>
    intro s hinv hd hops
    cases v with
    | other =>
      simp only [earlySeedLoop]
      exact ih s hinv hd (fun j hj => hops j (List.mem_cons_of_mem _ hj))
    | inst j =>
      obtain ⟨U, hU⟩ := hops j (List.mem_cons_self _ _)
      obtain ⟨s1, hs1⟩ := scheduleEarly_total F DT hroot m hm fuel j s hinv hd
        (hinv.placed U j hU) (by have := unvisitedCount_le F s; omega)
      simp only [earlySeedLoop, hs1]
      have h1 := scheduleEarly_inv F DT hroot m hm fuel j s s1 hinv.layout hd hs1
      have h2 := scheduleEarly_moved F DT hroot m hm fuel j s s1 hinv.layout hd hs1
      exact ih s1 (earlyMoved_runInv hroot h2 hinv) (h1.2.1.depth.trans hd)
        (fun j hj => hops j (List.mem_cons_of_mem _ hj))

/-- What the body of the early driver loop does when it returns: a sequence of early
relocations, none when the instruction is not pinned. -/
theorem earlyBody_moved (F : Function) (DT : DominatorTree)
    (hroot : DT.getIDom DT.root = none) (m : List (Nat × Nat)) (hm : DepthOK DT m)
    (fuel I : Nat) (t t1 : GCMState) (hinv : RunInv F DT t.blocks)
    (hd : t.dominatorTreeDepth = m) (hb : earlyBody F DT fuel I t = .ok t1) :
    RunInv F DT t1.blocks ∧ t1.dominatorTreeDepth = m ∧ EarlyMoved F DT t.blocks t1.blocks ∧
      (F.pinned I = false → t1.blocks = t.blocks) := by
  unfold earlyBody at hb
  split at hb
  · rename_i hp
    have key := earlySeedLoop_preserves (fun x => RunInv F DT x.blocks ∧
        x.dominatorTreeDepth = m ∧ EarlyMoved F DT t.blocks x.blocks) _ (by
        intro j x x1 hx hr
        have h1 := scheduleEarly_inv F DT hroot m hm fuel j x x1 hx.1.layout hx.2.1 hr
        have h2 := scheduleEarly_moved F DT hroot m hm fuel j x x1 hx.1.layout hx.2.1 hr
        exact ⟨earlyMoved_runInv hroot h2 hx.1, h1.2.1.depth.trans hx.2.1,
          earlyMoved_trans hx.2.2 h2⟩) _
        (t.markVisited I) t1 ⟨hinv, hd, EarlyMoved.refl _⟩ hb
    exact ⟨key.1, key.2.1, key.2.2, fun h => by rw [hp] at h; cases h⟩
  · cases hb
    exact ⟨hinv, hd, EarlyMoved.refl _, fun _ => rfl⟩

theorem earlyBody_total (F : Function) (DT : DominatorTree)
    (hroot : DT.getIDom DT.root = none) (m : List (Nat × Nat)) (hm : DepthOK DT m)
    (fuel : Nat) (hf : F.insts.length + 1 ≤ fuel) (I : Nat) (s : GCMState)
    (hinv : RunInv F DT s.blocks) (hd : s.dominatorTreeDepth = m) :
    ∃ s1, earlyBody F DT fuel I s = .ok s1 := by
  unfold earlyBody
  split
  · exact earlySeedLoop_total F DT hroot m hm fuel hf (F.operands I) (s.markVisited I) hinv hd
      (fun j hj => ⟨I, hj⟩)
  · exact ⟨s, rfl⟩

theorem precedes_mem {l : List Nat} {x y : Nat} (h : precedes l x y) : x ∈ l ∧ y ∈ l := by
  obtain ⟨l1, l2, l3, rfl⟩ := h
  constructor
  · simp
  · simp

theorem precedes_ne {l : List Nat} {x y : Nat} (hnd : l.Nodup) (h : precedes l x y) :
    x ≠ y := by
  obtain ⟨l1, l2, l3, rfl⟩ := h
  intro e
  subst e
  have h1 := (List.nodup_append.mp hnd).2.1
  have h2 := (List.nodup_cons.mp h1).1
  exact h2 (by simp)

theorem nextIn_some {I J : Nat} : ∀ {l : List Nat}, nextIn I l = some J →
    ∃ pre rest, l = pre ++ I :: J :: rest ∧ I ∉ pre := by
  intro l
  induction l with
  | nil => intro h; simp [nextIn] at h
  | cons a r ih =>
    intro h
    simp only [nextIn] at h
    by_cases e : a = I
    · rw [if_pos e] at h
      cases r with
      | nil => simp at h
      | cons b r2 =>
        simp only [List.head?_cons, Option.some.injEq] at h
        exact ⟨[], r2, by rw [e, h]; rfl, by simp⟩
    · rw [if_neg e] at h
      obtain ⟨pre, rest, hr, hn⟩ := ih h
      refine ⟨a :: pre, rest, by rw [hr]; rfl, ?_⟩
      intro hm
      rcases List.mem_cons.mp hm with e1 | e1
      · exact e e1.symm
      · exact hn e1

theorem blockInsts_nodup {bs : List BasicBlock} (hnd : (allInsts bs).Nodup) {b : Nat}
    {is : List Nat} (h : blockInsts bs b = some is) : is.Nodup := by
  obtain ⟨X, hX, -, hi⟩ := blockInsts_mem h
  rw [← hi]
  exact block_nodup_of_allInsts hnd X hX

/-- An early relocation of an instruction other than `I` keeps the bookkeeping of the
instruction loop at `I`: what was in front of `I` stays there or moves to a strict dominator,
and what was in a strict dominator moves further up, if at all. -/
theorem earlyStep_seenOK {F : Function} {DT : DominatorTree}
    (hroot : DT.getIDom DT.root = none) {bs bs1 : List BasicBlock} {i t T P : Nat}
    (h : EarlyStep F DT bs bs1 i t T P) {BB I : Nat} (hI : I ≠ i) (hBB : DT.inTree BB)
    {seen : List Nat} (hs : SeenOK DT bs BB I seen) : SeenOK DT bs1 BB I seen := by
  obtain ⟨hpi, hpo, -, -, -⟩ := moveBefore_getParent h.move
  have hpt : getParent bs t = some T := getTerminator_parent h.inv.located h.term
  rw [hpt] at hpi
  have tT : DT.inTree T := inTree_of_getParent h.inv.inTree hpt
  have tP : DT.inTree P := inTree_of_getParent h.inv.inTree h.parent
  intro x hx
  rcases hs x hx with ⟨is, his, hp⟩ | ⟨b, hb, hne, hdom⟩
  · by_cases e : x = i
    · right
      have hxP : getParent bs x = some BB :=
        getParent_of_blockInsts h.inv.located his (precedes_mem hp).1
      rw [e, h.parent] at hxP
      have ePB : P = BB := Option.some.inj hxP
      refine ⟨T, by rw [e]; exact hpi, by rw [← ePB]; exact h.ne, by rw [← ePB]; exact h.dom⟩
    · left
      have hk := moveBefore_keptSeq (fun y => decide (y ≠ i)) (by simp) h.move
      exact (precedesIn_iff_of_keptSeq (fun y => decide (y ≠ i)) bs bs1 hk BB x I
        (by simpa using e) (by simpa using hI)).mpr ⟨is, his, hp⟩
  · right
    by_cases e : x = i
    · rw [e, h.parent] at hb
      have ePb : P = b := Option.some.inj hb
      rw [← ePb] at hne hdom
      refine ⟨T, by rw [e]; exact hpi, ?_, domChain_trans DT hroot hBB h.dom hdom⟩
      intro eT
      rw [eT] at tT
      have hBP : BB ∈ DT.domChain P := by rw [← eT]; exact h.dom
      exact hne (domChain_antisymm DT hroot tP hBB hdom hBP)
    · exact ⟨b, by rw [hpo x e]; exact hb, hne, hdom⟩

theorem earlyMoved_seenOK {F : Function} {DT : DominatorTree}
    (hroot : DT.getIDom DT.root = none) {bs bs1 : List BasicBlock}
    (h : EarlyMoved F DT bs bs1) {BB I : Nat} (hI : F.pinned I = true) (hBB : DT.inTree BB)
    {seen : List Nat} (hs : SeenOK DT bs BB I seen) : SeenOK DT bs1 BB I seen := by
  induction h with
  | refl => exact hs
  | @step _ _ i _ _ _ _ hst ih =>
    refine earlyStep_seenOK hroot hst ?_ hBB ih
    intro e
    have := hst.movable
    rw [← e, hI] at this
    cases this

theorem length_le_of_nodup_subset {l L : List Nat} (hnd : l.Nodup) (h : ∀ x ∈ l, x ∈ L) :
    l.length ≤ L.length :=
  (List.subperm_of_subset hnd h).length_le

/-- The instruction loop of the early phase over one block returns: it runs on pairwise
different instructions, so fuel for the instructions of the function suffices although the
body moves instructions into the block and out of it. -/
theorem forInsts_early_total (F : Function) (DT : DominatorTree)
    (hroot : DT.getIDom DT.root = none) (m : List (Nat × Nat)) (hm : DepthOK DT m)
    (fuelB : Nat) (hfb : F.insts.length + 1 ≤ fuelB) (BB : Nat) :
    ∀ (fuel : Nat) (cur : Option Nat) (s : GCMState) (seen : List Nat),
      RunInv F DT s.blocks → s.dominatorTreeDepth = m → seen.Nodup →
      (∀ x ∈ seen, x ∈ allInsts s.blocks) →
      (∀ I, cur = some I → I ∉ seen ∧ getParent s.blocks I = some BB ∧
        SeenOK DT s.blocks BB I seen) →
      (allInsts s.blocks).length + 1 ≤ fuel + seen.length →
      ∃ s1, forInsts (earlyBody F DT fuelB) BB fuel cur s = .ok s1 ∧
        RunInv F DT s1.blocks ∧ s1.dominatorTreeDepth = m ∧
        EarlyMoved F DT s.blocks s1.blocks := by
  intro fuel
  induction fuel with
  | zero =>
    intro cur s seen _ _ hnd hsub _ hf
    have := length_le_of_nodup_subset hnd hsub
    omega
  | succ f ih =>
    intro cur s seen hinv hd hnd hsub hcur hf
    cases cur with
    | none => exact ⟨s, rfl, hinv, hd, EarlyMoved.refl _⟩
    | some I =>
      obtain ⟨hIn, hIp, hseen⟩ := hcur I rfl
      obtain ⟨s1, hb⟩ := earlyBody_total F DT hroot m hm fuelB hfb I s hinv hd
      obtain ⟨inv1, hd1, mv1, hstay⟩ := earlyBody_moved F DT hroot m hm fuelB I s s1 hinv hd hb
      have hperm := earlyMoved_perm mv1 hinv.nodup
      have hBB : DT.inTree BB := inTree_of_getParent hinv.layout.inTree hIp
      have hseen1 : SeenOK DT s1.blocks BB I seen := by
        cases hp : F.pinned I with
        | true => exact earlyMoved_seenOK hroot mv1 hp hBB hseen
        | false => rw [hstay hp]; exact hseen
      have hImem : I ∈ allInsts s.blocks := mem_allInsts_of_getParent hIp
      have hsub1 : ∀ x ∈ I :: seen, x ∈ allInsts s1.blocks := by
        intro x hx
        apply hperm.symm.subset
        rcases List.mem_cons.mp hx with e | e
        · rw [e]; exact hImem
        · exact hsub x e
      have hlen1 : (allInsts s1.blocks).length = (allInsts s.blocks).length := hperm.length_eq
      obtain ⟨s2, h2, inv2, hd2, mv2⟩ := ih ((blockInsts s1.blocks BB).bind (nextIn I)) s1
        (I :: seen) inv1 hd1 (List.nodup_cons.mpr ⟨hIn, hnd⟩) hsub1 (by
          intro J hJ
          obtain ⟨is1, his1, hnx⟩ := Option.bind_eq_some.mp hJ
          obtain ⟨pre, rest, hsplit, hpre⟩ := nextIn_some hnx
          have hnd1 : is1.Nodup := blockInsts_nodup inv1.nodup his1
          have hJp : getParent s1.blocks J = some BB :=
            getParent_of_blockInsts inv1.layout.located his1 (by rw [hsplit]; simp)
          have hsJ : SeenOK DT s1.blocks BB J (I :: seen) := by
            intro x hx
            rcases List.mem_cons.mp hx with e | e
            · left
              rw [e]
              exact ⟨is1, his1, pre, [], rest, by rw [hsplit]; rfl⟩
            · rcases hseen1 x e with ⟨is2, his2, l1, l2, l3, hl⟩ | hr
              · left
                rw [his1] at his2
                cases his2
                have hnot : I ∉ l1 ++ x :: l2 := by
                  intro hm
                  rw [hl] at hnd1
                  have h3 : (l1 ++ x :: (l2 ++ I :: l3)) = (l1 ++ x :: l2) ++ I :: l3 := by simp
                  rw [h3] at hnd1
                  exact (List.nodup_append.mp hnd1).2.2 hm (List.mem_cons_self _ _)
                have h4 : nextIn I ((l1 ++ x :: l2) ++ I :: l3) = l3.head? :=
                  nextIn_append I _ _ hnot
                have h3 : is1 = (l1 ++ x :: l2) ++ I :: l3 := by rw [hl]; simp
                rw [h3, h4] at hnx
                cases l3 with
                | nil => simp at hnx
                | cons c l4 =>
                  simp only [List.head?_cons, Option.some.injEq] at hnx
                  refine ⟨is1, his1, l1, l2 ++ [I], l4, ?_⟩
                  rw [hl, hnx]
                  simp
              · exact Or.inr hr
          refine ⟨?_, hJp, hsJ⟩
          intro hJm
          rcases hsJ J hJm with ⟨is2, his2, hp⟩ | ⟨b, hb2, hne, -⟩
          · rw [his1] at his2
            cases his2
            exact precedes_ne hnd1 hp rfl
          · rw [hJp] at hb2
            exact hne (Option.some.inj hb2).symm)
        (by simp only [List.length_cons]; omega)
      refine ⟨s2, ?_, inv2, hd2, earlyMoved_trans mv1 mv2⟩
      simp only [forInsts, hb]
      exact h2

theorem forBlocks_early_total (F : Function) (DT : DominatorTree)
    (hroot : DT.getIDom DT.root = none) (m : List (Nat × Nat)) (hm : DepthOK DT m)
    (fuel : Nat) (hfb : F.insts.length + 1 ≤ fuel) :
    ∀ (bl : List Nat) (s : GCMState), RunInv F DT s.blocks → s.dominatorTreeDepth = m →
      (allInsts s.blocks).length + 1 ≤ fuel →
      ∃ s1, forBlocks (earlyBody F DT fuel) fuel bl s = .ok s1 ∧
        RunInv F DT s1.blocks ∧ s1.dominatorTreeDepth = m ∧
        EarlyMoved F DT s.blocks s1.blocks := by
  intro bl
  induction bl with
  | nil => intro s hinv hd _; exact ⟨s, rfl, hinv, hd, EarlyMoved.refl _⟩
  | cons BB rest ih =>
    intro s hinv hd hf
    obtain ⟨s1, h1, inv1, hd1, mv1⟩ := forInsts_early_total F DT hroot m hm fuel hfb BB fuel
      ((blockInsts s.blocks BB).bind List.head?) s [] hinv hd List.nodup_nil
      (fun x hx => by cases hx) (by
        intro I hI
        obtain ⟨is, his, hh⟩ := Option.bind_eq_some.mp hI
        refine ⟨by simp, ?_, fun x hx => by cases hx⟩
        exact getParent_of_blockInsts hinv.layout.located his (List.mem_of_mem_head? hh))
      (by simpa using hf)
    have hlen := (earlyMoved_perm mv1 hinv.nodup).length_eq
    obtain ⟨s2, h2, inv2, hd2, mv2⟩ := ih s1 inv1 hd1 (by omega)
    refine ⟨s2, ?_, inv2, hd2, earlyMoved_trans mv1 mv2⟩
    simp only [forBlocks, h1]
    exact h2

theorem block_length_le_allInsts : ∀ {bs : List BasicBlock} {X : BasicBlock}, X ∈ bs →
    X.insts.length ≤ (allInsts bs).length := by
  intro bs
  induction bs with
  | nil => intro X hX; cases hX
  | cons B rest ih =>
    intro X hX
    have h0 : allInsts (B :: rest) = B.insts ++ allInsts rest := by
      simp [allInsts, List.flatMap_cons]
    rw [h0, List.length_append]
    rcases List.mem_cons.mp hX with e | e
    · rw [e]; omega
    · have := ih e
      omega

/-- On a well-formed input, with fuel above the number of instructions and the size of the
dominator tree, `runOnFunction` returns: the annotation, the early phase and the late phase
complete. The blocks of the result are those the early phase leaves. -/
theorem runOnFunction_total (F : Function) (DT : DominatorTree) (LI : LoopInfo)
    (hroot : DT.getIDom DT.root = none)
    (hidoms : ∀ e ∈ DT.idoms, DT.getIDom e.1 = some e.2 ∧ DT.inTree e.1)
    (fuel : Nat) (s : GCMState) (hinv : RunInv F DT s.blocks)
    (hf1 : F.insts.length + 1 ≤ fuel) (hf2 : (allInsts s.blocks).length + 1 ≤ fuel)
    (hf3 : DT.idoms.length + 1 ≤ fuel) :
    ∃ m s2 s1, annotateBasicBlocks DT fuel DT.root 0 s.dominatorTreeDepth = .ok m ∧
      forBlocks (earlyBody F DT fuel) fuel (s.blocks.map (fun b => b.label))
        { s with dominatorTreeDepth := m } = .ok s2 ∧
      runOnFunction F DT LI fuel s = .ok s1 ∧ s1.blocks = s2.blocks ∧
      RunInv F DT s1.blocks ∧ EarlyMoved F DT s.blocks s1.blocks ∧
      ∀ K ∈ s1.visited, F.pinned K = true := by
  have hr : DT.inTree DT.root := self_mem_domChain DT DT.root
  have hrc : DT.domChain DT.root = [DT.root] := ((domChain_unfold DT hroot DT.root hr).1 hroot).2
  obtain ⟨m, hm1⟩ := annotateBasicBlocks_total DT hroot hidoms fuel DT.root 0
    s.dominatorTreeDepth hr (by rw [hrc]; simp; omega)
  have hm := annotateBasicBlocks_depthOK DT hroot hidoms fuel _ m hm1
  obtain ⟨s2, he, inv2, -, mv2⟩ := forBlocks_early_total F DT hroot m hm fuel hf1
    (s.blocks.map (fun b => b.label)) { s with dominatorTreeDepth := m } hinv rfl hf2
  have hlen := (earlyMoved_perm mv2 hinv.nodup).length_eq
  obtain ⟨s1, h1, h2, -, h4⟩ := late_phase_static F DT LI fuel
    (s2.blocks.map (fun b => b.label)) { s2 with visited := [] }
    (block_nodup_of_allInsts inv2.nodup)
    (fun X hX => by
      have h5 : X.insts.length ≤ (allInsts s2.blocks).length := block_length_le_allInsts hX
      have h6 : (allInsts s2.blocks).length = (allInsts s.blocks).length := hlen
      omega)
    (by omega)
  refine ⟨m, s2, s1, hm1, he, ?_, h2, by rw [h2]; exact inv2, by rw [h2]; exact mv2, ?_⟩
  · simp only [runOnFunction, hm1, he]
    exact h1
  · intro K hK
    rcases h4 K hK with e | e
    · cases e
    · exact e


theorem runInputCheck_spec {F : Function} {DT : DominatorTree} {bs : List BasicBlock}
    {fuel : Nat} (h : runInputCheck F DT bs fuel = true) : RunInput F DT bs fuel := by
  simp only [runInputCheck, Bool.and_eq_true, decide_eq_true_eq] at h
  obtain ⟨⟨⟨⟨h1, h2⟩, h3⟩, h4⟩, h5⟩ := h
  exact ⟨(treeCheck_spec h1).1, (treeCheck_spec h1).2, runCheck_spec h2, h3, h4, h5⟩

/-- On the inputs of `RunInput` the run returns. -/
theorem runOnFunction_returns (F : Function) (DT : DominatorTree) (LI : LoopInfo) (fuel : Nat)
    (s : GCMState) (h : RunInput F DT s.blocks fuel) :
    ∃ s1, runOnFunction F DT LI fuel s = .ok s1 := by
  obtain ⟨m, s2, s1, -, -, h1, -⟩ := runOnFunction_total F DT LI h.root h.idoms fuel s h.inv
    h.fuelInsts h.fuelBlocks h.fuelTree
  exact ⟨s1, h1⟩



/-! ## Properties of the run -/

/-- Claim C1 (pinned invariance). Whenever `runOnFunction` returns, every pinned operation
(phi, terminator, call, EH pad) is in the block it was in before the run, and two pinned
operations of one block are in the same relative order as before; as a call is pinned, it
stays in its block whatever its operands and consumers are. This holds for every function,
dominator tree and loop nest. On a well-formed input, with fuel above the number of
instructions and the size of the dominator tree, the run does return. -/
theorem pinned_invariance (F : Function) (DT : DominatorTree) (LI : LoopInfo) (fuel : Nat)
    (s : GCMState) :
    (∀ s1, runOnFunction F DT LI fuel s = .ok s1 →
      (∀ I, F.pinned I = true → getParent s1.blocks I = getParent s.blocks I) ∧
      (∀ b I J, F.pinned I = true → F.pinned J = true →
        (precedesIn s1.blocks b I J ↔ precedesIn s.blocks b I J)) ∧
      (∀ I, F.opcode I = Opcode.call → getParent s1.blocks I = getParent s.blocks I)) ∧
    (RunInput F DT s.blocks fuel → ∃ s1, runOnFunction F DT LI fuel s = .ok s1) := by
  refine ⟨?_, runOnFunction_returns F DT LI fuel s⟩
  intro s1 h
  have hk := runOnFunction_keptSeq F DT LI F.pinned ⟨fun _ _ _ h => h, fun _ h => Or.inl h⟩
    fuel s s1 h
  have h1 : ∀ I, F.pinned I = true → getParent s1.blocks I = getParent s.blocks I := by
    intro I hI
    rw [getParent_eq_of_keptSeq F.pinned I hI, getParent_eq_of_keptSeq F.pinned I hI, hk]
  refine ⟨h1, ?_, ?_⟩
  · intro b I J hI hJ
    exact precedesIn_iff_of_keptSeq F.pinned _ _ hk b I J hI hJ
  · intro I hI
    apply h1
    simp [Function.pinned, hI, isPinned, Opcode.isPHINode, Opcode.isTerminatorInst,
      Opcode.isCallInst]

/-- Witness of C1 on the loop example in the layout `exLoopN`: the run returns and moves the
`add`; the pinned instructions (the two calls and the terminators) keep their blocks and their
order. -/
theorem pinned_invariance_witness :
    runOnFunction exLoopF exLoopDT exLoopLI 10 exLoopN = .ok exLoopN1 ∧
    exLoopN1.blocks ≠ exLoopN.blocks ∧
    ((∀ I, exLoopF.pinned I = true →
        getParent exLoopN1.blocks I = getParent exLoopN.blocks I) ∧
      (∀ b I J, exLoopF.pinned I = true → exLoopF.pinned J = true →
        (precedesIn exLoopN1.blocks b I J ↔ precedesIn exLoopN.blocks b I J)) ∧
      (∀ I, exLoopF.opcode I = Opcode.call →
        getParent exLoopN1.blocks I = getParent exLoopN.blocks I)) ∧
    (∃ s1, runOnFunction exLoopF exLoopDT exLoopLI 10 exLoopN = .ok s1) :=
  ⟨by rfl, by decide,
    (pinned_invariance exLoopF exLoopDT exLoopLI 10 exLoopN).1 exLoopN1 (by rfl),
    (pinned_invariance exLoopF exLoopDT exLoopLI 10 exLoopN).2
      (runInputCheck_spec (by decide))⟩

/-- Claim C2 (dominance soundness of the whole pass). On a well-formed input (a dominator tree
whose entries reach the root, every instruction in one block of the tree, and the block of
every instruction operand of a non-phi instruction dominating the block of that instruction),
whenever `runOnFunction` returns, the block of every movable operation is dominated by the
block of each of its operation-typed operands. When moreover every operand is in a block,
every block ends with a terminator, the root is a block, labels and instructions are distinct
and the fuel exceeds the number of instructions and the size of the tree, the run does
return. -/
theorem operand_dominance (F : Function) (DT : DominatorTree) (LI : LoopInfo) (fuel : Nat)
    (s : GCMState) (hroot : DT.getIDom DT.root = none)
    (hidoms : ∀ e ∈ DT.idoms, DT.getIDom e.1 = some e.2 ∧ DT.inTree e.1)
    (hinv : LayoutInv F DT s.blocks) :
    (∀ s1, runOnFunction F DT LI fuel s = .ok s1 →
      ∀ I J bI, F.pinned I = false → Value.inst J ∈ F.operands I →
        getParent s1.blocks I = some bI →
        ∃ bJ, getParent s1.blocks J = some bJ ∧ DT.dominates bJ bI = true) ∧
    (RunInput F DT s.blocks fuel → ∃ s1, runOnFunction F DT LI fuel s = .ok s1) := by
  refine ⟨?_, runOnFunction_returns F DT LI fuel s⟩
  intro s1 h I J bI hI hJ hpar
  obtain ⟨bJ, h1, h2⟩ := (runOnFunction_moved F DT LI hroot hidoms fuel s s1 hinv h).2.dom I J bI
    (isPHINode_of_not_pinned hI) hJ hpar
  exact ⟨bJ, h1, (dominates_iff DT bJ bI).mpr h2⟩

/-- Witness of C2 on the loop example: the run returns and moves the `add` 2 from the loop body
3 into block 1, the block of its operand, the call 1. -/
theorem operand_dominance_witness :
    runOnFunction exLoopF exLoopDT exLoopLI 10 exLoopN = .ok exLoopN1 ∧
    getParent exLoopN.blocks 2 = some 3 ∧ getParent exLoopN1.blocks 2 = some 1 ∧
    (∃ bJ, getParent exLoopN1.blocks 1 = some bJ ∧ exLoopDT.dominates bJ 1 = true) ∧
    (∃ s1, runOnFunction exLoopF exLoopDT exLoopLI 10 exLoopN = .ok s1) :=
  ⟨by rfl, by rfl, by rfl,
    (operand_dominance exLoopF exLoopDT exLoopLI 10 exLoopN
      (treeCheck_spec (by decide)).1 (treeCheck_spec (by decide)).2
      (layoutCheck_spec _ _ _ (by decide))).1 exLoopN1 (by rfl) 2 1 1 (by rfl) (by decide)
      (by rfl),
    (operand_dominance exLoopF exLoopDT exLoopLI 10 exLoopN
      (treeCheck_spec (by decide)).1 (treeCheck_spec (by decide)).2
      (layoutCheck_spec _ _ _ (by decide))).2 (runInputCheck_spec (by decide))⟩

/-- Claim C3 (use-dominance for ordinary consumers). On a well-formed input, whenever
`runOnFunction` returns, the final block of every movable operation `I` dominates the final
block of every consumer `U` of `I` (an instruction that holds `I` as an operand) that is no
phi. On the inputs of `RunInput` the run does return. -/
theorem use_dominance (F : Function) (DT : DominatorTree) (LI : LoopInfo) (fuel : Nat)
    (s : GCMState) (hroot : DT.getIDom DT.root = none)
    (hidoms : ∀ e ∈ DT.idoms, DT.getIDom e.1 = some e.2 ∧ DT.inTree e.1)
    (hinv : LayoutInv F DT s.blocks) :
    (∀ s1, runOnFunction F DT LI fuel s = .ok s1 →
      ∀ I U bU, F.pinned I = false → Value.inst I ∈ F.operands U →
        (F.opcode U).isPHINode = false → getParent s1.blocks U = some bU →
        ∃ bI, getParent s1.blocks I = some bI ∧ DT.dominates bI bU = true) ∧
    (RunInput F DT s.blocks fuel → ∃ s1, runOnFunction F DT LI fuel s = .ok s1) := by
  refine ⟨?_, runOnFunction_returns F DT LI fuel s⟩
  intro s1 h I U bU _ hU hphi hpar
  obtain ⟨bI, h1, h2⟩ :=
    (runOnFunction_moved F DT LI hroot hidoms fuel s s1 hinv h).2.dom U I bU hphi hU hpar
  exact ⟨bI, h1, (dominates_iff DT bI bU).mpr h2⟩

/-- Witness of C3 on the loop example: after the run the `add` 2 is in block 1, which dominates
the loop body 3 that holds its consumer, the call 3. -/
theorem use_dominance_witness :
    runOnFunction exLoopF exLoopDT exLoopLI 10 exLoopN = .ok exLoopN1 ∧
    exLoopF.users 2 = [3] ∧ getParent exLoopN1.blocks 3 = some 3 ∧
    (∃ bI, getParent exLoopN1.blocks 2 = some bI ∧ exLoopDT.dominates bI 3 = true) ∧
    (∃ s1, runOnFunction exLoopF exLoopDT exLoopLI 10 exLoopN = .ok s1) :=
  ⟨by rfl, by rfl, by rfl,
    (use_dominance exLoopF exLoopDT exLoopLI 10 exLoopN
      (treeCheck_spec (by decide)).1 (treeCheck_spec (by decide)).2
      (layoutCheck_spec _ _ _ (by decide))).1 exLoopN1 (by rfl) 2 3 3 (by rfl) (by decide)
      (by rfl) (by rfl),
    (use_dominance exLoopF exLoopDT exLoopLI 10 exLoopN
      (treeCheck_spec (by decide)).1 (treeCheck_spec (by decide)).2
      (layoutCheck_spec _ _ _ (by decide))).2 (runInputCheck_spec (by decide))⟩

/-- Claim C4 (use-dominance for phi consumers). On a well-formed input (as for C2, and the
block of every definition dominating the predecessor block of each phi operand slot that holds
it), whenever `runOnFunction` returns, for every movable operation `I` and every operand
slot of every phi that holds `I`, the final block of `I` dominates the predecessor block `b`
associated with that slot; a phi that holds `I` in several slots has one pair `(I, b)` per
slot. On the inputs of `RunInput` the run does return. -/
theorem phi_use_dominance (F : Function) (DT : DominatorTree) (LI : LoopInfo) (fuel : Nat)
    (s : GCMState) (hroot : DT.getIDom DT.root = none)
    (hidoms : ∀ e ∈ DT.idoms, DT.getIDom e.1 = some e.2 ∧ DT.inTree e.1)
    (hinv : LayoutInv F DT s.blocks) (hphi : DomPhi F DT s.blocks) :
    (∀ s1, runOnFunction F DT LI fuel s = .ok s1 →
      ∀ I U b, F.pinned I = false → (F.opcode U).isPHINode = true →
        (Value.inst I, b) ∈ (F.operands U).zip (F.inst U).incoming →
        ∃ bI, getParent s1.blocks I = some bI ∧ DT.dominates bI b = true) ∧
    (RunInput F DT s.blocks fuel → ∃ s1, runOnFunction F DT LI fuel s = .ok s1) := by
  refine ⟨?_, runOnFunction_returns F DT LI fuel s⟩
  intro s1 h I U b _ hU hz
  have hmv := (runOnFunction_moved F DT LI hroot hidoms fuel s s1 hinv h).1
  obtain ⟨-, bI, h1, h2⟩ := earlyMoved_domPhi hroot hmv hphi U I b hU hz
  exact ⟨bI, h1, (dominates_iff DT bI b).mpr h2⟩

/-- Witness of C4 on the diamond example: the phi 3 holds the `add` 2 in both slots; the run
returns and moves the `add` into the entry block, which dominates both incoming blocks. -/
theorem phi_use_dominance_witness :
    runOnFunction exPhiF exPhiDT ⟨[]⟩ 10 exPhiN = .ok exPhiN1 ∧
    exPhiF.operands 3 = [.inst 2, .inst 2] ∧ (exPhiF.inst 3).incoming = [2, 3] ∧
    getParent exPhiN.blocks 2 = some 1 ∧ getParent exPhiN1.blocks 2 = some 0 ∧
    (∃ bI, getParent exPhiN1.blocks 2 = some bI ∧ exPhiDT.dominates bI 2 = true) ∧
    (∃ bI, getParent exPhiN1.blocks 2 = some bI ∧ exPhiDT.dominates bI 3 = true) ∧
    (∃ s1, runOnFunction exPhiF exPhiDT ⟨[]⟩ 10 exPhiN = .ok s1) :=
  ⟨by rfl, by rfl, by rfl, by rfl, by rfl,
    (phi_use_dominance exPhiF exPhiDT ⟨[]⟩ 10 exPhiN
      (treeCheck_spec (by decide)).1 (treeCheck_spec (by decide)).2
      (layoutCheck_spec _ _ _ (by decide)) (phiCheck_spec (by decide))).1 exPhiN1 (by rfl)
      2 3 2 (by rfl) (by rfl) (by decide),
    (phi_use_dominance exPhiF exPhiDT ⟨[]⟩ 10 exPhiN
      (treeCheck_spec (by decide)).1 (treeCheck_spec (by decide)).2
      (layoutCheck_spec _ _ _ (by decide)) (phiCheck_spec (by decide))).1 exPhiN1 (by rfl)
      2 3 3 (by rfl) (by rfl) (by decide),
    (phi_use_dominance exPhiF exPhiDT ⟨[]⟩ 10 exPhiN
      (treeCheck_spec (by decide)).1 (treeCheck_spec (by decide)).2
      (layoutCheck_spec _ _ _ (by decide)) (phiCheck_spec (by decide))).2
      (runInputCheck_spec (by decide))⟩

/-- C7, amended: in a function whose use lists record every operand use, whenever
`runOnFunction` returns, every operation that is pinned (calls and invokes, the
side-effecting operations the classifier recognises, among them) or has no consumer (a store)
is in the block it was in, in the same relative order to the other such operations of its
block. Nothing is said of loads and other value-producing memory operations: they are moved
like any movable operation. On the inputs of `RunInput` the run does return. -/
theorem anchored_invariance (F : Function) (DT : DominatorTree) (LI : LoopInfo) (fuel : Nat)
    (s : GCMState)
    (huse : ∀ U J, Value.inst J ∈ F.operands U → F.users J ≠ []) :
    (∀ s1, runOnFunction F DT LI fuel s = .ok s1 →
      (∀ I, F.anchored I = true → getParent s1.blocks I = getParent s.blocks I) ∧
      (∀ b I J, F.anchored I = true → F.anchored J = true →
        (precedesIn s1.blocks b I J ↔ precedesIn s.blocks b I J))) ∧
    (RunInput F DT s.blocks fuel → ∃ s1, runOnFunction F DT LI fuel s = .ok s1) := by
  refine ⟨?_, runOnFunction_returns F DT LI fuel s⟩
  intro s1 h
  have hok : KeepOK F F.anchored := by
    constructor
    · intro U J hJ hk
      unfold Function.anchored at hk
      cases hp : F.pinned J
      · rw [hp] at hk
        simp only [Bool.false_or, List.isEmpty_iff] at hk
        exact absurd hk (huse U J hJ)
      · rfl
    · intro I hk
      unfold Function.anchored at hk
      cases hp : F.pinned I
      · rw [hp] at hk
        simp only [Bool.false_or, List.isEmpty_iff] at hk
        exact Or.inr hk
      · exact Or.inl rfl
  have hk := runOnFunction_keptSeq F DT LI F.anchored hok fuel s s1 h
  constructor
  · intro I hI
    rw [getParent_eq_of_keptSeq F.anchored I hI, getParent_eq_of_keptSeq F.anchored I hI, hk]
  · intro b I J hI hJ
    exact precedesIn_iff_of_keptSeq F.anchored _ _ hk b I J hI hJ

/-- Witness of the amended C7 on `exMemF`: the run returns and moves the load; the store and
the terminators stay. -/
theorem anchored_invariance_witness :
    runOnFunction exMemF exMemDT ⟨[]⟩ 10 exMemS = .ok exMemS1 ∧
    exMemF.anchored 1 = true ∧
    ((∀ I, exMemF.anchored I = true →
        getParent exMemS1.blocks I = getParent exMemS.blocks I) ∧
      (∀ b I J, exMemF.anchored I = true → exMemF.anchored J = true →
        (precedesIn exMemS1.blocks b I J ↔ precedesIn exMemS.blocks b I J))) ∧
    (∃ s1, runOnFunction exMemF exMemDT ⟨[]⟩ 10 exMemS = .ok s1) :=
  ⟨by rfl, by rfl,
    (anchored_invariance exMemF exMemDT ⟨[]⟩ 10 exMemS
      (usesRecorded_spec exMemF (by decide))).1 exMemS1 (by rfl),
    (anchored_invariance exMemF exMemDT ⟨[]⟩ 10 exMemS
      (usesRecorded_spec exMemF (by decide))).2 (runInputCheck_spec (by decide))⟩

/-- Claim C17 (block well-formedness is preserved). If before `runOnFunction` every block
consists of its phis first, then operations that are neither phi nor terminator, then exactly
one terminator as last operation, and every operation is in exactly one place, then whenever
the run returns every block has that shape again, the operations of the function are the same
ones, each still in exactly one place (none lost, none duplicated), and every block has the
label and the last operation, its terminator, that it had before. The operand and use edges
are the fields `operands` and `users` of the function `F`, which the run takes as input and
does not change: the only mutation of the pass is `moveBefore` on the block lists. On the
inputs of `RunInput` the run does return. -/
theorem wellformedness_preserved (F : Function) (DT : DominatorTree) (LI : LoopInfo)
    (fuel : Nat) (s : GCMState)
    (hshape : ∀ X ∈ s.blocks, BlockShape F X.insts) (hnd : (allInsts s.blocks).Nodup) :
    (∀ s1, runOnFunction F DT LI fuel s = .ok s1 →
      (∀ X ∈ s1.blocks, BlockShape F X.insts) ∧
      (allInsts s1.blocks).Perm (allInsts s.blocks) ∧ (allInsts s1.blocks).Nodup ∧
      lastInsts s1.blocks = lastInsts s.blocks ∧
      (∀ X ∈ s1.blocks, ∃ t, X.insts.getLast? = some t ∧
        (F.opcode t).isTerminatorInst = true)) ∧
    (RunInput F DT s.blocks fuel → ∃ s1, runOnFunction F DT LI fuel s = .ok s1) := by
  refine ⟨?_, runOnFunction_returns F DT LI fuel s⟩
  intro s1 h
  have hok : KeepOK F F.pinned := ⟨fun _ _ _ hk => hk, fun _ hk => Or.inl hk⟩
  have hrel := runOnFunction_relocated F DT LI F.pinned hok fuel s s1 h
  obtain ⟨h1, h2, h3⟩ := relocated_wellformed hrel hshape hnd
  exact ⟨h1, h2, h2.nodup_iff.mpr hnd, h3, termOK_of_shape h1⟩

/-- Witness of C17 on the loop example in the layout `exLoopN`: the run returns and moves the
`add`. -/
theorem wellformedness_preserved_witness :
    runOnFunction exLoopF exLoopDT exLoopLI 10 exLoopN = .ok exLoopN1 ∧
    exLoopN1.blocks ≠ exLoopN.blocks ∧
    ((∀ X ∈ exLoopN1.blocks, BlockShape exLoopF X.insts) ∧
      (allInsts exLoopN1.blocks).Perm (allInsts exLoopN.blocks) ∧
      (allInsts exLoopN1.blocks).Nodup ∧
      lastInsts exLoopN1.blocks = lastInsts exLoopN.blocks ∧
      (∀ X ∈ exLoopN1.blocks, ∃ t, X.insts.getLast? = some t ∧
        (exLoopF.opcode t).isTerminatorInst = true)) ∧
    (∃ s1, runOnFunction exLoopF exLoopDT exLoopLI 10 exLoopN = .ok s1) :=
  ⟨by rfl, by decide,
    (wellformedness_preserved exLoopF exLoopDT exLoopLI 10 exLoopN
      (wellFormedCheck_spec (by decide)).1
      (wellFormedCheck_spec (F := exLoopF) (by decide)).2).1 exLoopN1 (by rfl),
    (wellformedness_preserved exLoopF exLoopDT exLoopLI 10 exLoopN
      (wellFormedCheck_spec (by decide)).1
      (wellFormedCheck_spec (F := exLoopF) (by decide)).2).2 (runInputCheck_spec (by decide))⟩

/-- Claim C18 (definition before use inside a block). On a well-formed input, in which every
movable operation precedes the consumers that share its block, the same holds whenever
`runOnFunction` returns: every movable operation `I` precedes, in the sequence of its block
`b`, every consumer `U` of `I` (an instruction that holds `I` as an operand) that is no phi
and is located in `b`, whatever the order of the use list of `I`. A call of `scheduleLate`
that returns leaves every block sequence as it was, so the operation it was called on is in
front of its consumers afterwards as it was before; the relocations of the run are those of
the early phase. On the inputs of `RunInput` the run does return. -/
theorem definition_before_use (F : Function) (DT : DominatorTree) (LI : LoopInfo) (fuel : Nat)
    (s : GCMState) (hroot : DT.getIDom DT.root = none)
    (hidoms : ∀ e ∈ DT.idoms, DT.getIDom e.1 = some e.2 ∧ DT.inTree e.1)
    (hinv : LayoutInv F DT s.blocks)
    (hlab : (s.blocks.map (fun B => B.label)).Nodup) (hnd : (allInsts s.blocks).Nodup)
    (hdf : DefFirst F s.blocks) :
    (∀ s1, runOnFunction F DT LI fuel s = .ok s1 →
      ∀ I U b, F.pinned I = false → (F.opcode U).isPHINode = false →
        Value.inst I ∈ F.operands U → getParent s1.blocks I = some b →
        getParent s1.blocks U = some b → precedesIn s1.blocks b I U) ∧
    (∀ fuel2 I t t1, scheduleLate F DT LI fuel2 I t = .ok t1 →
      t1.blocks = t.blocks ∧ (DefFirst F t.blocks → DefFirst F t1.blocks)) ∧
    (RunInput F DT s.blocks fuel → ∃ s1, runOnFunction F DT LI fuel s = .ok s1) := by
  refine ⟨fun s1 h => (earlyMoved_defFirst hroot
    (runOnFunction_moved F DT LI hroot hidoms fuel s s1 hinv h).1 hlab hnd hdf).2.2, ?_,
    runOnFunction_returns F DT LI fuel s⟩
  intro fuel2 I t t1 hs
  have hb : t1.blocks = t.blocks := by
    rcases scheduleLate_blocks F DT LI fuel2 I t t1 hs with e | ⟨-, e⟩
    · rw [e]
    · rw [e]; rfl
  exact ⟨hb, fun hd => by rw [hb]; exact hd⟩

/-- Witness of C18 on `exChainF`: the run returns and moves the `add` 2 and the `mul` 3 into
the entry block, where the `add` is in front of the `mul`; a call of `scheduleLate` on the
`add` in the initial blocks, where its consumers 4 and 3 share its block and the first of the
use list is the later one, returns with the blocks as they were. -/
theorem definition_before_use_witness :
    runOnFunction exChainF exChainDT ⟨[]⟩ 10 exChainS = .ok exChainS1 ∧
    exChainF.users 2 = [4, 3] ∧
    scheduleLate exChainF exChainDT ⟨[]⟩ 10 2 ⟨exChainS.blocks, [(1, 1), (0, 0)], []⟩
      = .ok ⟨exChainS.blocks, [(1, 1), (0, 0)], [2]⟩ ∧
    precedesIn exChainS1.blocks 0 2 3 ∧
    (∀ I U b, exChainF.pinned I = false → (exChainF.opcode U).isPHINode = false →
      Value.inst I ∈ exChainF.operands U → getParent exChainS1.blocks I = some b →
      getParent exChainS1.blocks U = some b → precedesIn exChainS1.blocks b I U) ∧
    (∃ s1, runOnFunction exChainF exChainDT ⟨[]⟩ 10 exChainS = .ok s1) :=
  ⟨by rfl, by rfl, by rfl, ⟨[0, 2, 3, 1], by rfl, [0], [], [1], by rfl⟩,
    (definition_before_use exChainF exChainDT ⟨[]⟩ 10 exChainS
      (treeCheck_spec (by decide)).1 (treeCheck_spec (by decide)).2
      (layoutCheck_spec _ _ _ (by decide)) (by decide) (by decide)
      (defFirstCheck_spec (by decide) (by decide))).1 exChainS1 (by rfl),
    (definition_before_use exChainF exChainDT ⟨[]⟩ 10 exChainS
      (treeCheck_spec (by decide)).1 (treeCheck_spec (by decide)).2
      (layoutCheck_spec _ _ _ (by decide)) (by decide) (by decide)
      (defFirstCheck_spec (by decide) (by decide))).2.2 (runInputCheck_spec (by decide))⟩

theorem lateUseLoop_self_ok (F : Function) (DT : DominatorTree)
    (rec : Nat → GCMState → Except Fault GCMState) (I B : Nat)
    (hphi : (F.opcode I).isPHINode = false)
    (hrec : ∀ t, I ∈ t.visited → rec I t = .ok t) :
    ∀ (us : List Nat), (∀ u ∈ us, u = I) → ∀ (lca : Option Nat) (s : GCMState),
      I ∈ s.visited → getParent s.blocks I = some B → (lca = none ∨ lca = some B) →
      lateUseLoop F DT rec I us lca s = .ok (if us = [] then lca else some B, s) := by
  intro us
  induction us with
  | nil => intro _ lca s _ _ _; rfl
  | cons u rest ih =>
    intro hus lca s hv hB hl
    have hu : u = I := hus u (List.mem_cons_self _ _)
    have hub : useBlockOf F s.blocks I I = some B := by
      unfold useBlockOf
      rw [hphi]
      exact hB
    have hrest := ih (fun x hx => hus x (List.mem_cons_of_mem _ hx)) (some B) s hv hB
      (Or.inr rfl)
    have hres : lateUseLoop F DT rec I rest (some B) s = .ok (some B, s) := by
      rw [hrest]
      split <;> rfl
    rw [hu]
    simp only [lateUseLoop, hrec s hv, hub]
    rcases hl with e | e
    · rw [e]
      simp only [hres]
      simp
    · rw [e]
      simp only [findLCA_self, hres]
      simp

theorem scheduleLate_returns_step (F : Function) (DT : DominatorTree) (LI : LoopInfo)
    (f I B : Nat) (s : GCMState)
    (hrec : ∀ t, I ∈ t.visited → scheduleLate F DT LI f I t = .ok t)
    (hvis : s.isVisited I = false)
    (hphi : (F.opcode I).isPHINode = false) (huse : F.users I ≠ [])
    (hB : getParent s.blocks I = some B) :
    scheduleLate F DT LI (f + 1) I s = .ok (s.markVisited I) := by
  have hne : F.derefUses I ≠ [] := fun h => huse (derefUses_eq_nil.mp h)
  have hloop := lateUseLoop_self_ok F DT (scheduleLate F DT LI f) I B hphi hrec
    (F.derefUses I) (fun u hu => mem_derefUses hu) none (s.markVisited I)
    (List.mem_cons_self _ _) hB (Or.inl rfl)
  rw [if_neg hne] at hloop
  have hB2 : getParent (s.markVisited I).blocks I = some B := hB
  simp only [scheduleLate, hvis, Bool.false_eq_true, if_false, hloop, hB2, lateWalk, if_true]
  unfold latePlace lateAnchor
  cases hp : F.pinned I with
  | true =>
    have : (F.derefUses I).find? (fun _ => false) = none := by
      apply List.find?_eq_none.mpr
      intro x _
      simp
    simp [this]
  | false =>
    obtain ⟨u, rest, hur⟩ := List.exists_cons_of_ne_nil hne
    have hu : u = I := mem_derefUses (by rw [hur]; exact List.mem_cons_self _ _)
    rw [hur, hu]
    simp only [List.find?_cons, hB2, hphi, Bool.not_false, Bool.and_self, beq_self_eq_true]
    simp only [moveBefore, hB2, if_true]

/-- A call of `scheduleLate` on an unmarked operation that is no phi, is in a block and has a
use returns, with the operation marked and nothing relocated: every use yields the operation
itself, the use-LCA is its own block, the walk does not start, and the relocation, if any, is
that of the operation in front of itself. -/
theorem scheduleLate_returns (F : Function) (DT : DominatorTree) (LI : LoopInfo)
    (fuel I B : Nat) (s : GCMState) (hvis : s.isVisited I = false)
    (hphi : (F.opcode I).isPHINode = false) (huse : F.users I ≠ [])
    (hB : getParent s.blocks I = some B) :
    scheduleLate F DT LI (fuel + 2) I s = .ok (s.markVisited I) :=
  scheduleLate_returns_step F DT LI (fuel + 1) I B s
    (fun t ht => scheduleLate_visited F DT LI fuel I t ht) hvis hphi huse hB


/-- Claim C16 (termination). On a finite function, whatever its operand and use graph (cycles
through phis included), `scheduleEarly` and `scheduleLate` terminate on every operation: with
fuel for the unvisited instructions (and, for `scheduleLate` on a dominator tree, for the walk
up the tree) they never run out of fuel, so a call returns or faults. The body marks its
operation visited before it recurses, which strictly decreases the number of unvisited
instructions, and a call never increases it; `scheduleLate` re-enters itself only on the
operation it has just marked, and that call returns at the visited check. On a well-formed
layout with the depths annotated `scheduleEarly` returns on every operation that is in a
block. `scheduleLate` returns on every marked operation, and on every unmarked operation that
is no phi, is in a block and has a use: there the use-LCA is the block of the operation
itself, which is the case the proviso of the claim asks for. -/
theorem scheduling_terminates (F : Function) (DT : DominatorTree) (LI : LoopInfo)
    (hroot : DT.getIDom DT.root = none)
    (hidoms : ∀ e ∈ DT.idoms, DT.getIDom e.1 = some e.2 ∧ DT.inTree e.1) :
    (∀ fuel I s, unvisitedCount F s + 1 ≤ fuel →
      scheduleEarly F DT fuel I s ≠ .error .outOfFuel) ∧
    (∀ fuel I s, unvisitedCount F s + DT.idoms.length + 1 ≤ fuel →
      scheduleLate F DT LI fuel I s ≠ .error .outOfFuel) ∧
    (∀ I s, I < F.insts.length → s.isVisited I = false →
      unvisitedCount F (s.markVisited I) < unvisitedCount F s) ∧
    (∀ fuel I s s1, scheduleEarly F DT fuel I s = .ok s1 →
      unvisitedCount F s1 ≤ unvisitedCount F s) ∧
    (∀ fuel I s s1, scheduleLate F DT LI fuel I s = .ok s1 →
      unvisitedCount F s1 ≤ unvisitedCount F s) ∧
    (∀ I UI, UI ∈ F.derefUses I → UI = I) ∧
    (∀ fuel I t, I ∈ t.visited → scheduleLate F DT LI (fuel + 1) I t = .ok t) ∧
    (∀ fuel I s, DepthOK DT s.dominatorTreeDepth → RunInv F DT s.blocks →
      (∃ b, getParent s.blocks I = some b) → unvisitedCount F s + 1 ≤ fuel →
      ∃ s1, scheduleEarly F DT fuel I s = .ok s1) ∧
    (∀ fuel I B s, s.isVisited I = false → (F.opcode I).isPHINode = false →
      F.users I ≠ [] → getParent s.blocks I = some B →
      scheduleLate F DT LI (fuel + 2) I s = .ok (s.markVisited I)) := by
  refine ⟨scheduleEarly_no_timeout F DT, scheduleLate_no_timeout F DT LI hroot hidoms, ?_, ?_, ?_,
    fun I UI h => mem_derefUses h, fun fuel I t h => scheduleLate_visited F DT LI fuel I t h,
    fun fuel I s hm hinv hI hf =>
      scheduleEarly_total F DT hroot _ hm fuel I s hinv rfl hI hf,
    fun fuel I B s h1 h2 h3 h4 => scheduleLate_returns F DT LI fuel I B s h1 h2 h3 h4⟩
  · intro I s hI hv
    have hIv : I ∉ s.visited := by simpa [GCMState.isVisited] using hv
    have := unvisitedCount_mark F s I hI hIv
    omega
  · intro fuel I s s1 h
    obtain ⟨W, hW, -, -⟩ := scheduleEarly_memo F DT fuel I s s1 h
    exact unvisitedCount_mono F (memoLog_subset hW)
  · intro fuel I s s1 h
    obtain ⟨W, hW, -, -⟩ := scheduleLate_memo F DT LI fuel I s s1 h
    exact unvisitedCount_mono F (memoLog_subset hW)

/-- Witness of C16 on `exCycF`, where the phi 1 and the `add` 2 use each other: both
schedulers terminate on the `add`, and return. -/
theorem scheduling_terminates_witness :
    unvisitedCount exCycF exCycS = 5 ∧
    (scheduleEarly exCycF exCycDT 6 2 exCycS).toOption.map (fun s => s.visited)
      = some [1, 2] ∧
    (scheduleLate exCycF exCycDT exCycLI 8 2 exCycS).toOption.map (fun s => s.visited)
      = some [2] ∧
    scheduleEarly exCycF exCycDT 6 2 exCycS ≠ .error .outOfFuel ∧
    scheduleLate exCycF exCycDT exCycLI 8 2 exCycS ≠ .error .outOfFuel ∧
    (∃ s1, scheduleEarly exCycF exCycDT 6 2 exCycS = .ok s1) ∧
    scheduleLate exCycF exCycDT exCycLI 8 2 exCycS = .ok (exCycS.markVisited 2) :=
  ⟨by rfl, by rfl, by rfl,
    (scheduling_terminates exCycF exCycDT exCycLI (by rfl) (by decide)).1 6 2 exCycS
      (by decide),
    (scheduling_terminates exCycF exCycDT exCycLI (by rfl) (by decide)).2.1 8 2 exCycS
      (by decide),
    (scheduling_terminates exCycF exCycDT exCycLI (by rfl) (by decide)).2.2.2.2.2.2.2.1
      6 2 exCycS
      (annotateBasicBlocks_depthOK exCycDT (by rfl) (by decide) 10 [] _ (by rfl))
      (runCheck_spec (by decide)) ⟨1, by rfl⟩ (by decide),
    (scheduling_terminates exCycF exCycDT exCycLI (by rfl) (by decide)).2.2.2.2.2.2.2.2
      6 2 1 exCycS (by rfl) (by rfl) (by decide) (by rfl)⟩

end GCM
